import Mathlib

/-!
# preexec: the inspection engine and the rewriter

A shallow embedding of `internal/types`, `internal/rules`, `internal/engine`
and `internal/rewrite` of `makalin/preexec`.

Conventions of the embedding.

* A Go `string` is a sequence of bytes: `GoString = List Nat`, every byte a
  natural number below 256.  No definition uses the bound, so a statement
  proved for every list holds in particular for every byte string.
* A `rune` is a natural number (the code point).
* A Go run-time panic (index or slice out of range) is `none`.
* Loops are recursive functions, on a counter where the Go loop moves an
  index through the string; the counter is the number of bytes left, which
  bounds the number of iterations.
* The Unicode tables of the Go standard library that the code consults
  (`unicode.ToLower`, the `Cyrillic` and `Greek` scripts) are a parameter,
  `UnicodeTables`.
-/

namespace Preexec

/-- A Go string: its bytes. -/
abbrev GoString := List Nat

/-! ## `unicode/utf8` -/

namespace utf8

/-- The "error" rune, `utf8.RuneError`. -/
def RuneError : Nat := 0xFFFD

/-- Bounds of the second byte that the first byte `s0` of a multi-byte
sequence accepts (`acceptRanges`). -/
def acceptRange (s0 : Nat) : Nat × Nat :=
  if s0 = 0xE0 then (0xA0, 0xBF)
  else if s0 = 0xED then (0x80, 0x9F)
  else if s0 = 0xF0 then (0x90, 0xBF)
  else if s0 = 0xF4 then (0x80, 0x8F)
  else (0x80, 0xBF)

/-- The rune at the start of `s` and its width in bytes:
`utf8.DecodeRuneInString`.  An empty string gives `(RuneError, 0)`, an
invalid encoding `(RuneError, 1)`.  The masks and shifts of the source are
written as remainders and products. -/
def DecodeRuneInString (s : GoString) : Nat × Nat :=
  match s with
  | [] => (RuneError, 0)
  | s0 :: t =>
    if s0 < 0x80 then (s0, 1)
    else if s0 < 0xC2 ∨ 0xF4 < s0 then (RuneError, 1)
    else
      let sz := if s0 < 0xE0 then 2 else if s0 < 0xF0 then 3 else 4
      let acc := acceptRange s0
      if s.length < sz then (RuneError, 1)
      else
        match t with
        | [] => (RuneError, 1)
        | s1 :: t1 =>
          if s1 < acc.1 ∨ acc.2 < s1 then (RuneError, 1)
          else if sz ≤ 2 then ((s0 % 32) * 64 + s1 % 64, 2)
          else
            match t1 with
            | [] => (RuneError, 1)
            | s2 :: t2 =>
              if s2 < 0x80 ∨ 0xBF < s2 then (RuneError, 1)
              else if sz ≤ 3 then ((s0 % 16) * 4096 + (s1 % 64) * 64 + s2 % 64, 3)
              else
                match t2 with
                | [] => (RuneError, 1)
                | s3 :: _ =>
                  if s3 < 0x80 ∨ 0xBF < s3 then (RuneError, 1)
                  else ((s0 % 8) * 262144 + (s1 % 64) * 4096 + (s2 % 64) * 64 + s3 % 64, 4)

/-- Whether a byte can start a rune: `utf8.RuneStart`. -/
def RuneStart (b : Nat) : Bool := !(0x80 ≤ b && b < 0xC0)

/-- The backward scan `for start--; start >= lim; start--` of
`DecodeLastRuneInString`, which stops at a byte that can start a rune.
`start` can reach `-1`, so the function works on `start1 = start + 1` and
returns the final `start + 1`; `n` bounds the iterations. -/
def lastRuneStart (s : GoString) (lim : Nat) : Nat → Nat → Nat
  | 0, start1 => start1
  | n + 1, start1 =>
    if start1 = 0 then 0
    else if start1 - 1 < lim then start1
    else if RuneStart (s.getD (start1 - 1) 0) then start1
    else lastRuneStart s lim n (start1 - 1)

/-- The last rune of `s` and its width: `utf8.DecodeLastRuneInString`. -/
def DecodeLastRuneInString (s : GoString) : Nat × Nat :=
  let e := s.length
  if e = 0 then (RuneError, 0)
  else
    let r := s.getD (e - 1) 0
    if r < 0x80 then (r, 1)
    else
      let lim := e - 4
      -- the scan starts at `start = e - 2`, that is `start1 = e - 1`
      let start1 := lastRuneStart s lim 4 (e - 1)
      -- `if start < 0 { start = 0 }`: the truncated subtraction does it
      let start := start1 - 1
      let d := DecodeRuneInString ((s.drop start).take (e - start))
      if start + d.2 ≠ e then (RuneError, 1) else d

/-- The UTF-8 encoding of a rune: `utf8.AppendRune` to an empty buffer
(what `strings.Builder.WriteRune` appends).  Surrogates and values above
U+10FFFF are written as U+FFFD. -/
def EncodeRune (r : Nat) : GoString :=
  if r ≤ 0x7F then [r]
  else if r ≤ 0x7FF then [0xC0 + r / 64, 0x80 + r % 64]
  else if 0x10FFFF < r ∨ (0xD800 ≤ r ∧ r ≤ 0xDFFF) then [0xEF, 0xBF, 0xBD]
  else if r ≤ 0xFFFF then [0xE0 + r / 4096, 0x80 + r / 64 % 64, 0x80 + r % 64]
  else [0xF0 + r / 262144, 0x80 + r / 4096 % 64, 0x80 + r / 64 % 64, 0x80 + r % 64]

/-- A rune that can be encoded: not a surrogate and at most U+10FFFF
(`utf8.ValidRune`). -/
def ValidRune (r : Nat) : Prop := r < 0xD800 ∨ (0xDFFF < r ∧ r ≤ 0x10FFFF)

instance ValidRune.decidable (r : Nat) : Decidable (ValidRune r) :=
  inferInstanceAs (Decidable (r < 0xD800 ∨ (0xDFFF < r ∧ r ≤ 0x10FFFF)))

/-- A string that is valid UTF-8: the encodings of valid runes, one after
the other (what `utf8.ValidString` accepts). -/
def ValidString (s : GoString) : Prop :=
  ∃ rs : List Nat, (∀ r ∈ rs, ValidRune r) ∧ s = rs.flatMap EncodeRune

end utf8

/-- A string literal of the source, as its UTF-8 bytes. -/
def str (s : String) : GoString := s.toList.flatMap (fun c => utf8.EncodeRune c.toNat)

/-- The loop `for i, ru := range s` from byte offset `i`: the pairs
`(i, ru)` it visits, in order.  `n` bounds the iterations. -/
def rangeFrom (s : GoString) : Nat → Nat → List (Nat × Nat)
  | 0, _ => []
  | n + 1, i =>
    if i < s.length then
      let d := utf8.DecodeRuneInString (s.drop i)
      (i, d.1) :: rangeFrom s n (i + d.2)
    else []

/-- The pairs (byte offset, rune) of `for i, ru := range s`. -/
def rangeString (s : GoString) : List (Nat × Nat) := rangeFrom s s.length 0

/-- The code points `rs` of a string that starts at byte offset `i`, each
with the byte offset at which its encoding starts. -/
def runeOffsets : Nat → List Nat → List (Nat × Nat)
  | _, [] => []
  | i, r :: rs => (i, r) :: runeOffsets (i + (utf8.EncodeRune r).length) rs

/-! ## `unicode` and `strings` -/

/-- The tables of Go's `unicode` package that the code consults, for runes
above U+007F: the lower-case mapping (`unicode.ToLower`, from
`unicode.CaseRanges`) and membership in the scripts `unicode.Cyrillic` and
`unicode.Greek`. -/
structure UnicodeTables where
  toLower : Nat → Nat
  isCyrillic : Nat → Bool
  isGreek : Nat → Bool

/-- Tables for the examples.  The case table has the entries of Unicode's
for the letters the examples use, U+023A (lower case U+2C65, one byte
longer in UTF-8) and U+212A (Kelvin sign, lower case `k`), and leaves every
other code point unchanged; the scripts are the Cyrillic and the Greek
block. -/
def sampleTables : UnicodeTables where
  toLower := fun r => if r = 0x23A then 0x2C65 else if r = 0x212A then 0x6B else r
  isCyrillic := fun r => 0x0400 ≤ r && r ≤ 0x04FF
  isGreek := fun r => 0x0370 ≤ r && r ≤ 0x03FF

namespace unicode

/-- The lower case of a rune, `unicode.ToLower`: ASCII is handled in the
function itself, everything else goes to the case table. -/
def ToLower (U : UnicodeTables) (r : Nat) : Nat :=
  if r ≤ 0x7F then
    if 0x41 ≤ r ∧ r ≤ 0x5A then r + 0x20 else r
  else U.toLower r

/-- White space as `unicode.IsSpace` defines it: the Latin-1 spaces, and
above Latin-1 the code points with the property `White_Space`. -/
def IsSpace (r : Nat) : Bool :=
  if r ≤ 0xFF then
    r = 0x09 || r = 0x0A || r = 0x0B || r = 0x0C || r = 0x0D || r = 0x20 || r = 0x85 || r = 0xA0
  else
    r = 0x1680 || (0x2000 ≤ r && r ≤ 0x200A) || r = 0x2028 || r = 0x2029 || r = 0x202F
      || r = 0x205F || r = 0x3000

/-- The range table `unicode.Cc` (control characters): the pairs of the
first and the last code point of each range. -/
def Cc : List (Nat × Nat) := [(0x0000, 0x001F), (0x007F, 0x009F)]

/-- Whether a rune is in a range table: `unicode.Is`. -/
def Is (table : List (Nat × Nat)) (r : Nat) : Bool :=
  table.any (fun p => decide (p.1 ≤ r) && decide (r ≤ p.2))

end unicode

namespace utf8

/-- The number of bytes of the encoding of a valid rune: `utf8.RuneLen`
(Go returns `-1` for a surrogate or a value above U+10FFFF; here `0`). -/
def RuneLen (r : Nat) : Nat :=
  if r ≤ 0x7F then 1
  else if r ≤ 0x7FF then 2
  else if 0xD800 ≤ r ∧ r ≤ 0xDFFF then 0
  else if r ≤ 0xFFFF then 3
  else if r ≤ 0x10FFFF then 4
  else 0

end utf8

namespace strings

/-- The search of `strings.Index` from offset `i` of the original string,
`s` being what is left of it. -/
def indexFrom (substr : GoString) : GoString → Nat → Option Nat
  | [], i => if substr = [] then some i else none
  | c :: t, i => if substr.isPrefixOf (c :: t) then some i else indexFrom substr t (i + 1)

/-- The byte offset of the first occurrence of `substr` in `s`:
`strings.Index`, with `none` for `-1`. -/
def Index (s substr : GoString) : Option Nat := indexFrom substr s 0

/-- Whether `substr` occurs in `s`: `strings.Contains`. -/
def Contains (s substr : GoString) : Bool := (Index s substr).isSome

/-- Whether `s` ends with `suffix`: `strings.HasSuffix`. -/
def HasSuffix (s suffix : GoString) : Bool := suffix.isSuffixOf s

/-- Whether `s` starts with `pre`: `strings.HasPrefix`. -/
def HasPrefix (s pre : GoString) : Bool := pre.isPrefixOf s

/-- The string without the leading `pre`, or the string itself when it does
not start with `pre`: `strings.TrimPrefix`. -/
def TrimPrefix (s pre : GoString) : GoString :=
  if HasPrefix s pre then s.drop pre.length else s

/-- The first loop of `strings.Map`, over the pairs of `range s`: the
offset of the first rune that the mapping changes (or that is an invalid
byte), with the mapped rune and the width to skip. -/
def mapFirst (mapping : Nat → Nat) (s : GoString) : List (Nat × Nat) → Option (Nat × Nat × Nat)
  | [] => none
  | (i, c) :: rest =>
    let r := mapping c
    if r = c ∧ c ≠ utf8.RuneError then mapFirst mapping s rest
    else if c = utf8.RuneError then
      let d := utf8.DecodeRuneInString (s.drop i)
      if d.2 ≠ 1 ∧ r = d.1 then mapFirst mapping s rest
      else some (i, r, d.2)
    else some (i, r, utf8.RuneLen c)

/-- The string with every rune replaced by its image: `strings.Map`, for a
mapping that returns no negative value.  Up to the first rune that changes
the bytes are copied; from there on every rune is mapped and encoded, an
invalid byte counting as U+FFFD. -/
def Map (mapping : Nat → Nat) (s : GoString) : GoString :=
  match mapFirst mapping s (rangeString s) with
  | none => s
  | some (i, r, width) =>
    s.take i ++ utf8.EncodeRune r
      ++ (rangeString (s.drop (i + width))).flatMap (fun p => utf8.EncodeRune (mapping p.2))

/-- The lower-case copy of a string: `strings.ToLower`.  An all-ASCII string
is lowered byte by byte; any other goes through `Map`. -/
def ToLower (U : UnicodeTables) (s : GoString) : GoString :=
  if s.all (fun c => decide (c < 0x80)) then
    s.map (fun c => if 0x41 ≤ c ∧ c ≤ 0x5A then c + 0x20 else c)
  else Map (unicode.ToLower U) s

/-- The table `asciiSpace` of package `strings`. -/
def asciiSpace (c : Nat) : Bool :=
  c = 0x09 || c = 0x0A || c = 0x0B || c = 0x0C || c = 0x0D || c = 0x20

/-- The offset of the first rune `r` with `f r = truth`, `none` for `-1`:
`indexFunc`. -/
def indexFunc (s : GoString) (f : Nat → Bool) (truth : Bool) : Option Nat :=
  ((rangeString s).find? (fun p => f p.2 == truth)).map Prod.fst

/-- The loop of `lastIndexFunc` from offset `i` downwards. -/
def lastIndexFrom (s : GoString) (f : Nat → Bool) (truth : Bool) : Nat → Nat → Option Nat
  | 0, _ => none
  | n + 1, i =>
    if 0 < i then
      let d := utf8.DecodeLastRuneInString (s.take i)
      if f d.1 == truth then some (i - d.2) else lastIndexFrom s f truth n (i - d.2)
    else none

/-- The offset of the last rune `r` with `f r = truth`, `none` for `-1`:
`lastIndexFunc`. -/
def lastIndexFunc (s : GoString) (f : Nat → Bool) (truth : Bool) : Option Nat :=
  lastIndexFrom s f truth s.length s.length

/-- Drop the leading runes that satisfy `f`: `strings.TrimLeftFunc`. -/
def TrimLeftFunc (s : GoString) (f : Nat → Bool) : GoString :=
  match indexFunc s f false with
  | none => []
  | some i => s.drop i

/-- Drop the trailing runes that satisfy `f`: `strings.TrimRightFunc`. -/
def TrimRightFunc (s : GoString) (f : Nat → Bool) : GoString :=
  match lastIndexFunc s f false with
  | none => []
  | some i =>
    if 0x80 ≤ s.getD i 0 then s.take (i + (utf8.DecodeRuneInString (s.drop i)).2)
    else s.take (i + 1)

/-- Drop the runes that satisfy `f` at both ends: `strings.TrimFunc`. -/
def TrimFunc (s : GoString) (f : Nat → Bool) : GoString :=
  TrimRightFunc (TrimLeftFunc s f) f

/-- Drop the white space at both ends: `strings.TrimSpace`.  ASCII spaces
are removed byte by byte from the front and then from the back; at the
first non-ASCII byte met on the way the rest is left to the rune-wise
functions. -/
def TrimSpace (s : GoString) : GoString :=
  let start := (s.takeWhile (fun c => decide (c < 0x80) && asciiSpace c)).length
  if start < s.length ∧ 0x80 ≤ s.getD start 0 then TrimFunc (s.drop start) unicode.IsSpace
  else
    let mid := s.drop start
    let stop := mid.length - (mid.reverse.takeWhile (fun c => decide (c < 0x80) && asciiSpace c)).length
    if 0 < stop ∧ 0x80 ≤ mid.getD (stop - 1) 0 then TrimRightFunc (mid.take stop) unicode.IsSpace
    else mid.take stop

end strings

/-! ## `regexp`

Go's `regexp` finds the leftmost match and, among the matches that start
there, the one a backtracking search finds first: the left alternative
before the right one, one more iteration of a star before stopping.  The
matcher works on runes and reports byte offsets. -/

namespace regexp

/-- The regular expressions the rules are built from. -/
inductive Re where
  | empty : Re
  | cls (p : Nat → Bool) : Re
  | cat (a b : Re) : Re
  | alt (a b : Re) : Re
  | star (a : Re) : Re
  | wordBoundary : Re

/-- The greedy iterations of a star from offset `pos`, `step` giving the
ends of one iteration: the ends reached, longest preferred.  An iteration
that consumes nothing is not repeated. -/
def iterate (step : Nat → List Nat) : Nat → Nat → List Nat
  | 0, pos => [pos]
  | n + 1, pos => ((step pos).filter (fun e => pos < e)).flatMap (iterate step n) ++ [pos]

/-- An ASCII word character, the `\w` of `\b`. -/
def isWordChar (r : Nat) : Bool :=
  (0x30 ≤ r && r ≤ 0x39) || (0x41 ≤ r && r ≤ 0x5A) || (0x61 ≤ r && r ≤ 0x7A) || r = 0x5F

/-- Whether offset `pos` of `s` is at an ASCII word boundary: exactly one
of the rune before and the rune after is a word character (the ends of the
text count as a non-word rune). -/
def atWordBoundary (s : GoString) (pos : Nat) : Bool :=
  let before := if pos = 0 then false else isWordChar (utf8.DecodeLastRuneInString (s.take pos)).1
  let after := if pos < s.length then isWordChar (utf8.DecodeRuneInString (s.drop pos)).1 else false
  before != after

/-- The byte offsets at which a match of the expression that starts at
`pos` can end, in the order of preference of the backtracking search. -/
def Re.ends (s : GoString) : Re → Nat → List Nat
  | .empty, pos => [pos]
  | .cls p, pos =>
    if pos < s.length then
      let d := utf8.DecodeRuneInString (s.drop pos)
      if p d.1 then [pos + d.2] else []
    else []
  | .cat a b, pos => (a.ends s pos).flatMap (b.ends s)
  | .alt a b, pos => a.ends s pos ++ b.ends s pos
  | .star a, pos => iterate (a.ends s) (s.length - pos) pos
  | .wordBoundary, pos => if atWordBoundary s pos then [pos] else []

/-- The leftmost match at or after `pos`: the start is moved rune by rune
until a match exists. -/
def findFrom (re : Re) (s : GoString) : Nat → Nat → Option (Nat × Nat)
  | 0, _ => none
  | n + 1, pos =>
    match (re.ends s pos).head? with
    | some e => some (pos, e)
    | none =>
      if pos < s.length then findFrom re s n (pos + (utf8.DecodeRuneInString (s.drop pos)).2)
      else none

/-- The loop of `allMatches`: successive matches from `pos`, an empty match
right after the previous match being dropped. -/
def allFrom (re : Re) (s : GoString) : Nat → Nat → Option Nat → List (Nat × Nat)
  | 0, _, _ => []
  | n + 1, pos, prevMatchEnd =>
    if pos ≤ s.length then
      match findFrom re s (s.length + 1 - pos) pos with
      | none => []
      | some (a, b) =>
        if b = pos then
          let accept := !(some a == prevMatchEnd)
          let width := if pos < s.length then (utf8.DecodeRuneInString (s.drop pos)).2 else 0
          let pos1 := if 0 < width then pos + width else s.length + 1
          (if accept then [(a, b)] else []) ++ allFrom re s n pos1 (some b)
        else (a, b) :: allFrom re s n b (some b)
    else []

/-- The successive non-overlapping matches of `re` in `s`, each as the pair
of its start and end offsets: `FindAllStringIndex(s, -1)`. -/
def FindAllStringIndex (re : Re) (s : GoString) : List (Nat × Nat) :=
  allFrom re s (s.length + 2) 0 none

/-- A literal rune. -/
def chr (c : Char) : Re := .cls (fun r => r == c.toNat)

/-- A literal rune under `(?i)`: every rune of the same simple case-folding
orbit matches.  For an ASCII letter that is the letter in both cases, with
U+212A (Kelvin sign) for `k` and U+017F (long s) for `s`. -/
def chrFold (c : Char) : Re :=
  let l := if 0x41 ≤ c.toNat ∧ c.toNat ≤ 0x5A then c.toNat + 0x20 else c.toNat
  if 0x61 ≤ l ∧ l ≤ 0x7A then
    .cls (fun r => r == l || r == l - 0x20 || (l == 0x6B && r == 0x212A) || (l == 0x73 && r == 0x17F))
  else .cls (fun r => r == c.toNat)

/-- A sequence of expressions. -/
def seq : List Re → Re
  | [] => .empty
  | [a] => a
  | a :: rest => .cat a (seq rest)

/-- A literal string. -/
def lit (s : String) : Re := seq (s.toList.map chr)

/-- A literal string under `(?i)`. -/
def litFold (s : String) : Re := seq (s.toList.map chrFold)

/-- An alternation `a|b|...`, the first alternative preferred. -/
def alts : List Re → Re
  | [] => .cls (fun _ => false)
  | [a] => a
  | a :: rest => .alt a (alts rest)

/-- One or more, greedy: `a+`. -/
def plus (a : Re) : Re := .cat a (.star a)

/-- Zero or one, one preferred: `a?`. -/
def opt (a : Re) : Re := .alt a .empty

/-- The class `\s`: tab, newline, form feed, carriage return, space. -/
def space : Re := .cls (fun r => r == 0x09 || r == 0x0A || r == 0x0C || r == 0x0D || r == 0x20)

/-- A negated class `[^...]` of the listed runes. -/
def noneOf (cs : List Nat) : Re := .cls (fun r => !cs.contains r)

end regexp

/-! ## `internal/types` -/

namespace types

/-- Severity is pass, warn, or block: a Go `int`. -/
abbrev Severity := Int

/-- Pass. -/
def Pass : Severity := 0

/-- Warn. -/
def Warn : Severity := 10

/-- Block. -/
def Block : Severity := 20

/-- A single rule hit. -/
structure Finding where
  RuleID : GoString
  Severity : Severity
  Token : GoString
  Issue : GoString
  Position : Nat
  Suggestion : GoString
  deriving DecidableEq

end types

/-! ## `internal/rules` -/

namespace rules

open types

/-- The policy a rule asks, `RuleConfig`: the method `RuleEnabled` of a
value of the interface, or `none` for the nil interface. -/
abbrev RuleConfig := Option (GoString → Bool)

/-- The guard `cfg != nil && !cfg.RuleEnabled(name)` at the head of every
`Check`. -/
def disabled (cfg : RuleConfig) (name : GoString) : Bool :=
  match cfg with
  | none => false
  | some c => !c name

/-- The slice `s[a:b]` where the code has established `a ≤ b ≤ len(s)`. -/
def slice (s : GoString) (a b : Nat) : GoString := (s.drop a).take (b - a)

/-- The slice `s[a:b]` with Go's bounds check: a panic unless
`a ≤ b ≤ len(s)`. -/
def sliceChecked (s : GoString) (a b : Nat) : Option GoString :=
  if a ≤ b ∧ b ≤ s.length then some ((s.drop a).take (b - a)) else none

/-- The token of the finding is the text of the command at the position of
the finding. -/
def AtPosition (cmd : GoString) (f : Finding) : Prop :=
  f.Position + f.Token.length ≤ cmd.length
    ∧ slice cmd f.Position (f.Position + f.Token.length) = f.Token

/-- Whether the byte offset `j` lies in the range
`[f.Position, f.Position + len(f.Token))` of one of the findings `fs`. -/
def inRanges (fs : List Finding) (j : Nat) : Bool :=
  fs.any (fun f => decide (f.Position ≤ j) && decide (j < f.Position + f.Token.length))

/-- The command with the byte ranges `[f.Position, f.Position + len(f.Token))`
of the findings `fs` deleted: the bytes whose offset lies in none of the
ranges, in order. -/
def deleteRanges (cmd : GoString) (fs : List Finding) : GoString :=
  (cmd.enum.filter (fun p => !inRanges fs p.1)).map Prod.snd

/-- The bytes of the command from offset `i` on whose offset lies in none of
the ranges of the findings `fs`. -/
def keptFrom (cmd : GoString) (fs : List Finding) (i : Nat) : GoString :=
  ((List.enumFrom i (cmd.drop i)).filter (fun p => !inRanges fs p.1)).map Prod.snd

/-- A byte that ends an escape sequence: a byte in `[0x40, 0x7E]`, BEL or
newline. -/
def isTerminator (c : Nat) : Bool :=
  (decide (0x40 ≤ c) && decide (c ≤ 0x7E)) || c == 0x07 || c == 0x0A

/-- Cyrillic, Greek or Armenian block. -/
def isHomoglyphOrMixed (r : Nat) : Bool :=
  if 0x0400 ≤ r ∧ r ≤ 0x04FF then true
  else if 0x0370 ≤ r ∧ r ≤ 0x03FF then true
  else if 0x0530 ≤ r ∧ r ≤ 0x058F then true
  else false

/-- One hexadecimal digit, of the low four bits of `n`. -/
def hex (n : Nat) : Nat :=
  let n := n % 16
  if n < 10 then 0x30 + n else 0x41 + n - 10

/-- The four hexadecimal digits of the low sixteen bits of a rune. -/
def formatHex (r : Nat) : GoString :=
  [hex (r / 4096), hex (r / 256), hex (r / 16), hex r]

/-- The table `cyrToLat` of `describeRune`. -/
def describeTable : List (Nat × GoString) :=
  [
    (0x0430, str "Cyrillic 'а' (U+0430) used instead of Latin 'a' (U+0061)"),
    (0x0435, str "Cyrillic 'е' (U+0435) used instead of Latin 'e' (U+0065)"),
    (0x043E, str "Cyrillic 'о' (U+043E) used instead of Latin 'o' (U+006F)"),
    (0x043F, str "Cyrillic 'р' (U+043F) used instead of Latin 'p' (U+0070)"),
    (0x0441, str "Cyrillic 'с' (U+0441) used instead of Latin 'c' (U+0063)"),
    (0x0443, str "Cyrillic 'у' (U+0443) used instead of Latin 'y' (U+0079)"),
    (0x0445, str "Cyrillic 'х' (U+0445) used instead of Latin 'x' (U+0078)"),
    (0x0501, str "Cyrillic 'ԁ' (U+0501) used instead of Latin 'd' (U+0064)")
  ]

/-- The issue text for a flagged rune. -/
def describeRune (U : UnicodeTables) (r : Nat) : GoString :=
  match describeTable.lookup r with
  | some s => s
  | none =>
    if U.isCyrillic r then
      str "Cyrillic character (U+" ++ formatHex r ++ str ") may look like Latin"
    else if U.isGreek r then
      str "Greek character (U+" ++ formatHex r ++ str ") may look like Latin"
    else str "non-ASCII character U+" ++ formatHex r ++ str " in command"

/-- Whether offset `i` of `s` is at an end of the string or at a delimiter. -/
def isTokenBoundary (s : GoString) (i : Nat) : Bool :=
  if i = 0 ∨ s.length ≤ i then true
  else
    let r := (utf8.DecodeRuneInString (s.drop i)).1
    r = 0x20 || r = 0x7C || r = 0x26 || r = 0x3B || r = 0x0A || r = 0x22 || r = 0x27

/-- The first loop of `tokenAt`: `start` moves back rune by rune to a
boundary. -/
def tokenAtStart (s : GoString) : Nat → Nat → Nat
  | 0, start => start
  | n + 1, start =>
    if 0 < start ∧ !isTokenBoundary s start then
      tokenAtStart s n (start - (utf8.DecodeLastRuneInString (s.take start)).2)
    else start

/-- The second loop of `tokenAt`: `end` moves forward rune by rune to a
boundary. -/
def tokenAtEnd (s : GoString) : Nat → Nat → Nat
  | 0, e => e
  | n + 1, e =>
    if e < s.length ∧ !isTokenBoundary s e then
      tokenAtEnd s n (e + (utf8.DecodeRuneInString (s.drop e)).2)
    else e

/-- The token around offset `pos`. -/
def tokenAt (s : GoString) (pos : Nat) : GoString :=
  slice s (tokenAtStart s s.length pos) (tokenAtEnd s s.length pos)

namespace UnicodeHomoglyphRule

/-- Rule identifier. -/
def ID : GoString := str "unicode-homoglyph"

/-- Mixed scripts and homoglyphs: one finding per flagged rune. -/
def Check (U : UnicodeTables) (cmd : GoString) (cfg : RuleConfig) : List Finding :=
  if disabled cfg (str "unicode_homoglyph") then []
  else
    (rangeString cmd).filterMap (fun p =>
      if 0x7F < p.2 ∧ isHomoglyphOrMixed p.2 then
        some {
          RuleID := ID
          Severity := Warn
          Token := tokenAt cmd p.1
          Issue := describeRune U p.2
          Position := p.1
          Suggestion := str "use ASCII-only domain" }
      else none)

end UnicodeHomoglyphRule

namespace ZeroWidthRule

/-- Rule identifier. -/
def ID : GoString := str "zero-width"

/-- Zero-width space, joiners, BOM, word joiner, Mongolian vowel separator. -/
def bad : List Nat := [0x200B, 0x200C, 0x200D, 0xFEFF, 0x2060, 0x180E]

/-- Zero-width and invisible Unicode: one finding per rune of `bad`. -/
def Check (cmd : GoString) (cfg : RuleConfig) : List Finding :=
  if disabled cfg (str "zero_width") then []
  else
    (rangeString cmd).filterMap (fun p =>
      if bad.contains p.2 then
        some {
          RuleID := ID
          Severity := Block
          Token := utf8.EncodeRune p.2
          Issue := str "zero-width or invisible character (U+" ++ formatHex p.2 ++ str ") detected"
          Position := p.1
          Suggestion := str "paste as plain text; remove hidden characters" }
      else none)

end ZeroWidthRule

namespace BidiControlsRule

/-- Rule identifier. -/
def ID : GoString := str "bidi-controls"

/-- RLO, LRO, FSI, PDI. -/
def bad : List Nat := [0x202E, 0x202D, 0x2066, 0x2069]

/-- Bidirectional overrides: one finding per rune of `bad`. -/
def Check (cmd : GoString) (cfg : RuleConfig) : List Finding :=
  if disabled cfg (str "bidi_controls") then []
  else
    (rangeString cmd).filterMap (fun p =>
      if bad.contains p.2 then
        some {
          RuleID := ID
          Severity := Block
          Token := utf8.EncodeRune p.2
          Issue := str "BiDi control character (U+" ++ formatHex p.2 ++ str ") can reorder text"
          Position := p.1
          Suggestion := str "remove bidirectional override characters" }
      else none)

end BidiControlsRule

namespace ANSIEscapeRule

/-- Rule identifier. -/
def ID : GoString := str "ansi-escape"

/-- The inner loop of `Check`: from `e`, the end of the escape sequence that
starts at `i`.  It stops after a byte in `[0x40, 0x7E]`, after BEL or
newline, when more than 64 bytes are consumed, or at the end of `cmd`. -/
def spanEnd (cmd : GoString) (i : Nat) : Nat → Nat → Nat
  | 0, e => e
  | n + 1, e =>
    if e < cmd.length then
      let c := cmd.getD e 0
      if 0x40 ≤ c ∧ c ≤ 0x7E then e + 1
      else if c = 0x07 ∨ c = 0x0A then e + 1
      else if 64 < e + 1 - i then e + 1
      else spanEnd cmd i n (e + 1)
    else e

/-- The outer loop of `Check` over the bytes of `cmd` from offset `i`. -/
def loop (cmd : GoString) : Nat → Nat → List Finding → List Finding
  | 0, _, out => out
  | n + 1, i, out =>
    if i < cmd.length then
      if cmd.getD i 0 = 0x1B then
        let e := spanEnd cmd i cmd.length (i + 1)
        let token := slice cmd i e
        loop cmd n (e - 1 + 1) (out ++ [{
          RuleID := ID
          Severity := Warn
          Token := token
          Issue := str "ESC (U+001B) control sequence detected"
          Position := i
          Suggestion := str "paste as plain text" }])
      else loop cmd n (i + 1) out
    else out

/-- ANSI escape sequences: one finding per ESC byte outside an earlier span. -/
def Check (cmd : GoString) (cfg : RuleConfig) : List Finding :=
  if disabled cfg (str "ansi_escape") then []
  else loop cmd cmd.length 0 []

end ANSIEscapeRule

open regexp in
/-- The pattern `(?i)(curl|wget)\s+[^|]*\s*\|\s*(bash|sh|zsh|dash|ksh|csh|tcsh)\b`. -/
def pipeToShellRe : regexp.Re :=
  seq [alts [litFold "curl", litFold "wget"], plus space, .star (noneOf [0x7C]), .star space,
    chr '|', .star space,
    alts [litFold "bash", litFold "sh", litFold "zsh", litFold "dash", litFold "ksh",
      litFold "csh", litFold "tcsh"],
    .wordBoundary]

namespace PipeToShellRule

/-- Rule identifier. -/
def ID : GoString := str "pipe-to-shell"

/-- Matches of `curl|bash`, `wget|sh` and the like. -/
def Check (cmd : GoString) (cfg : RuleConfig) : List Finding :=
  if disabled cfg (str "pipe_to_shell") then []
  else
    (regexp.FindAllStringIndex pipeToShellRe cmd).map (fun loc =>
      let token := slice cmd loc.1 loc.2
      { RuleID := ID
        Severity := Warn
        Token := token
        Issue := str "pattern: " ++ token
        Position := loc.1
        Suggestion := str "download, inspect, then execute" })

end PipeToShellRule

/-- The fragments looked for by the dotfile rule. -/
def dotfileTargets : List GoString :=
  [str ".bashrc", str ".zshrc", str ".profile", str ".bash_profile", str ".ssh/", str ">>", str ">"]

/-- The first loop of `tokenAround`: `from` moves back while the byte
before it is neither a space nor a newline.  The index `s[from-1]` is
checked. -/
def tokenAroundFrom (s : GoString) : Nat → Option Nat
  | 0 => some 0
  | k + 1 =>
    match s[k]? with
    | none => none
    | some c => if c ≠ 0x20 ∧ c ≠ 0x0A then tokenAroundFrom s k else some (k + 1)

/-- The second loop of `tokenAround`: `to` moves forward to a space, a
newline or the end of `s`. -/
def tokenAroundTo (s : GoString) : Nat → Nat → Nat
  | 0, t => t
  | n + 1, t =>
    if t < s.length ∧ s.getD t 0 ≠ 0x20 ∧ s.getD t 0 ≠ 0x0A then tokenAroundTo s n (t + 1)
    else t

/-- The word of `s` around the bytes `[start, start + width)`; a panic when
an index or the final slice is out of range. -/
def tokenAround (s : GoString) (start width : Nat) : Option GoString :=
  match tokenAroundFrom s start with
  | none => none
  | some fr => sliceChecked s fr (tokenAroundTo s s.length (start + width))

namespace DotfileWriteRule

/-- Rule identifier. -/
def ID : GoString := str "dotfile-write"

/-- The loop of `Check` over the targets, `lower` being the lower-case copy
of `cmd`. -/
def loop (cmd lower : GoString) : List GoString → List Finding → Option (List Finding)
  | [], out => some out
  | target :: rest, out =>
    match strings.Index lower target with
    | none => loop cmd lower rest out
    | some idx =>
      let before := strings.TrimSpace (lower.take idx)
      if strings.HasSuffix before (str ">>") || strings.HasSuffix before (str ">")
          || strings.Contains before (str "echo") || strings.Contains before (str "cat") then
        match tokenAround cmd idx target.length with
        | none => none
        | some token =>
          loop cmd lower rest (out ++ [{
            RuleID := ID
            Severity := Warn
            Token := token
            Issue := str "writes to: " ++ target
            Position := idx
            Suggestion := str "review before writing to dotfiles or .ssh" }])
      else loop cmd lower rest out

/-- Writes to `.bashrc`, `.zshrc`, `.profile`, `.ssh` and the like; `none`
when `tokenAround` panics. -/
def Check (U : UnicodeTables) (cmd : GoString) (cfg : RuleConfig) : Option (List Finding) :=
  if disabled cfg (str "dotfile_write") then some []
  else loop cmd (strings.ToLower U cmd) dotfileTargets []

end DotfileWriteRule

open regexp in
/-- The pattern `(?i)(crontab\s|/etc/cron|/var/spool/cron)`. -/
def cronRe : regexp.Re :=
  alts [seq [litFold "crontab", space], litFold "/etc/cron", litFold "/var/spool/cron"]

open regexp in
/-- The pattern `(?i)(systemctl\s+(enable|start)|/etc/systemd)`. -/
def systemdRe : regexp.Re :=
  alts [seq [litFold "systemctl", plus space, alts [litFold "enable", litFold "start"]],
    litFold "/etc/systemd"]

open regexp in
/-- The pattern `(?i)(launchd|launchctl\s+load|~/Library/LaunchAgents)`. -/
def launchdRe : regexp.Re :=
  alts [litFold "launchd", seq [litFold "launchctl", plus space, litFold "load"],
    litFold "~/Library/LaunchAgents"]

open regexp in
/-- The pattern `eval\s*\$?\s*\(`. -/
def evalRe : regexp.Re :=
  seq [lit "eval", .star space, opt (chr '$'), .star space, chr '(']

namespace PersistenceRule

/-- Rule identifier. -/
def ID : GoString := str "persistence-patterns"

/-- Matches of the cron, systemd, launchd and eval patterns, pattern by
pattern. -/
def Check (cmd : GoString) (cfg : RuleConfig) : List Finding :=
  if disabled cfg (str "persistence_patterns") then []
  else
    [cronRe, systemdRe, launchdRe, evalRe].flatMap (fun re =>
      (regexp.FindAllStringIndex re cmd).map (fun loc =>
        let token := slice cmd loc.1 loc.2
        { RuleID := ID
          Severity := Warn
          Token := token
          Issue :=
            if strings.Contains token (str "eval") then str "eval $(...) can run arbitrary code"
            else str "suspicious persistence or dynamic execution: " ++ token
          Position := loc.1
          Suggestion := str "review before enabling cron/systemd/launchd or using eval" }))

end PersistenceRule

/-- Common shortener and redirect domains. -/
def shortenerDomains : List GoString :=
  [str "bit.ly", str "tinyurl.com", str "t.co", str "goo.gl", str "ow.ly",
   str "is.gd", str "buff.ly", str "adf.ly", str "j.mp", str "bc.vc",
   str "bit.do", str "lnkd.in", str "db.tt", str "short.link", str "cutt.ly"]

open regexp in
/-- The pattern `https?://[^\s'"<>|&;]+`. -/
def urlLikeRe : regexp.Re :=
  seq [lit "http", opt (chr 's'), lit "://",
    plus (noneOf [0x09, 0x0A, 0x0C, 0x0D, 0x20, 0x27, 0x22, 0x3C, 0x3E, 0x7C, 0x26, 0x3B])]

namespace ShortenerRule

/-- Rule identifier. -/
def ID : GoString := str "shortener-domains"

/-- URL-like substrings that contain a shortener domain; the first domain
of the list that occurs is reported. -/
def Check (U : UnicodeTables) (cmd : GoString) (cfg : RuleConfig) : List Finding :=
  if disabled cfg (str "shortener_domains") then []
  else
    (regexp.FindAllStringIndex urlLikeRe cmd).flatMap (fun loc =>
      let url := slice cmd loc.1 loc.2
      let lower := strings.ToLower U url
      match shortenerDomains.find? (fun domain => strings.Contains lower domain) with
      | some domain =>
        [{ RuleID := ID
           Severity := Warn
           Token := url
           Issue := str "URL shortener or redirect domain: " ++ domain
           Position := loc.1
           Suggestion := str "use full URL or trusted source" }]
      | none => [])

end ShortenerRule

open regexp in
/-- The pattern `\$\([^)]*\)`. -/
def subshellDollarRe : regexp.Re :=
  seq [chr '$', chr '(', .star (noneOf [0x29]), chr ')']

open regexp in
/-- The pattern of a backtick, any runes but a backtick, a backtick. -/
def subshellBacktickRe : regexp.Re :=
  seq [.cls (fun r => r == 0x60), .star (noneOf [0x60]), .cls (fun r => r == 0x60)]

open regexp in
/-- The pattern `<\([^)]*\)`. -/
def processSubstRe : regexp.Re :=
  seq [chr '<', chr '(', .star (noneOf [0x29]), chr ')']

namespace SubshellRule

/-- Rule identifier. -/
def ID : GoString := str "subshell-command"

/-- Matches of the three substitution patterns, pattern by pattern; the
flag marks `processSubstRe`, whose matches get their own issue text. -/
def Check (cmd : GoString) (cfg : RuleConfig) : List Finding :=
  if disabled cfg (str "subshell_command") then []
  else
    [(subshellDollarRe, false), (subshellBacktickRe, false), (processSubstRe, true)].flatMap
      (fun re =>
        (regexp.FindAllStringIndex re.1 cmd).map (fun loc =>
          let token := slice cmd loc.1 loc.2
          { RuleID := ID
            Severity := Warn
            Token := token
            Issue :=
              if re.2 then str "process substitution: " ++ token
              else str "command substitution or subshell: " ++ token
            Position := loc.1
            Suggestion := str "ensure substituted command is trusted" }))

end SubshellRule

/-- A rule inspects a command string and reports findings; `Check` is
`none` when it panics. -/
structure Rule where
  ID : GoString
  Check : GoString → RuleConfig → Option (List Finding)

/-- All built-in rules, in their declared order. -/
def All (U : UnicodeTables) : List Rule :=
  [ ⟨UnicodeHomoglyphRule.ID, fun cmd cfg => some (UnicodeHomoglyphRule.Check U cmd cfg)⟩,
    ⟨ZeroWidthRule.ID, fun cmd cfg => some (ZeroWidthRule.Check cmd cfg)⟩,
    ⟨BidiControlsRule.ID, fun cmd cfg => some (BidiControlsRule.Check cmd cfg)⟩,
    ⟨ANSIEscapeRule.ID, fun cmd cfg => some (ANSIEscapeRule.Check cmd cfg)⟩,
    ⟨PipeToShellRule.ID, fun cmd cfg => some (PipeToShellRule.Check cmd cfg)⟩,
    ⟨DotfileWriteRule.ID, fun cmd cfg => DotfileWriteRule.Check U cmd cfg⟩,
    ⟨PersistenceRule.ID, fun cmd cfg => some (PersistenceRule.Check cmd cfg)⟩,
    ⟨ShortenerRule.ID, fun cmd cfg => some (ShortenerRule.Check U cmd cfg)⟩,
    ⟨SubshellRule.ID, fun cmd cfg => some (SubshellRule.Check cmd cfg)⟩ ]

end rules

/-! ## `internal/engine` -/

namespace engine

open types rules

/-- The outcome of checking a command. -/
structure Result where
  Severity : Severity
  Findings : List Finding
  deriving DecidableEq

/-- The highest severity in the findings. -/
def Result.WorstSeverity (r : Result) : types.Severity :=
  r.Findings.foldl (fun s f => if s < f.Severity then f.Severity else s) Pass

/-- The CLI exit code for this result. -/
def Result.ExitCode (r : Result) : Int :=
  let w := r.WorstSeverity
  if w = Block then 20
  else if w = Warn then 10
  else 0

/-- The loop of `Run` over the rules: each rule's findings are appended; a
panic in a `Check` ends the run. -/
def runRules (cmd : GoString) (cfg : RuleConfig) : List Rule → Result → Option Result
  | [], res => some res
  | rule :: rest, res =>
    match rule.Check cmd cfg with
    | none => none
    | some f => runRules cmd cfg rest { res with Findings := res.Findings ++ f }

/-- Run all rules on `cmd` and return the aggregated result; `none` when a
rule panics. -/
def Run (U : UnicodeTables) (cmd : GoString) (cfg : RuleConfig) : Option Result :=
  match runRules cmd cfg (All U) { Severity := Pass, Findings := [] } with
  | none => none
  | some res => some { res with Severity := res.WorstSeverity }

end engine

/-! ## `internal/rewrite` -/

namespace rewrite

/-- The inner loop of `SafeRewrite`: from `e`, the end of the escape
sequence that starts at `i`. -/
def escEnd (cmd : GoString) (i : Nat) : Nat → Nat → Nat
  | 0, e => e
  | n + 1, e =>
    if e < cmd.length then
      let c := cmd.getD e 0
      if (0x40 ≤ c ∧ c ≤ 0x7E) ∨ c = 0x07 ∨ c = 0x0A then e + 1
      else if 64 < e + 1 - i then e + 1
      else escEnd cmd i n (e + 1)
    else e

/-- Zero-width and bidirectional control runes. -/
def isZeroWidthOrBidi (r : Nat) : Bool :=
  if r = 0x200B ∨ r = 0x200C ∨ r = 0x200D ∨ r = 0xFEFF ∨ r = 0x2060 ∨ r = 0x180E then true
  else if r = 0x202E ∨ r = 0x202D ∨ r = 0x2066 ∨ r = 0x2069 then true
  else false

/-- The runes `SafeRewrite` writes: valid, and neither U+FFFD, nor ESC, nor a
zero-width or bidi control. -/
def Kept (r : Nat) : Prop :=
  utf8.ValidRune r ∧ r ≠ utf8.RuneError ∧ r ≠ 0x1B ∧ isZeroWidthOrBidi r = false

/-- The table `cyrToLat` of `homoglyphToLatin`. -/
def cyrToLat : List (Nat × Nat) :=
  [(0x0430, 0x61), (0x0435, 0x65), (0x043E, 0x6F), (0x043F, 0x70),
   (0x0441, 0x63), (0x0443, 0x79), (0x0445, 0x78), (0x0501, 0x64),
   (0x0432, 0x62), (0x0437, 0x7A), (0x0438, 0x75), (0x0439, 0x69),
   (0x043A, 0x6B), (0x043C, 0x6D), (0x043D, 0x6E), (0x0433, 0x67),
   (0x0442, 0x74), (0x0440, 0x72), (0x0444, 0x66)]

/-- The Latin equivalent of a common Cyrillic lookalike, or 0. -/
def homoglyphToLatin (r : Nat) : Nat :=
  match cyrToLat.lookup r with
  | some lat => lat
  | none => 0

/-- The loop of `SafeRewrite` from offset `i`, `b` being what the builder
holds. -/
def rewriteLoop (cmd : GoString) (normalizeHomoglyphs : Bool) : Nat → Nat → GoString → GoString
  | 0, _, b => b
  | n + 1, i, b =>
    if i < cmd.length then
      let d := utf8.DecodeRuneInString (cmd.drop i)
      if d.1 = utf8.RuneError then rewriteLoop cmd normalizeHomoglyphs n (i + 1) b
      else if d.1 = 0x1B then
        rewriteLoop cmd normalizeHomoglyphs n (escEnd cmd i cmd.length (i + 1)) b
      else if isZeroWidthOrBidi d.1 then rewriteLoop cmd normalizeHomoglyphs n (i + d.2) b
      else
        let r :=
          if normalizeHomoglyphs then
            if homoglyphToLatin d.1 ≠ 0 then homoglyphToLatin d.1 else d.1
          else d.1
        rewriteLoop cmd normalizeHomoglyphs n (i + d.2) (b ++ utf8.EncodeRune r)
    else b

/-- A safer version of the command: ANSI escape sequences stripped,
zero-width and BiDi controls removed, common homoglyphs optionally folded
to Latin. -/
def SafeRewrite (cmd : GoString) (normalizeHomoglyphs : Bool) : GoString :=
  rewriteLoop cmd normalizeHomoglyphs cmd.length 0 []

/-- Remove all ANSI escape sequences from `s`. -/
def StripANSI (s : GoString) : GoString := SafeRewrite s false

/-- The loop of `VisibleRunes` from offset `i`, `n` being the count so far.
Its scan of an escape sequence is the one of `SafeRewrite`. -/
def visibleLoop (s : GoString) : Nat → Nat → Nat → Nat
  | 0, _, n => n
  | k + 1, i, n =>
    if i < s.length then
      let d := utf8.DecodeRuneInString (s.drop i)
      if d.1 = utf8.RuneError then visibleLoop s k (i + 1) n
      else if d.1 = 0x1B then visibleLoop s k (escEnd s i s.length (i + 1)) n
      else if !isZeroWidthOrBidi d.1 && !unicode.Is unicode.Cc d.1 then
        visibleLoop s k (i + d.2) (n + 1)
      else visibleLoop s k (i + d.2) n
    else n

/-- The number of visible (non-ANSI, non-zero-width) runes. -/
def VisibleRunes (s : GoString) : Nat := visibleLoop s s.length 0 0

end rewrite

/-! ## `internal/config` -/

namespace config

/-- Allow and deny domain lists. -/
structure AllowDeny where
  Domains : List GoString

/-- The configuration.  The Go map `Rules` is `none` when nil and otherwise
the list of its entries, looked up by key. -/
structure Config where
  Mode : GoString
  ConfirmOnWarn : Bool
  ASCIIOnlyDomains : Bool
  Allow : AllowDeny
  Deny : AllowDeny
  Rules : Option (List (GoString × Bool))

/-- Whether a rule is enabled: true for a nil map, and otherwise `!ok || v`
for the lookup `v, ok := c.Rules[name]`. -/
def Config.RuleEnabled (c : Config) (name : GoString) : Bool :=
  match c.Rules with
  | none => true
  | some m =>
    match m.lookup name with
    | none => true
    | some v => v

/-- A config with safe defaults; the domain lists are left empty. -/
def DefaultConfig : Config where
  Mode := str "warn"
  ConfirmOnWarn := true
  ASCIIOnlyDomains := true
  Allow := ⟨[]⟩
  Deny := ⟨[]⟩
  Rules := some
    [ (str "unicode_homoglyph", true),
      (str "zero_width", true),
      (str "bidi_controls", true),
      (str "ansi_escape", true),
      (str "pipe_to_shell", true),
      (str "dotfile_write", true),
      (str "persistence_patterns", true),
      (str "shortener_domains", true),
      (str "subshell_command", true) ]

/-- A `*Config` passed where a `rules.RuleConfig` is expected: the interface
value holds the pointer, so it is not nil, and its method is `RuleEnabled`. -/
def Config.asRuleConfig (c : Config) : rules.RuleConfig := some c.RuleEnabled

end config

/-! ## `internal/urls` -/

namespace urls

open regexp in
/-- The pattern `https?://[^\s'"<>|&;)\]]+`. -/
def urlRe : regexp.Re :=
  seq [lit "http", opt (chr 's'), lit "://",
    plus (noneOf [0x09, 0x0A, 0x0C, 0x0D, 0x20, 0x27, 0x22, 0x3C, 0x3E, 0x7C, 0x26, 0x3B,
      0x29, 0x5D])]

/-- The URL-like substrings of `s` (http/https): `urlRe.FindAllString(s, -1)`. -/
def ExtractURLs (s : GoString) : List GoString :=
  (regexp.FindAllStringIndex urlRe s).map (fun loc => rules.slice s loc.1 loc.2)

/-- The host part of a URL: the scheme is trimmed, then the text is cut at
the first `/` and at the first `:`. -/
def hostFromURL (s : GoString) : GoString :=
  let s := strings.TrimPrefix s (str "https://")
  let s := strings.TrimPrefix s (str "http://")
  let s := match strings.Index s (str "/") with
    | some i => s.take i
    | none => s
  match strings.Index s (str ":") with
  | some i => s.take i
  | none => s

/-- Whether the host part of the URL contains non-ASCII (potential IDN). -/
def HasIDN (url : GoString) : Bool :=
  let host := hostFromURL url
  if host = [] then false
  else (rangeString host).any (fun p => decide (0x7F < p.2))

/-- The host part for display. -/
def HostForDisplay (url : GoString) : GoString := hostFromURL url

end urls

/-! # Theorems -/

open types rules engine rewrite

/-! ## Aggregation of severities -/

theorem worstFold_ge_init (l : List Finding) (s : Severity) :
    s ≤ l.foldl (fun s f => if s < f.Severity then f.Severity else s) s := by
  induction l generalizing s with
  | nil => simp
  | cons f l ih =>
    simp only [List.foldl_cons]
    split
    · exact le_trans (le_of_lt ‹_›) (ih _)
    · exact ih _

theorem worstFold_ge_mem (l : List Finding) (s : Severity) (f : Finding) (hf : f ∈ l) :
    f.Severity ≤ l.foldl (fun s f => if s < f.Severity then f.Severity else s) s := by
  induction l generalizing s with
  | nil => simp at hf
  | cons g l ih =>
    simp only [List.foldl_cons]
    rcases List.mem_cons.1 hf with rfl | hf
    · split
      · exact worstFold_ge_init _ _
      · exact le_trans (not_lt.1 ‹_›) (worstFold_ge_init _ _)
    · exact ih _ hf

theorem worstFold_attained (l : List Finding) (s : Severity) :
    l.foldl (fun s f => if s < f.Severity then f.Severity else s) s = s ∨
      ∃ f ∈ l, f.Severity = l.foldl (fun s f => if s < f.Severity then f.Severity else s) s := by
  induction l generalizing s with
  | nil => simp
  | cons g l ih =>
    simp only [List.foldl_cons]
    split
    · rcases ih g.Severity with h | ⟨f, hf, h⟩
      · exact Or.inr ⟨g, List.mem_cons_self _ _, h.symm⟩
      · exact Or.inr ⟨f, List.mem_cons_of_mem _ hf, h⟩
    · rcases ih s with h | ⟨f, hf, h⟩
      · exact Or.inl h
      · exact Or.inr ⟨f, List.mem_cons_of_mem _ hf, h⟩

/-! ## What each rule reports -/

theorem homoglyphCheck_mem {U : UnicodeTables} {cmd : GoString} {cfg : RuleConfig}
    {f : Finding} (h : f ∈ UnicodeHomoglyphRule.Check U cmd cfg) :
    f.RuleID = UnicodeHomoglyphRule.ID ∧ f.Severity = Warn := by
  unfold UnicodeHomoglyphRule.Check at h
  split at h
  · simp at h
  · obtain ⟨p, -, hp⟩ := List.mem_filterMap.1 h
    split at hp
    · cases hp; exact ⟨rfl, rfl⟩
    · cases hp

theorem zeroWidthCheck_mem {cmd : GoString} {cfg : RuleConfig}
    {f : Finding} (h : f ∈ ZeroWidthRule.Check cmd cfg) :
    f.RuleID = ZeroWidthRule.ID ∧ f.Severity = Block := by
  unfold ZeroWidthRule.Check at h
  split at h
  · simp at h
  · obtain ⟨p, -, hp⟩ := List.mem_filterMap.1 h
    split at hp
    · cases hp; exact ⟨rfl, rfl⟩
    · cases hp

theorem bidiCheck_mem {cmd : GoString} {cfg : RuleConfig}
    {f : Finding} (h : f ∈ BidiControlsRule.Check cmd cfg) :
    f.RuleID = BidiControlsRule.ID ∧ f.Severity = Block := by
  unfold BidiControlsRule.Check at h
  split at h
  · simp at h
  · obtain ⟨p, -, hp⟩ := List.mem_filterMap.1 h
    split at hp
    · cases hp; exact ⟨rfl, rfl⟩
    · cases hp

theorem ansiLoop_mem (cmd : GoString) (n i : Nat) (out : List Finding) (f : Finding)
    (h : f ∈ ANSIEscapeRule.loop cmd n i out) :
    f ∈ out ∨ (f.RuleID = ANSIEscapeRule.ID ∧ f.Severity = Warn) := by
  induction n generalizing i out with
  | zero => exact Or.inl h
  | succ n ih =>
    unfold ANSIEscapeRule.loop at h
    split at h
    · split at h
      · rcases ih _ _ h with h1 | h1
        · rcases List.mem_append.1 h1 with h2 | h2
          · exact Or.inl h2
          · simp only [List.mem_singleton] at h2
            subst h2
            exact Or.inr ⟨rfl, rfl⟩
        · exact Or.inr h1
      · exact ih _ _ h
    · exact Or.inl h

theorem ansiCheck_mem {cmd : GoString} {cfg : RuleConfig}
    {f : Finding} (h : f ∈ ANSIEscapeRule.Check cmd cfg) :
    f.RuleID = ANSIEscapeRule.ID ∧ f.Severity = Warn := by
  unfold ANSIEscapeRule.Check at h
  split at h
  · simp at h
  · rcases ansiLoop_mem _ _ _ _ _ h with h1 | h1
    · simp at h1
    · exact h1

theorem pipeToShellCheck_mem {cmd : GoString} {cfg : RuleConfig}
    {f : Finding} (h : f ∈ PipeToShellRule.Check cmd cfg) :
    f.RuleID = PipeToShellRule.ID ∧ f.Severity = Warn := by
  unfold PipeToShellRule.Check at h
  split at h
  · simp at h
  · obtain ⟨loc, -, rfl⟩ := List.mem_map.1 h
    exact ⟨rfl, rfl⟩

theorem dotfileLoop_mem (cmd lower : GoString) (ts : List GoString)
    (out res : List Finding) (h : DotfileWriteRule.loop cmd lower ts out = some res)
    (f : Finding) (hf : f ∈ res) :
    f ∈ out ∨ (f.RuleID = DotfileWriteRule.ID ∧ f.Severity = Warn) := by
  induction ts generalizing out with
  | nil =>
    simp only [DotfileWriteRule.loop, Option.some.injEq] at h
    subst h
    exact Or.inl hf
  | cons t ts ih =>
    unfold DotfileWriteRule.loop at h
    dsimp only at h
    repeat' split at h
    all_goals first
      | exact ih _ h
      | exact absurd h (by simp)
      | skip
    rcases ih _ h with h1 | h1
    · rcases List.mem_append.1 h1 with h2 | h2
      · exact Or.inl h2
      · simp only [List.mem_singleton] at h2
        subst h2
        exact Or.inr ⟨rfl, rfl⟩
    · exact Or.inr h1

theorem dotfileCheck_mem {U : UnicodeTables} {cmd : GoString} {cfg : RuleConfig}
    {res : List Finding} (h : DotfileWriteRule.Check U cmd cfg = some res)
    {f : Finding} (hf : f ∈ res) :
    f.RuleID = DotfileWriteRule.ID ∧ f.Severity = Warn := by
  unfold DotfileWriteRule.Check at h
  split at h
  · cases h; simp at hf
  · rcases dotfileLoop_mem _ _ _ _ _ h f hf with h1 | h1
    · simp at h1
    · exact h1

theorem persistenceCheck_mem {cmd : GoString} {cfg : RuleConfig}
    {f : Finding} (h : f ∈ PersistenceRule.Check cmd cfg) :
    f.RuleID = PersistenceRule.ID ∧ f.Severity = Warn := by
  unfold PersistenceRule.Check at h
  split at h
  · simp at h
  · obtain ⟨re, -, h1⟩ := List.mem_flatMap.1 h
    obtain ⟨loc, -, rfl⟩ := List.mem_map.1 h1
    exact ⟨rfl, rfl⟩

theorem shortenerCheck_mem {U : UnicodeTables} {cmd : GoString} {cfg : RuleConfig}
    {f : Finding} (h : f ∈ ShortenerRule.Check U cmd cfg) :
    f.RuleID = ShortenerRule.ID ∧ f.Severity = Warn := by
  unfold ShortenerRule.Check at h
  split at h
  · simp at h
  · obtain ⟨loc, -, h1⟩ := List.mem_flatMap.1 h
    dsimp only at h1
    split at h1
    · simp only [List.mem_singleton] at h1
      subst h1
      exact ⟨rfl, rfl⟩
    · simp at h1

theorem subshellCheck_mem {cmd : GoString} {cfg : RuleConfig}
    {f : Finding} (h : f ∈ SubshellRule.Check cmd cfg) :
    f.RuleID = SubshellRule.ID ∧ f.Severity = Warn := by
  unfold SubshellRule.Check at h
  split at h
  · simp at h
  · obtain ⟨re, -, h1⟩ := List.mem_flatMap.1 h
    obtain ⟨loc, -, rfl⟩ := List.mem_map.1 h1
    exact ⟨rfl, rfl⟩

/-! ## The engine -/

/-- The findings of a run, given those of the dotfile rule. -/
theorem Run_eq (U : UnicodeTables) (cmd : GoString) (cfg : RuleConfig) :
    Run U cmd cfg = (DotfileWriteRule.Check U cmd cfg).map (fun d =>
      let fs := UnicodeHomoglyphRule.Check U cmd cfg ++ ZeroWidthRule.Check cmd cfg
        ++ BidiControlsRule.Check cmd cfg ++ ANSIEscapeRule.Check cmd cfg
        ++ PipeToShellRule.Check cmd cfg ++ d ++ PersistenceRule.Check cmd cfg
        ++ ShortenerRule.Check U cmd cfg ++ SubshellRule.Check cmd cfg
      { Severity := Result.WorstSeverity ⟨Pass, fs⟩, Findings := fs }) := by
  unfold Run All
  cases hd : DotfileWriteRule.Check U cmd cfg with
  | none => simp [runRules, hd]
  | some d => simp [runRules, hd, Result.WorstSeverity]

theorem Run_eq_none_iff (U : UnicodeTables) (cmd : GoString) (cfg : RuleConfig) :
    Run U cmd cfg = none ↔ DotfileWriteRule.Check U cmd cfg = none := by
  rw [Run_eq]; simp

theorem Run_findings_mem {U : UnicodeTables} {cmd : GoString} {cfg : RuleConfig} {r : Result}
    (h : Run U cmd cfg = some r) {f : Finding} (hf : f ∈ r.Findings) :
    f ∈ UnicodeHomoglyphRule.Check U cmd cfg ∨ f ∈ ZeroWidthRule.Check cmd cfg
      ∨ f ∈ BidiControlsRule.Check cmd cfg ∨ f ∈ ANSIEscapeRule.Check cmd cfg
      ∨ f ∈ PipeToShellRule.Check cmd cfg
      ∨ (∃ d, DotfileWriteRule.Check U cmd cfg = some d ∧ f ∈ d)
      ∨ f ∈ PersistenceRule.Check cmd cfg
      ∨ f ∈ ShortenerRule.Check U cmd cfg ∨ f ∈ SubshellRule.Check cmd cfg := by
  rw [Run_eq] at h
  cases hd : DotfileWriteRule.Check U cmd cfg with
  | none => simp [hd] at h
  | some d =>
    simp only [hd, Option.map_some', Option.some.injEq] at h
    subst h
    simp only [List.mem_append] at hf
    simp only [Option.some.injEq, exists_eq_left']
    tauto

/-- Every finding of a run is a `Block` finding of the zero-width or the
bidi rule, or a `Warn` finding of one of the seven other rules. -/
theorem Run_finding_severity {U : UnicodeTables} {cmd : GoString} {cfg : RuleConfig} {r : Result}
    (h : Run U cmd cfg = some r) {f : Finding} (hf : f ∈ r.Findings) :
    ((f.RuleID = ZeroWidthRule.ID ∨ f.RuleID = BidiControlsRule.ID) ∧ f.Severity = Block)
      ∨ ((f.RuleID = UnicodeHomoglyphRule.ID ∨ f.RuleID = ANSIEscapeRule.ID
          ∨ f.RuleID = PipeToShellRule.ID ∨ f.RuleID = DotfileWriteRule.ID
          ∨ f.RuleID = PersistenceRule.ID ∨ f.RuleID = ShortenerRule.ID
          ∨ f.RuleID = SubshellRule.ID) ∧ f.Severity = Warn) := by
  rcases Run_findings_mem h hf with h1 | h1 | h1 | h1 | h1 | ⟨d, hd, h1⟩ | h1 | h1 | h1
  · have := homoglyphCheck_mem h1; tauto
  · have := zeroWidthCheck_mem h1; tauto
  · have := bidiCheck_mem h1; tauto
  · have := ansiCheck_mem h1; tauto
  · have := pipeToShellCheck_mem h1; tauto
  · have := dotfileCheck_mem hd h1; tauto
  · have := persistenceCheck_mem h1; tauto
  · have := shortenerCheck_mem h1; tauto
  · have := subshellCheck_mem h1; tauto

theorem Run_severity_eq_worst {U : UnicodeTables} {cmd : GoString} {cfg : RuleConfig} {r : Result}
    (h : Run U cmd cfg = some r) : r.Severity = r.WorstSeverity := by
  rw [Run_eq] at h
  cases hd : DotfileWriteRule.Check U cmd cfg with
  | none => simp [hd] at h
  | some d =>
    simp only [hd, Option.map_some', Option.some.injEq] at h
    subst h
    rfl

/-- C3. For every command and policy, the `Severity` field of the result of
`Run` is `WorstSeverity()` of that result; it is the maximum of the
severities of the findings (no finding exceeds it, and some finding has it
when there is one), and it is `Pass` when there is no finding. -/
theorem Run_severity_is_max (U : UnicodeTables) (cmd : GoString) (cfg : RuleConfig) (r : Result)
    (h : Run U cmd cfg = some r) :
    r.Severity = r.WorstSeverity
      ∧ (∀ f ∈ r.Findings, f.Severity ≤ r.Severity)
      ∧ (r.Findings ≠ [] → ∃ f ∈ r.Findings, f.Severity = r.Severity)
      ∧ (r.Findings = [] → r.Severity = Pass) := by
  have hw := Run_severity_eq_worst h
  refine ⟨hw, ?_, ?_, ?_⟩
  · intro f hf
    rw [hw]
    exact worstFold_ge_mem _ _ f hf
  · intro hne
    rw [hw]
    rcases worstFold_attained r.Findings Pass with h0 | h1
    · obtain ⟨g, hg⟩ := List.exists_mem_of_ne_nil _ hne
      have hle := worstFold_ge_mem r.Findings Pass g hg
      have hs := Run_finding_severity h hg
      refine ⟨g, hg, ?_⟩
      unfold Result.WorstSeverity
      rw [h0] at hle ⊢
      rcases hs with ⟨-, hs⟩ | ⟨-, hs⟩ <;> rw [hs] at hle <;> simp [Pass, Warn, Block] at hle
    · exact h1
  · intro he
    rw [hw]
    unfold Result.WorstSeverity
    rw [he]
    rfl

theorem Run_severity_is_max_witness :
    Run sampleTables (str "$(x)") none = some ⟨Warn, SubshellRule.Check (str "$(x)") none⟩
      ∧ (Warn = Result.WorstSeverity ⟨Warn, SubshellRule.Check (str "$(x)") none⟩
        ∧ (∀ f ∈ SubshellRule.Check (str "$(x)") none, f.Severity ≤ Warn)
        ∧ (SubshellRule.Check (str "$(x)") none ≠ [] →
            ∃ f ∈ SubshellRule.Check (str "$(x)") none, f.Severity = Warn)
        ∧ (SubshellRule.Check (str "$(x)") none = [] → Warn = Pass)) :=
  ⟨by decide, Run_severity_is_max sampleTables (str "$(x)") none
    ⟨Warn, SubshellRule.Check (str "$(x)") none⟩ (by decide)⟩

/-- C4. For every command and policy, the exit code of the result of `Run`
is the numeric value of its severity: 0 with `Pass`, 10 with `Warn`, 20 with
`Block`, and there is no other case. -/
theorem Run_exitCode (U : UnicodeTables) (cmd : GoString) (cfg : RuleConfig) (r : Result)
    (h : Run U cmd cfg = some r) :
    r.ExitCode = r.Severity
      ∧ ((r.Severity = Pass ∧ r.ExitCode = 0) ∨ (r.Severity = Warn ∧ r.ExitCode = 10)
        ∨ (r.Severity = Block ∧ r.ExitCode = 20)) := by
  have hw := Run_severity_eq_worst h
  have hcases : r.WorstSeverity = Pass ∨ r.WorstSeverity = Warn ∨ r.WorstSeverity = Block := by
    rcases worstFold_attained r.Findings Pass with h0 | ⟨f, hf, h1⟩
    · exact Or.inl h0
    · have hs := Run_finding_severity h hf
      unfold Result.WorstSeverity
      rw [← h1]
      tauto
  unfold Result.ExitCode
  rw [hw]
  rcases hcases with h0 | h0 | h0 <;> rw [h0] <;> simp [Pass, Warn, Block]

theorem Run_exitCode_witness :
    Run sampleTables (str "$(x) \u200B") none
        = some ⟨Block, ZeroWidthRule.Check (str "$(x) \u200B") none
            ++ SubshellRule.Check (str "$(x) \u200B") none⟩
      ∧ (Result.ExitCode ⟨Block, ZeroWidthRule.Check (str "$(x) \u200B") none
            ++ SubshellRule.Check (str "$(x) \u200B") none⟩ = Block
        ∧ ((Block = Pass ∧ Result.ExitCode ⟨Block, ZeroWidthRule.Check (str "$(x) \u200B") none
            ++ SubshellRule.Check (str "$(x) \u200B") none⟩ = 0)
          ∨ (Block = Warn ∧ Result.ExitCode ⟨Block, ZeroWidthRule.Check (str "$(x) \u200B") none
            ++ SubshellRule.Check (str "$(x) \u200B") none⟩ = 10)
          ∨ (Block = Block ∧ Result.ExitCode ⟨Block, ZeroWidthRule.Check (str "$(x) \u200B") none
            ++ SubshellRule.Check (str "$(x) \u200B") none⟩ = 20))) :=
  ⟨by decide, Run_exitCode sampleTables (str "$(x) \u200B") none
    ⟨Block, ZeroWidthRule.Check (str "$(x) \u200B") none
      ++ SubshellRule.Check (str "$(x) \u200B") none⟩ (by decide)⟩


theorem tables_eq_of_toLower (U : UnicodeTables) (f : Nat → Nat) (h : ∀ r, U.toLower r = f r) :
    U = ⟨f, U.isCyrillic, U.isGreek⟩ := by
  cases U
  simp only [UnicodeTables.mk.injEq, and_self, and_true]
  funext r
  exact h r

/-- A run that returns and has a `Block` finding has severity `Block`. -/
theorem Run_block_of_mem {U : UnicodeTables} {cmd : GoString} {cfg : RuleConfig} {r : Result}
    (h : Run U cmd cfg = some r) {f : Finding} (hf : f ∈ r.Findings) (hb : f.Severity = Block) :
    r.Severity = Block := by
  rw [Run_severity_eq_worst h]
  have hge := worstFold_ge_mem r.Findings Pass f hf
  rw [hb] at hge
  have hle : r.WorstSeverity ≤ Block := by
    rcases worstFold_attained r.Findings Pass with h0 | ⟨g, hg, h1⟩
    · unfold Result.WorstSeverity; rw [h0]; decide
    · unfold Result.WorstSeverity
      rw [← h1]
      rcases Run_finding_severity h hg with ⟨-, hs⟩ | ⟨-, hs⟩
      · rw [hs]
      · rw [hs]; decide
  exact le_antisymm hle hge

/-- Where `Run` returns, a zero-width code point in the command makes the
result `Block` under every policy that enables the rule. -/
theorem Run_block_of_zeroWidth {U : UnicodeTables} {cmd : GoString} {cfg : RuleConfig}
    {r : Result} (hz : ∃ p ∈ rangeString cmd, p.2 ∈ ZeroWidthRule.bad)
    (he : disabled cfg (str "zero_width") = false) (h : Run U cmd cfg = some r) :
    r.Severity = Block := by
  obtain ⟨p, hp, hbad⟩ := hz
  have hmem : ∃ f ∈ ZeroWidthRule.Check cmd cfg, f.Severity = Block := by
    unfold ZeroWidthRule.Check
    simp only [he, Bool.false_eq_true, if_false]
    refine ⟨{
        RuleID := ZeroWidthRule.ID
        Severity := Block
        Token := utf8.EncodeRune p.2
        Issue := str "zero-width or invisible character (U+" ++ formatHex p.2 ++ str ") detected"
        Position := p.1
        Suggestion := str "paste as plain text; remove hidden characters" },
      List.mem_filterMap.2 ⟨p, hp, ?_⟩, rfl⟩
    simp [hbad]
  obtain ⟨f, hf, hb⟩ := hmem
  refine Run_block_of_mem h ?_ hb
  rw [Run_eq] at h
  cases hd : DotfileWriteRule.Check U cmd cfg with
  | none => simp [hd] at h
  | some d =>
    simp only [hd, Option.map_some', Option.some.injEq] at h
    subst h
    simp only [List.mem_append]
    tauto

/-- Where `Run` returns, a bidi control in the command makes the result
`Block` under every policy that enables the rule. -/
theorem Run_block_of_bidi {U : UnicodeTables} {cmd : GoString} {cfg : RuleConfig}
    {r : Result} (hz : ∃ p ∈ rangeString cmd, p.2 ∈ BidiControlsRule.bad)
    (he : disabled cfg (str "bidi_controls") = false) (h : Run U cmd cfg = some r) :
    r.Severity = Block := by
  obtain ⟨p, hp, hbad⟩ := hz
  have hmem : ∃ f ∈ BidiControlsRule.Check cmd cfg, f.Severity = Block := by
    unfold BidiControlsRule.Check
    simp only [he, Bool.false_eq_true, if_false]
    refine ⟨{
        RuleID := BidiControlsRule.ID
        Severity := Block
        Token := utf8.EncodeRune p.2
        Issue := str "BiDi control character (U+" ++ formatHex p.2 ++ str ") can reorder text"
        Position := p.1
        Suggestion := str "remove bidirectional override characters" },
      List.mem_filterMap.2 ⟨p, hp, ?_⟩, rfl⟩
    simp [hbad]
  obtain ⟨f, hf, hb⟩ := hmem
  refine Run_block_of_mem h ?_ hb
  rw [Run_eq] at h
  cases hd : DotfileWriteRule.Check U cmd cfg with
  | none => simp [hd] at h
  | some d =>
    simp only [hd, Option.map_some', Option.some.injEq] at h
    subst h
    simp only [List.mem_append]
    tauto

/-- C1, at an input where it fails.  The command U+200B `cat` U+023A `>`
contains the zero-width space and the nil policy enables the zero-width rule,
yet `Run` returns no result: for every case table that lowers U+023A to
U+2C65 (as Unicode does) and leaves U+200B alone, the dotfile rule panics,
because it slices the command at an offset found in the longer lower-case
copy. -/
theorem Run_zeroWidth_panics (U : UnicodeTables) (h1 : U.toLower 0x23A = 0x2C65)
    (h2 : U.toLower 0x200B = 0x200B) :
    (0, 0x200B) ∈ rangeString (str "\u200Bcat\u023A>")
      ∧ disabled none (str "zero_width") = false
      ∧ Run U (str "\u200Bcat\u023A>") none = none := by
  have hU := tables_eq_of_toLower U
    (fun r => if r = 0x23A then 0x2C65 else if r = 0x200B then 0x200B else U.toLower r)
    (by intro r; by_cases hr : r = 0x23A <;> by_cases hr2 : r = 0x200B <;> simp [hr, hr2, h1, h2])
  have hl : strings.ToLower U (str "\u200Bcat\u023A>") = str "\u200Bcat\u2C65>" := by
    rw [hU]; rfl
  have hc : DotfileWriteRule.Check U (str "\u200Bcat\u023A>") none = none := by
    unfold DotfileWriteRule.Check
    rw [hl]
    decide
  exact ⟨by decide, rfl, (Run_eq_none_iff U _ none).2 hc⟩

theorem Run_zeroWidth_panics_witness :
    sampleTables.toLower 0x23A = 0x2C65 ∧ sampleTables.toLower 0x200B = 0x200B
      ∧ ((0, 0x200B) ∈ rangeString (str "\u200Bcat\u023A>")
        ∧ disabled none (str "zero_width") = false
        ∧ Run sampleTables (str "\u200Bcat\u023A>") none = none) :=
  ⟨by decide, by decide, Run_zeroWidth_panics sampleTables (by decide) (by decide)⟩

/-- C2, at an input where it fails.  The command U+202E `cat` U+023A `>`
contains the right-to-left override and the nil policy enables the bidi
rule, yet `Run` returns no result: for every case table that lowers U+023A to
U+2C65 and leaves U+202E alone, the dotfile rule panics. -/
theorem Run_bidi_panics (U : UnicodeTables) (h1 : U.toLower 0x23A = 0x2C65)
    (h2 : U.toLower 0x202E = 0x202E) :
    (0, 0x202E) ∈ rangeString (str "\u202Ecat\u023A>")
      ∧ disabled none (str "bidi_controls") = false
      ∧ Run U (str "\u202Ecat\u023A>") none = none := by
  have hU := tables_eq_of_toLower U
    (fun r => if r = 0x23A then 0x2C65 else if r = 0x202E then 0x202E else U.toLower r)
    (by intro r; by_cases hr : r = 0x23A <;> by_cases hr2 : r = 0x202E <;> simp [hr, hr2, h1, h2])
  have hl : strings.ToLower U (str "\u202Ecat\u023A>") = str "\u202Ecat\u2C65>" := by
    rw [hU]; rfl
  have hc : DotfileWriteRule.Check U (str "\u202Ecat\u023A>") none = none := by
    unfold DotfileWriteRule.Check
    rw [hl]
    decide
  exact ⟨by decide, rfl, (Run_eq_none_iff U _ none).2 hc⟩

theorem Run_bidi_panics_witness :
    sampleTables.toLower 0x23A = 0x2C65 ∧ sampleTables.toLower 0x202E = 0x202E
      ∧ ((0, 0x202E) ∈ rangeString (str "\u202Ecat\u023A>")
        ∧ disabled none (str "bidi_controls") = false
        ∧ Run sampleTables (str "\u202Ecat\u023A>") none = none) :=
  ⟨by decide, by decide, Run_bidi_panics sampleTables (by decide) (by decide)⟩

/-- C5. For every command and policy, `Run` returns exactly when the dotfile
rule does, and its findings are the findings of the nine rules appended in
the declared order: homoglyph, zero-width, bidi, ANSI escape, pipe-to-shell,
dotfile write, persistence, shortener, subshell.  They are not sorted by
position: for `$(x) ` followed by U+200B the zero-width finding at offset 5
comes before the subshell finding at offset 0. -/
theorem Run_findings_in_rule_order (U : UnicodeTables) (cmd : GoString) (cfg : RuleConfig) :
    (Run U cmd cfg).map Result.Findings
        = (DotfileWriteRule.Check U cmd cfg).map (fun d =>
            UnicodeHomoglyphRule.Check U cmd cfg ++ ZeroWidthRule.Check cmd cfg
              ++ BidiControlsRule.Check cmd cfg ++ ANSIEscapeRule.Check cmd cfg
              ++ PipeToShellRule.Check cmd cfg ++ d ++ PersistenceRule.Check cmd cfg
              ++ ShortenerRule.Check U cmd cfg ++ SubshellRule.Check cmd cfg)
      ∧ (Run sampleTables (str "$(x) \u200B") none).map
            (fun r => r.Findings.map (fun f => (f.RuleID, f.Position)))
          = some [(str "zero-width", 5), (str "subshell-command", 0)] := by
  refine ⟨?_, by decide⟩
  rw [Run_eq]
  cases DotfileWriteRule.Check U cmd cfg <;> rfl

/-- C6, at an input where it fails.  For the command `cat` U+023A `>` a
policy that disables exactly `dotfile_write` gives a result with no finding,
while under the nil policy `Run` returns no result at all (the dotfile rule
panics): there are no findings of the nil policy to compare with. -/
theorem Run_disable_dotfile_panics (U : UnicodeTables) (h : U.toLower 0x23A = 0x2C65) :
    Run U (str "cat\u023A>") (some (fun name => name != str "dotfile_write")) = some ⟨Pass, []⟩
      ∧ Run U (str "cat\u023A>") none = none := by
  have hU := tables_eq_of_toLower U (fun r => if r = 0x23A then 0x2C65 else U.toLower r)
    (by intro r; by_cases hr : r = 0x23A <;> simp [hr, h])
  have hl : strings.ToLower U (str "cat\u023A>") = str "cat\u2C65>" := by
    rw [hU]; rfl
  have hc : DotfileWriteRule.Check U (str "cat\u023A>") none = none := by
    unfold DotfileWriteRule.Check
    rw [hl]
    decide
  refine ⟨?_, (Run_eq_none_iff U _ none).2 hc⟩
  rw [hU]
  rfl

theorem Run_disable_dotfile_panics_witness :
    sampleTables.toLower 0x23A = 0x2C65
      ∧ (Run sampleTables (str "cat\u023A>") (some (fun name => name != str "dotfile_write"))
          = some ⟨Pass, []⟩
        ∧ Run sampleTables (str "cat\u023A>") none = none) :=
  ⟨by decide, Run_disable_dotfile_panics sampleTables (by decide)⟩

/-- C7, at an input where it fails.  The command `cat` U+023A `>` is valid
UTF-8; for every case table that lowers U+023A (two bytes) to U+2C65 (three
bytes) the fragment `>` is found at offset 6 of the lower-case copy, one past the
last byte of the command; `tokenAround` is called with that offset, its final
slice ends at offset 7 of a string of 6 bytes, and `DotfileWriteRule.Check`
and `Run` panic. -/
theorem Run_panics_when_lowercase_is_longer (U : UnicodeTables) (h : U.toLower 0x23A = 0x2C65) :
    (str "cat\u023A>").length = 6
      ∧ strings.Index (strings.ToLower U (str "cat\u023A>")) (str ">") = some 6
      ∧ tokenAround (str "cat\u023A>") 6 1 = none
      ∧ DotfileWriteRule.Check U (str "cat\u023A>") none = none
      ∧ Run U (str "cat\u023A>") none = none := by
  have hU := tables_eq_of_toLower U (fun r => if r = 0x23A then 0x2C65 else U.toLower r)
    (by intro r; by_cases hr : r = 0x23A <;> simp [hr, h])
  have hl : strings.ToLower U (str "cat\u023A>") = str "cat\u2C65>" := by
    rw [hU]; rfl
  have hc : DotfileWriteRule.Check U (str "cat\u023A>") none = none := by
    unfold DotfileWriteRule.Check
    rw [hl]
    decide
  refine ⟨by decide, ?_, by decide, hc, (Run_eq_none_iff U _ none).2 hc⟩
  rw [hl]
  decide

theorem Run_panics_when_lowercase_is_longer_witness :
    sampleTables.toLower 0x23A = 0x2C65
      ∧ ((str "cat\u023A>").length = 6
        ∧ strings.Index (strings.ToLower sampleTables (str "cat\u023A>")) (str ">") = some 6
        ∧ tokenAround (str "cat\u023A>") 6 1 = none
        ∧ DotfileWriteRule.Check sampleTables (str "cat\u023A>") none = none
        ∧ Run sampleTables (str "cat\u023A>") none = none) :=
  ⟨by decide, Run_panics_when_lowercase_is_longer sampleTables (by decide)⟩

/-! ## Disabling a rule -/

theorem filter_ruleID (l : List Finding) (idj : GoString) (h : ∀ f ∈ l, f.RuleID = idj)
    (id : GoString) :
    l.filter (fun f => f.RuleID != id) = if idj = id then [] else l := by
  split
  · rename_i he
    subst he
    exact List.filter_eq_nil_iff.2 (fun f hf => by simp [h f hf])
  · rename_i hne
    exact List.filter_eq_self.2 (fun f hf => by simp [h f hf, hne])

theorem homoglyphCheck_cfg (U : UnicodeTables) (cmd : GoString) (cfg : RuleConfig) :
    UnicodeHomoglyphRule.Check U cmd cfg
      = if disabled cfg (str "unicode_homoglyph") then []
        else UnicodeHomoglyphRule.Check U cmd none := by
  unfold UnicodeHomoglyphRule.Check
  simp [disabled]

theorem zeroWidthCheck_cfg (cmd : GoString) (cfg : RuleConfig) :
    ZeroWidthRule.Check cmd cfg
      = if disabled cfg (str "zero_width") then [] else ZeroWidthRule.Check cmd none := by
  unfold ZeroWidthRule.Check
  simp [disabled]

theorem bidiCheck_cfg (cmd : GoString) (cfg : RuleConfig) :
    BidiControlsRule.Check cmd cfg
      = if disabled cfg (str "bidi_controls") then [] else BidiControlsRule.Check cmd none := by
  unfold BidiControlsRule.Check
  simp [disabled]

theorem ansiCheck_cfg (cmd : GoString) (cfg : RuleConfig) :
    ANSIEscapeRule.Check cmd cfg
      = if disabled cfg (str "ansi_escape") then [] else ANSIEscapeRule.Check cmd none := by
  unfold ANSIEscapeRule.Check
  simp [disabled]

theorem pipeToShellCheck_cfg (cmd : GoString) (cfg : RuleConfig) :
    PipeToShellRule.Check cmd cfg
      = if disabled cfg (str "pipe_to_shell") then [] else PipeToShellRule.Check cmd none := by
  unfold PipeToShellRule.Check
  simp [disabled]

theorem dotfileCheck_cfg (U : UnicodeTables) (cmd : GoString) (cfg : RuleConfig) :
    DotfileWriteRule.Check U cmd cfg
      = if disabled cfg (str "dotfile_write") then some []
        else DotfileWriteRule.Check U cmd none := by
  unfold DotfileWriteRule.Check
  simp [disabled]

theorem persistenceCheck_cfg (cmd : GoString) (cfg : RuleConfig) :
    PersistenceRule.Check cmd cfg
      = if disabled cfg (str "persistence_patterns") then []
        else PersistenceRule.Check cmd none := by
  unfold PersistenceRule.Check
  simp [disabled]

theorem shortenerCheck_cfg (U : UnicodeTables) (cmd : GoString) (cfg : RuleConfig) :
    ShortenerRule.Check U cmd cfg
      = if disabled cfg (str "shortener_domains") then [] else ShortenerRule.Check U cmd none := by
  unfold ShortenerRule.Check
  simp [disabled]

theorem subshellCheck_cfg (cmd : GoString) (cfg : RuleConfig) :
    SubshellRule.Check cmd cfg
      = if disabled cfg (str "subshell_command") then [] else SubshellRule.Check cmd none := by
  unfold SubshellRule.Check
  simp [disabled]

/-- Where `Run` returns under the nil policy, it returns under a policy that
disables exactly one rule, and the findings are those of the nil policy
without the findings of that rule, in the same order. -/
theorem Run_disable_one (U : UnicodeTables) (cmd : GoString) (p : GoString → Bool)
    (key id : GoString)
    (hk : (key, id) ∈ [(str "unicode_homoglyph", UnicodeHomoglyphRule.ID),
      (str "zero_width", ZeroWidthRule.ID), (str "bidi_controls", BidiControlsRule.ID),
      (str "ansi_escape", ANSIEscapeRule.ID), (str "pipe_to_shell", PipeToShellRule.ID),
      (str "dotfile_write", DotfileWriteRule.ID),
      (str "persistence_patterns", PersistenceRule.ID),
      (str "shortener_domains", ShortenerRule.ID), (str "subshell_command", SubshellRule.ID)])
    (hp : ∀ name, p name = false ↔ name = key) (r0 : Result) (h0 : Run U cmd none = some r0) :
    ∃ r, Run U cmd (some p) = some r
      ∧ r.Findings = r0.Findings.filter (fun f => f.RuleID != id) := by
  have hdis : ∀ name, disabled (some p) name = decide (name = key) := by
    intro name
    unfold disabled
    by_cases h : name = key
    · simp [h, (hp key).2 rfl]
    · cases hpn : p name with
      | false => exact absurd ((hp name).1 hpn) h
      | true => simp [h, hpn]
  rw [Run_eq] at h0 ⊢
  cases hd : DotfileWriteRule.Check U cmd none with
  | none => simp [hd] at h0
  | some d0 =>
    simp only [hd, Option.map_some', Option.some.injEq] at h0
    subst h0
    rw [homoglyphCheck_cfg U cmd (some p), zeroWidthCheck_cfg cmd (some p),
      bidiCheck_cfg cmd (some p), ansiCheck_cfg cmd (some p),
      pipeToShellCheck_cfg cmd (some p), dotfileCheck_cfg U cmd (some p),
      persistenceCheck_cfg cmd (some p), shortenerCheck_cfg U cmd (some p),
      subshellCheck_cfg cmd (some p)]
    simp only [hdis, hd, List.filter_append,
      filter_ruleID _ _ (fun f hf => (homoglyphCheck_mem hf).1),
      filter_ruleID _ _ (fun f hf => (zeroWidthCheck_mem hf).1),
      filter_ruleID _ _ (fun f hf => (bidiCheck_mem hf).1),
      filter_ruleID _ _ (fun f hf => (ansiCheck_mem hf).1),
      filter_ruleID _ _ (fun f hf => (pipeToShellCheck_mem hf).1),
      filter_ruleID d0 _ (fun f hf => (dotfileCheck_mem hd hf).1),
      filter_ruleID _ _ (fun f hf => (persistenceCheck_mem hf).1),
      filter_ruleID _ _ (fun f hf => (shortenerCheck_mem hf).1),
      filter_ruleID _ _ (fun f hf => (subshellCheck_mem hf).1)]
    simp only [List.mem_cons, Prod.mk.injEq, List.mem_singleton, List.not_mem_nil, or_false] at hk
    rcases hk with ⟨rfl, rfl⟩ | ⟨rfl, rfl⟩ | ⟨rfl, rfl⟩ | ⟨rfl, rfl⟩ | ⟨rfl, rfl⟩ | ⟨rfl, rfl⟩
      | ⟨rfl, rfl⟩ | ⟨rfl, rfl⟩ | ⟨rfl, rfl⟩
    all_goals simp +decide only [if_true, if_false, Option.map_some']
    all_goals exact ⟨_, rfl, by simp⟩


/-! ## UTF-8 -/

/-- The cases of `DecodeRuneInString`. -/
theorem utf8.decode_cases (s : GoString) :
    (s = [] ∧ utf8.DecodeRuneInString s = (0xFFFD, 0))
    ∨ (s ≠ [] ∧ utf8.DecodeRuneInString s = (0xFFFD, 1))
    ∨ (∃ s0 t, s = s0 :: t ∧ s0 < 0x80 ∧ utf8.DecodeRuneInString s = (s0, 1))
    ∨ (∃ s0 s1 t, s = s0 :: s1 :: t ∧ 0xC2 ≤ s0 ∧ s0 ≤ 0xDF ∧ 0x80 ≤ s1 ∧ s1 ≤ 0xBF
        ∧ utf8.DecodeRuneInString s = ((s0 % 32) * 64 + s1 % 64, 2))
    ∨ (∃ s0 s1 s2 t, s = s0 :: s1 :: s2 :: t ∧ 0xE0 ≤ s0 ∧ s0 ≤ 0xEF ∧ 0x80 ≤ s1 ∧ s1 ≤ 0xBF
        ∧ (s0 = 0xE0 → 0xA0 ≤ s1) ∧ (s0 = 0xED → s1 ≤ 0x9F) ∧ 0x80 ≤ s2 ∧ s2 ≤ 0xBF
        ∧ utf8.DecodeRuneInString s = ((s0 % 16) * 4096 + (s1 % 64) * 64 + s2 % 64, 3))
    ∨ (∃ s0 s1 s2 s3 t, s = s0 :: s1 :: s2 :: s3 :: t ∧ 0xF0 ≤ s0 ∧ s0 ≤ 0xF4
        ∧ 0x80 ≤ s1 ∧ s1 ≤ 0xBF ∧ (s0 = 0xF0 → 0x90 ≤ s1) ∧ (s0 = 0xF4 → s1 ≤ 0x8F)
        ∧ 0x80 ≤ s2 ∧ s2 ≤ 0xBF ∧ 0x80 ≤ s3 ∧ s3 ≤ 0xBF
        ∧ utf8.DecodeRuneInString s
          = ((s0 % 8) * 262144 + (s1 % 64) * 4096 + (s2 % 64) * 64 + s3 % 64, 4)) := by
  rcases s with _ | ⟨s0, t⟩
  · exact Or.inl ⟨rfl, rfl⟩
  right
  by_cases h1 : s0 < 0x80
  · exact Or.inr (Or.inl ⟨s0, t, rfl, h1, by simp only [utf8.DecodeRuneInString, if_pos h1]⟩)
  by_cases h2 : s0 < 0xC2 ∨ 0xF4 < s0
  · exact Or.inl ⟨by simp, by simp only [utf8.DecodeRuneInString, if_neg h1, if_pos h2, utf8.RuneError]⟩
  rcases t with _ | ⟨s1, t1⟩
  · exact Or.inl ⟨by simp, by simp [utf8.DecodeRuneInString, h1, h2, utf8.RuneError]⟩
  by_cases h3 : s1 < (utf8.acceptRange s0).1 ∨ (utf8.acceptRange s0).2 < s1
  · exact Or.inl ⟨by simp, by simp [utf8.DecodeRuneInString, h1, h2, h3, utf8.RuneError]⟩
  have hs1 : 0x80 ≤ s1 ∧ s1 ≤ 0xBF ∧ (s0 = 0xE0 → 0xA0 ≤ s1) ∧ (s0 = 0xED → s1 ≤ 0x9F)
      ∧ (s0 = 0xF0 → 0x90 ≤ s1) ∧ (s0 = 0xF4 → s1 ≤ 0x8F) := by
    unfold utf8.acceptRange at h3
    split_ifs at h3 <;> omega
  by_cases h4 : s0 < 0xE0
  · exact Or.inr (Or.inr (Or.inl ⟨s0, s1, t1, rfl, by omega, by omega, hs1.1, hs1.2.1,
      by simp [utf8.DecodeRuneInString, h1, h2, h3, h4]⟩))
  by_cases h5 : s0 < 0xF0
  · rcases t1 with _ | ⟨s2, t2⟩
    · exact Or.inl ⟨by simp, by simp [utf8.DecodeRuneInString, h1, h2, h3, h4, h5, utf8.RuneError]⟩
    by_cases h6 : s2 < 0x80 ∨ 0xBF < s2
    · exact Or.inl ⟨by simp,
        by simp [utf8.DecodeRuneInString, h1, h2, h3, h4, h5, h6, utf8.RuneError]⟩
    exact Or.inr (Or.inr (Or.inr (Or.inl ⟨s0, s1, s2, t2, rfl, by omega, by omega, hs1.1,
      hs1.2.1, hs1.2.2.1, hs1.2.2.2.1, by omega, by omega,
      by simp [utf8.DecodeRuneInString, h1, h2, h3, h4, h5, h6]⟩)))
  rcases t1 with _ | ⟨s2, _ | ⟨s3, t3⟩⟩
  · exact Or.inl ⟨by simp, by simp [utf8.DecodeRuneInString, h1, h2, h3, h4, h5, utf8.RuneError]⟩
  · exact Or.inl ⟨by simp, by simp [utf8.DecodeRuneInString, h1, h2, h3, h4, h5, utf8.RuneError]⟩
  by_cases h6 : s2 < 0x80 ∨ 0xBF < s2
  · exact Or.inl ⟨by simp,
      by simp [utf8.DecodeRuneInString, h1, h2, h3, h4, h5, h6, utf8.RuneError]⟩
  by_cases h7 : s3 < 0x80 ∨ 0xBF < s3
  · exact Or.inl ⟨by simp,
      by simp [utf8.DecodeRuneInString, h1, h2, h3, h4, h5, h6, h7, utf8.RuneError]⟩
  exact Or.inr (Or.inr (Or.inr (Or.inr ⟨s0, s1, s2, s3, t3, rfl, by omega, by omega, hs1.1,
    hs1.2.1, hs1.2.2.2.2.1, hs1.2.2.2.2.2, by omega, by omega, by omega, by omega,
    by simp [utf8.DecodeRuneInString, h1, h2, h3, h4, h5, h6, h7]⟩)))

theorem utf8.decode_valid (s : GoString) : utf8.ValidRune (utf8.DecodeRuneInString s).1 := by
  unfold utf8.ValidRune
  rcases utf8.decode_cases s with ⟨-, h⟩ | ⟨-, h⟩ | ⟨s0, t, -, h0, h⟩
    | ⟨s0, s1, t, -, h0, h1, h2, h3, h⟩
    | ⟨s0, s1, s2, t, -, h0, h1, h2, h3, h4, h5, h6, h7, h⟩
    | ⟨s0, s1, s2, s3, t, -, h0, h1, h2, h3, h4, h5, h6, h7, h8, h9, h⟩
  all_goals rw [h]
  all_goals simp only
  all_goals omega


theorem utf8.acceptRange_default (a : Nat) (h0 : a ≠ 0xE0) (h1 : a ≠ 0xED) (h2 : a ≠ 0xF0)
    (h3 : a ≠ 0xF4) : utf8.acceptRange a = (0x80, 0xBF) := by
  unfold utf8.acceptRange
  rw [if_neg h0, if_neg h1, if_neg h2, if_neg h3]

theorem utf8.decode_encode (r : Nat) (rest : GoString) (h : utf8.ValidRune r) :
    utf8.DecodeRuneInString (utf8.EncodeRune r ++ rest) = (r, (utf8.EncodeRune r).length) := by
  unfold utf8.ValidRune at h
  unfold utf8.EncodeRune
  by_cases c1 : r ≤ 0x7F
  · rw [if_pos c1]
    have : r < 0x80 := by omega
    simp [utf8.DecodeRuneInString, this]
  rw [if_neg c1]
  by_cases c2 : r ≤ 0x7FF
  · rw [if_pos c2]
    have ha1 : ¬ (0xC0 + r / 64 < 0x80) := by omega
    have ha2 : ¬ (0xC0 + r / 64 < 0xC2 ∨ 0xF4 < 0xC0 + r / 64) := by omega
    have ha3 : 0xC0 + r / 64 < 0xE0 := by omega
    have hacc := utf8.acceptRange_default (0xC0 + r / 64) (by omega) (by omega) (by omega) (by omega)
    have hb : ¬ (0x80 + r % 64 < 0x80 ∨ 0xBF < 0x80 + r % 64) := by omega
    simp only [List.cons_append, List.nil_append, utf8.DecodeRuneInString, if_neg ha1, if_neg ha2,
      if_pos ha3, hacc, if_neg hb, List.length_cons, List.length_nil]
    rw [if_neg (by omega), if_pos (by omega)]
    simp only [Prod.mk.injEq, and_true]
    omega
  rw [if_neg c2]
  have c3 : ¬ (0x10FFFF < r ∨ (0xD800 ≤ r ∧ r ≤ 0xDFFF)) := by omega
  rw [if_neg c3]
  by_cases c4 : r ≤ 0xFFFF
  · rw [if_pos c4]
    have ha1 : ¬ (0xE0 + r / 4096 < 0x80) := by omega
    have ha2 : ¬ (0xE0 + r / 4096 < 0xC2 ∨ 0xF4 < 0xE0 + r / 4096) := by omega
    have ha3 : ¬ 0xE0 + r / 4096 < 0xE0 := by omega
    have ha4 : 0xE0 + r / 4096 < 0xF0 := by omega
    have hb : ¬ (0x80 + r / 64 % 64 < (utf8.acceptRange (0xE0 + r / 4096)).1
        ∨ (utf8.acceptRange (0xE0 + r / 4096)).2 < 0x80 + r / 64 % 64) := by
      unfold utf8.acceptRange
      split_ifs <;> simp only <;> omega
    have hc : ¬ (0x80 + r % 64 < 0x80 ∨ 0xBF < 0x80 + r % 64) := by omega
    simp only [List.cons_append, List.nil_append, utf8.DecodeRuneInString, if_neg ha1, if_neg ha2,
      if_neg ha3, if_pos ha4, if_neg hb, if_neg hc, List.length_cons, List.length_nil]
    rw [if_neg (by omega), if_neg (by omega), if_pos (by omega)]
    simp only [Prod.mk.injEq, and_true]
    omega
  · rw [if_neg c4]
    have ha1 : ¬ (0xF0 + r / 262144 < 0x80) := by omega
    have ha2 : ¬ (0xF0 + r / 262144 < 0xC2 ∨ 0xF4 < 0xF0 + r / 262144) := by omega
    have ha3 : ¬ 0xF0 + r / 262144 < 0xE0 := by omega
    have ha4 : ¬ 0xF0 + r / 262144 < 0xF0 := by omega
    have hb : ¬ (0x80 + r / 4096 % 64 < (utf8.acceptRange (0xF0 + r / 262144)).1
        ∨ (utf8.acceptRange (0xF0 + r / 262144)).2 < 0x80 + r / 4096 % 64) := by
      unfold utf8.acceptRange
      split_ifs <;> simp only <;> omega
    have hc : ¬ (0x80 + r / 64 % 64 < 0x80 ∨ 0xBF < 0x80 + r / 64 % 64) := by omega
    have hd : ¬ (0x80 + r % 64 < 0x80 ∨ 0xBF < 0x80 + r % 64) := by omega
    simp only [List.cons_append, List.nil_append, utf8.DecodeRuneInString, if_neg ha1, if_neg ha2,
      if_neg ha3, if_neg ha4, if_neg hb, if_neg hc, if_neg hd, List.length_cons, List.length_nil]
    rw [if_neg (by omega), if_neg (by omega), if_neg (by omega)]
    simp only [Prod.mk.injEq, and_true]
    omega


/-! ## The loop counters suffice -/

theorem utf8.decode_width_pos (s : GoString) (hs : s ≠ []) :
    1 ≤ (utf8.DecodeRuneInString s).2 := by
  rcases utf8.decode_cases s with ⟨h0, -⟩ | ⟨-, h⟩ | ⟨s0, t, -, -, h⟩
    | ⟨s0, s1, t, -, -, -, -, -, h⟩
    | ⟨s0, s1, s2, t, -, -, -, -, -, -, -, -, -, h⟩
    | ⟨s0, s1, s2, s3, t, -, -, -, -, -, -, -, -, -, -, -, h⟩
  · exact absurd h0 hs
  all_goals rw [h]
  all_goals simp

/-- More iterations than bytes left do not change what `range` visits. -/
theorem rangeFrom_fuel (s : GoString) (n m i : Nat) (hn : s.length - i ≤ n)
    (hm : s.length - i ≤ m) : rangeFrom s n i = rangeFrom s m i := by
  induction n generalizing m i with
  | zero =>
    cases m with
    | zero => rfl
    | succ m =>
      unfold rangeFrom
      rw [if_neg (by omega)]
  | succ n ih =>
    cases m with
    | zero =>
      unfold rangeFrom
      rw [if_neg (by omega)]
    | succ m =>
      unfold rangeFrom
      by_cases hi : i < s.length
      · have hw := utf8.decode_width_pos (s.drop i) (by
          intro h
          have := congrArg List.length h
          simp at this
          omega)
        simp only [if_pos hi]
        rw [ih m _ (by omega) (by omega)]
      · simp only [if_neg hi]

theorem rewrite.escEnd_ge (cmd : GoString) (i n e : Nat) : e ≤ escEnd cmd i n e := by
  induction n generalizing e with
  | zero => exact le_refl _
  | succ n ih =>
    unfold escEnd
    dsimp only
    split_ifs
    · omega
    · omega
    · exact le_trans (by omega) (ih (e + 1))
    · exact le_refl _

/-- More iterations than bytes left do not change the output of the loop of
`SafeRewrite`: the loop ends at the end of the command. -/
theorem rewrite.rewriteLoop_fuel (cmd : GoString) (normalize : Bool) (n m i : Nat) (b : GoString)
    (hn : cmd.length - i ≤ n) (hm : cmd.length - i ≤ m) :
    rewriteLoop cmd normalize n i b = rewriteLoop cmd normalize m i b := by
  induction n generalizing m i b with
  | zero =>
    cases m with
    | zero => rfl
    | succ m =>
      unfold rewriteLoop
      rw [if_neg (by omega)]
  | succ n ih =>
    cases m with
    | zero =>
      unfold rewriteLoop
      rw [if_neg (by omega)]
    | succ m =>
      unfold rewriteLoop
      by_cases hi : i < cmd.length
      · have hw := utf8.decode_width_pos (cmd.drop i) (by
          intro h
          have := congrArg List.length h
          simp at this
          omega)
        have he := escEnd_ge cmd i cmd.length (i + 1)
        simp only [if_pos hi]
        split_ifs
        all_goals exact ih _ _ _ (by omega) (by omega)
      · simp only [if_neg hi]

/-- `SafeRewrite` is the loop run to the end of the command: any counter of
at least the length of the command gives the same output. -/
theorem rewrite.SafeRewrite_fuel (cmd : GoString) (normalize : Bool) (n : Nat)
    (hn : cmd.length ≤ n) : rewriteLoop cmd normalize n 0 [] = SafeRewrite cmd normalize :=
  rewriteLoop_fuel cmd normalize n cmd.length 0 [] (by omega) (by omega)

/-- `rangeString` visits the whole string: any counter of at least its length
gives the same pairs. -/
theorem rangeString_fuel (s : GoString) (n : Nat) (hn : s.length ≤ n) :
    rangeFrom s n 0 = rangeString s :=
  rangeFrom_fuel s n s.length 0 (by omega) (by omega)

/-! ## The rewriter -/

theorem utf8.encode_length_pos (r : Nat) : 0 < (utf8.EncodeRune r).length := by
  unfold utf8.EncodeRune
  split_ifs <;> simp

theorem utf8.encode_byte (r : Nat) (b : Nat) (hb : b ∈ utf8.EncodeRune r) :
    (r ≤ 0x7F ∧ b = r) ∨ 0x80 ≤ b := by
  unfold utf8.EncodeRune at hb
  split_ifs at hb <;> simp only [List.mem_cons, List.mem_singleton, List.not_mem_nil, or_false] at hb
  · exact Or.inl ⟨by assumption, hb⟩
  all_goals right
  all_goals rcases hb with rfl | rfl | rfl | rfl <;> omega

theorem rewrite.homoglyphToLatin_kept (r : Nat) (h : homoglyphToLatin r ≠ 0) :
    Kept (homoglyphToLatin r) := by
  have hr : 0x61 ≤ homoglyphToLatin r ∧ homoglyphToLatin r ≤ 0x7A := by
    unfold homoglyphToLatin at h ⊢
    cases hl : cyrToLat.lookup r with
    | none => simp [hl] at h
    | some lat =>
      simp only [hl]
      have hm : ∀ (l : List (Nat × Nat)), (∀ p ∈ l, 0x61 ≤ p.2 ∧ p.2 ≤ 0x7A) →
          l.lookup r = some lat → 0x61 ≤ lat ∧ lat ≤ 0x7A := by
        intro l
        induction l with
        | nil => intro _ h; simp at h
        | cons p l ih =>
          intro hall hlk
          obtain ⟨a, b⟩ := p
          simp only [List.lookup_cons] at hlk
          split at hlk
          · cases hlk
            exact hall (a, lat) (List.mem_cons_self _ _)
          · exact ih (fun q hq => hall q (List.mem_cons_of_mem _ hq)) hlk
      exact hm cyrToLat (by decide) hl
  refine ⟨Or.inl (by omega), ?_, by omega, ?_⟩
  · unfold utf8.RuneError; omega
  · unfold isZeroWidthOrBidi
    rw [if_neg (by omega), if_neg (by omega)]

/-- What `SafeRewrite` has written is at every step the encoding of kept
runes. -/
theorem rewrite.rewriteLoop_kept (cmd : GoString) (normalize : Bool) (n i : Nat) (b : GoString)
    (hb : ∃ rs : List Nat, (∀ r ∈ rs, Kept r) ∧ b = rs.flatMap utf8.EncodeRune) :
    ∃ rs : List Nat, (∀ r ∈ rs, Kept r)
      ∧ rewriteLoop cmd normalize n i b = rs.flatMap utf8.EncodeRune := by
  induction n generalizing i b with
  | zero => exact hb
  | succ n ih =>
    unfold rewriteLoop
    dsimp only
    split_ifs with h1 h2 h3 h4 h5 h6
    · exact ih _ _ hb
    · exact ih _ _ hb
    · exact ih _ _ hb
    · obtain ⟨rs, hrs, rfl⟩ := hb
      refine ih _ _ ⟨rs ++ [homoglyphToLatin (utf8.DecodeRuneInString (cmd.drop i)).1], ?_, ?_⟩
      · intro r hr
        rcases List.mem_append.1 hr with hr | hr
        · exact hrs r hr
        · simp only [List.mem_singleton] at hr
          subst hr
          exact homoglyphToLatin_kept _ h6
      · simp
    · obtain ⟨rs, hrs, rfl⟩ := hb
      refine ih _ _ ⟨rs ++ [(utf8.DecodeRuneInString (cmd.drop i)).1], ?_, ?_⟩
      · intro r hr
        rcases List.mem_append.1 hr with hr | hr
        · exact hrs r hr
        · simp only [List.mem_singleton] at hr
          subst hr
          exact ⟨utf8.decode_valid _, h2, h3, by simpa using h4⟩
      · simp
    · obtain ⟨rs, hrs, rfl⟩ := hb
      refine ih _ _ ⟨rs ++ [(utf8.DecodeRuneInString (cmd.drop i)).1], ?_, ?_⟩
      · intro r hr
        rcases List.mem_append.1 hr with hr | hr
        · exact hrs r hr
        · simp only [List.mem_singleton] at hr
          subst hr
          exact ⟨utf8.decode_valid _, h2, h3, by simpa using h4⟩
      · simp
    · exact hb

theorem rewrite.SafeRewrite_kept (cmd : GoString) (normalize : Bool) :
    ∃ rs : List Nat, (∀ r ∈ rs, Kept r) ∧ SafeRewrite cmd normalize = rs.flatMap utf8.EncodeRune :=
  rewriteLoop_kept cmd normalize cmd.length 0 [] ⟨[], by simp, by simp⟩

/-- The runes of an encoded sequence of valid runes are those runes. -/
theorem rangeFrom_encoded (rs : List Nat) (hv : ∀ r ∈ rs, utf8.ValidRune r) (pre : GoString)
    (n : Nat) (p : Nat × Nat)
    (hp : p ∈ rangeFrom (pre ++ rs.flatMap utf8.EncodeRune) n pre.length) : p.2 ∈ rs := by
  induction rs generalizing pre n with
  | nil =>
    cases n with
    | zero => simp [rangeFrom] at hp
    | succ n => simp [rangeFrom] at hp
  | cons r rs ih =>
    cases n with
    | zero => simp [rangeFrom] at hp
    | succ n =>
      unfold rangeFrom at hp
      have hlen := utf8.encode_length_pos r
      have hd : (pre ++ (r :: rs).flatMap utf8.EncodeRune).drop pre.length
          = utf8.EncodeRune r ++ rs.flatMap utf8.EncodeRune := by
        simp
      rw [if_pos (by simp; omega)] at hp
      simp only [hd, utf8.decode_encode r _ (hv r (List.mem_cons_self _ _)), List.mem_cons] at hp
      rcases hp with rfl | hp
      · exact List.mem_cons_self _ _
      · refine List.mem_cons_of_mem _ (ih (fun q hq => hv q (List.mem_cons_of_mem _ hq))
          (pre ++ utf8.EncodeRune r) n ?_)
        simpa [List.append_assoc] using hp

/-- C8. For every input string, well-formed UTF-8 or not, and both values
of the flag, the output of `SafeRewrite` has no byte 0x1B and none of its
runes is a zero-width or bidi control. -/
theorem SafeRewrite_strips (cmd : GoString) (normalizeHomoglyphs : Bool) :
    0x1B ∉ SafeRewrite cmd normalizeHomoglyphs
      ∧ ∀ p ∈ rangeString (SafeRewrite cmd normalizeHomoglyphs),
          p.2 ∉ [0x200B, 0x200C, 0x200D, 0xFEFF, 0x2060, 0x180E, 0x202E, 0x202D, 0x2066, 0x2069] := by
  obtain ⟨rs, hrs, he⟩ := SafeRewrite_kept cmd normalizeHomoglyphs
  rw [he]
  constructor
  · intro hmem
    obtain ⟨r, hr, hb⟩ := List.mem_flatMap.1 hmem
    have hk := hrs r hr
    rcases utf8.encode_byte r _ hb with ⟨-, h1⟩ | h1
    · exact hk.2.2.1 h1.symm
    · omega
  · intro p hp
    have hm : p.2 ∈ rs := by
      have := rangeFrom_encoded rs (fun r hr => (hrs r hr).1) [] _ p
        (by simpa [rangeString] using hp)
      exact this
    have hk := (hrs _ hm).2.2.2
    unfold isZeroWidthOrBidi at hk
    split_ifs at hk with h1 h2
    simp only [List.mem_cons, List.mem_singleton, List.not_mem_nil, or_false]
    omega

/-- `SafeRewrite` without folding leaves the encoding of kept runes as it is. -/
theorem rewrite.rewriteLoop_encoded (rs : List Nat) (hk : ∀ r ∈ rs, Kept r) (pre : GoString)
    (n : Nat) (hn : (rs.flatMap utf8.EncodeRune).length ≤ n) (b : GoString) :
    rewriteLoop (pre ++ rs.flatMap utf8.EncodeRune) false n pre.length b
      = b ++ rs.flatMap utf8.EncodeRune := by
  induction rs generalizing pre n b with
  | nil =>
    cases n with
    | zero => simp [rewriteLoop]
    | succ n => simp [rewriteLoop]
  | cons r rs ih =>
    have hlen := utf8.encode_length_pos r
    cases n with
    | zero => simp only [List.flatMap_cons, List.length_append] at hn; omega
    | succ n =>
      unfold rewriteLoop
      have hd : (pre ++ (r :: rs).flatMap utf8.EncodeRune).drop pre.length
          = utf8.EncodeRune r ++ rs.flatMap utf8.EncodeRune := by
        simp
      have hr := hk r (List.mem_cons_self _ _)
      rw [if_pos (by simp; omega)]
      simp only [hd, utf8.decode_encode r _ hr.1]
      rw [if_neg hr.2.1, if_neg hr.2.2.1, if_neg (by simp [hr.2.2.2])]
      simp only [Bool.false_eq_true, if_false]
      have := ih (fun q hq => hk q (List.mem_cons_of_mem _ hq)) (pre ++ utf8.EncodeRune r) n
        (by simp at hn ⊢; omega) (b ++ utf8.EncodeRune r)
      simp only [List.length_append, List.append_assoc] at this
      simpa [List.append_assoc] using this

/-- C9. `SafeRewrite` without homoglyph folding is idempotent. -/
theorem SafeRewrite_idempotent (s : GoString) :
    SafeRewrite (SafeRewrite s false) false = SafeRewrite s false := by
  obtain ⟨rs, hrs, he⟩ := SafeRewrite_kept s false
  rw [he]
  have := rewriteLoop_encoded rs hrs [] (rs.flatMap utf8.EncodeRune).length (le_refl _) []
  simpa [SafeRewrite] using this

/-- C10. With the flag set `SafeRewrite` folds each of the 19 code points of
the table to its Latin letter, and without the flag it returns the
one-code-point string unchanged; in particular U+0430 becomes `a`. -/
theorem SafeRewrite_folds_table :
    (∀ p ∈ [("\u0430", "a"), ("\u0435", "e"), ("\u043E", "o"), ("\u043F", "p"),
        ("\u0441", "c"), ("\u0443", "y"), ("\u0445", "x"), ("\u0501", "d"),
        ("\u0432", "b"), ("\u0437", "z"), ("\u0438", "u"), ("\u0439", "i"),
        ("\u043A", "k"), ("\u043C", "m"), ("\u043D", "n"), ("\u0433", "g"),
        ("\u0442", "t"), ("\u0440", "r"), ("\u0444", "f")],
      SafeRewrite (str p.1) true = str p.2 ∧ SafeRewrite (str p.1) false = str p.1)
    ∧ SafeRewrite [0xD0, 0xB0] true = [0x61] := by
  decide

/-! ## More on UTF-8 -/

theorem utf8.decode_ascii (s0 : Nat) (t : GoString) (h : s0 < 0x80) :
    utf8.DecodeRuneInString (s0 :: t) = (s0, 1) := by
  simp only [utf8.DecodeRuneInString, if_pos h]

theorem utf8.decode_width_le (s : GoString) : (utf8.DecodeRuneInString s).2 ≤ s.length := by
  rcases utf8.decode_cases s with ⟨h0, h⟩ | ⟨h0, h⟩ | ⟨s0, t, h0, -, h⟩
    | ⟨s0, s1, t, h0, -, -, -, -, h⟩
    | ⟨s0, s1, s2, t, h0, -, -, -, -, -, -, -, -, h⟩
    | ⟨s0, s1, s2, s3, t, h0, -, -, -, -, -, -, -, -, -, -, h⟩
  · rw [h]; simp
  · rw [h]
    cases s with
    | nil => exact absurd rfl h0
    | cons a t => simp
  all_goals rw [h, h0]
  all_goals simp

/-- A rune that was decoded without error is encoded by the bytes it was
decoded from. -/
theorem utf8.encode_decode (s : GoString) (h : (utf8.DecodeRuneInString s).1 ≠ utf8.RuneError) :
    utf8.EncodeRune (utf8.DecodeRuneInString s).1 = s.take (utf8.DecodeRuneInString s).2 := by
  rcases utf8.decode_cases s with ⟨h0, hd⟩ | ⟨h0, hd⟩ | ⟨s0, t, h0, c0, hd⟩
    | ⟨s0, s1, t, h0, c0, c1, c2, c3, hd⟩
    | ⟨s0, s1, s2, t, h0, c0, c1, c2, c3, c4, c5, c6, c7, hd⟩
    | ⟨s0, s1, s2, s3, t, h0, c0, c1, c2, c3, c4, c5, c6, c7, c8, c9, hd⟩
  · rw [hd] at h; exact absurd rfl h
  · rw [hd] at h; exact absurd rfl h
  · rw [hd, h0]
    simp only [utf8.EncodeRune, List.take_succ_cons, List.take_zero]
    rw [if_pos (by omega)]
  · rw [hd, h0]
    simp only [utf8.EncodeRune, List.take_succ_cons, List.take_zero]
    rw [if_neg (by omega), if_pos (by omega)]
    simp only [List.cons.injEq, and_true]
    omega
  · rw [hd, h0]
    simp only [utf8.EncodeRune, List.take_succ_cons, List.take_zero]
    rw [if_neg (by omega), if_neg (by omega), if_neg (by omega), if_pos (by omega)]
    simp only [List.cons.injEq, and_true]
    omega
  · rw [hd, h0]
    simp only [utf8.EncodeRune, List.take_succ_cons, List.take_zero]
    rw [if_neg (by omega), if_neg (by omega), if_neg (by omega), if_neg (by omega)]
    simp only [List.cons.injEq, and_true]
    omega

/-- The bytes a decoding step consumes: one ASCII byte, which is the rune,
or bytes from 0x80 on. -/
theorem utf8.decode_bytes (s : GoString) (j : Nat) (hj : j < (utf8.DecodeRuneInString s).2) :
    0x80 ≤ s.getD j 0
      ∨ ((utf8.DecodeRuneInString s).2 = 1 ∧ s.getD 0 0 = (utf8.DecodeRuneInString s).1
          ∧ (utf8.DecodeRuneInString s).1 < 0x80) := by
  rcases utf8.decode_cases s with ⟨h0, hd⟩ | ⟨h0, hd⟩ | ⟨s0, t, h0, c0, hd⟩
    | ⟨s0, s1, t, h0, c0, c1, c2, c3, hd⟩
    | ⟨s0, s1, s2, t, h0, c0, c1, c2, c3, c4, c5, c6, c7, hd⟩
    | ⟨s0, s1, s2, s3, t, h0, c0, c1, c2, c3, c4, c5, c6, c7, c8, c9, hd⟩
  · rw [hd] at hj; simp at hj
  · rw [hd] at hj
    simp only at hj
    cases s with
    | nil => exact absurd rfl h0
    | cons a t =>
      have hj0 : j = 0 := by omega
      subst hj0
      left
      by_cases ha : a < 0x80
      · rw [utf8.decode_ascii a t ha] at hd
        simp only [Prod.mk.injEq, and_true] at hd
        omega
      · simp only [List.getD_cons_zero]
        omega
  · right
    rw [hd, h0]
    exact ⟨rfl, by simp, c0⟩
  · left
    rw [hd] at hj
    simp only at hj
    rw [h0]
    have : j = 0 ∨ j = 1 := by omega
    rcases this with rfl | rfl <;> simp <;> omega
  · left
    rw [hd] at hj
    simp only at hj
    rw [h0]
    have : j = 0 ∨ j = 1 ∨ j = 2 := by omega
    rcases this with rfl | rfl | rfl <;> simp <;> omega
  · left
    rw [hd] at hj
    simp only at hj
    rw [h0]
    have : j = 0 ∨ j = 1 ∨ j = 2 ∨ j = 3 := by omega
    rcases this with rfl | rfl | rfl | rfl <;> simp <;> omega

/-- A rune below U+0080 is decoded from one byte, the rune itself. -/
theorem utf8.decode_lt_128 (s : GoString) (h : (utf8.DecodeRuneInString s).1 < 0x80) :
    (utf8.DecodeRuneInString s).2 = 1 ∧ s.getD 0 0 = (utf8.DecodeRuneInString s).1 := by
  rcases utf8.decode_cases s with ⟨h0, hd⟩ | ⟨h0, hd⟩ | ⟨s0, t, h0, c0, hd⟩
    | ⟨s0, s1, t, h0, c0, c1, c2, c3, hd⟩
    | ⟨s0, s1, s2, t, h0, c0, c1, c2, c3, c4, c5, c6, c7, hd⟩
    | ⟨s0, s1, s2, s3, t, h0, c0, c1, c2, c3, c4, c5, c6, c7, c8, c9, hd⟩
  · rw [hd] at h; simp at h
  · rw [hd] at h; simp at h
  · rw [hd, h0]; simp
  all_goals rw [hd] at h
  all_goals simp only at h
  all_goals omega

/-! ## Matches of a regular expression -/

theorem regexp.iterate_bounds (len : Nat) (step : Nat → List Nat)
    (hstep : ∀ p e, p ≤ len → e ∈ step p → p ≤ e ∧ e ≤ len) (n pos e : Nat) (hpos : pos ≤ len)
    (he : e ∈ regexp.iterate step n pos) : pos ≤ e ∧ e ≤ len := by
  induction n generalizing pos with
  | zero =>
    simp only [regexp.iterate, List.mem_singleton] at he
    omega
  | succ n ih =>
    simp only [regexp.iterate, List.mem_append, List.mem_flatMap, List.mem_filter,
      List.mem_singleton, decide_eq_true_eq] at he
    rcases he with ⟨m, ⟨hm, hlt⟩, hem⟩ | rfl
    · have h1 := hstep pos m hpos hm
      have h2 := ih m h1.2 hem
      omega
    · omega

/-- A match that starts inside the string ends inside it, not before its
start. -/
theorem regexp.ends_bounds (s : GoString) (re : regexp.Re) (pos e : Nat) (hpos : pos ≤ s.length)
    (he : e ∈ re.ends s pos) : pos ≤ e ∧ e ≤ s.length := by
  induction re generalizing pos e with
  | empty =>
    simp only [regexp.Re.ends, List.mem_singleton] at he
    omega
  | cls p =>
    simp only [regexp.Re.ends] at he
    split at he
    · rename_i hlt
      split at he
      · simp only [List.mem_singleton] at he
        have := utf8.decode_width_le (s.drop pos)
        simp only [List.length_drop] at this
        omega
      · simp at he
    · simp at he
  | cat a b iha ihb =>
    simp only [regexp.Re.ends, List.mem_flatMap] at he
    obtain ⟨m, hm, hem⟩ := he
    have h1 := iha pos m hpos hm
    have h2 := ihb m e h1.2 hem
    omega
  | alt a b iha ihb =>
    simp only [regexp.Re.ends, List.mem_append] at he
    rcases he with he | he
    · exact iha pos e hpos he
    · exact ihb pos e hpos he
  | star a iha =>
    simp only [regexp.Re.ends] at he
    exact regexp.iterate_bounds s.length (a.ends s) (fun p e hp he => iha p e hp he) _ pos e hpos he
  | wordBoundary =>
    simp only [regexp.Re.ends] at he
    split at he
    · simp only [List.mem_singleton] at he
      omega
    · simp at he

/-- What `findFrom` returns is a match: it starts at or after `pos`, inside
the string, and its end is one of the ends of the expression there. -/
theorem regexp.findFrom_spec (re : regexp.Re) (s : GoString) (n pos a b : Nat)
    (hpos : pos ≤ s.length) (h : regexp.findFrom re s n pos = some (a, b)) :
    pos ≤ a ∧ a ≤ s.length ∧ b ∈ re.ends s a := by
  induction n generalizing pos with
  | zero => simp [regexp.findFrom] at h
  | succ n ih =>
    unfold regexp.findFrom at h
    split at h
    · rename_i e he
      simp only [Option.some.injEq, Prod.mk.injEq] at h
      obtain ⟨rfl, rfl⟩ := h
      exact ⟨le_refl _, hpos, List.mem_of_mem_head? he⟩
    · split at h
      · have hw := utf8.decode_width_le (s.drop pos)
        simp only [List.length_drop] at hw
        have := ih _ (by omega) h
        exact ⟨by omega, this.2⟩
      · simp at h

/-- Every pair of `allFrom` is a match inside the string. -/
theorem regexp.allFrom_spec (re : regexp.Re) (s : GoString) (n pos : Nat) (prev : Option Nat)
    (a b : Nat) (h : (a, b) ∈ regexp.allFrom re s n pos prev) :
    a ≤ s.length ∧ b ∈ re.ends s a := by
  induction n generalizing pos prev with
  | zero => simp [regexp.allFrom] at h
  | succ n ih =>
    unfold regexp.allFrom at h
    split at h
    · rename_i hpos
      split at h
      · simp at h
      · rename_i a' b' hf
        have hs := regexp.findFrom_spec re s _ pos a' b' hpos hf
        dsimp only at h
        split at h
        · rcases List.mem_append.1 h with h1 | h1
          · split at h1
            · simp only [List.mem_singleton, Prod.mk.injEq] at h1
              obtain ⟨rfl, rfl⟩ := h1
              exact ⟨hs.2.1, hs.2.2⟩
            · simp at h1
          · exact ih _ _ h1
        · rcases List.mem_cons.1 h with h1 | h1
          · simp only [Prod.mk.injEq] at h1
            obtain ⟨rfl, rfl⟩ := h1
            exact ⟨hs.2.1, hs.2.2⟩
          · exact ih _ _ h1
    · simp at h

/-- Every match of `FindAllStringIndex` lies inside the string, and its end
is one of the ends of the expression at its start. -/
theorem regexp.FindAllStringIndex_spec (re : regexp.Re) (s : GoString) (a b : Nat)
    (h : (a, b) ∈ regexp.FindAllStringIndex re s) :
    a ≤ b ∧ b ≤ s.length ∧ b ∈ re.ends s a := by
  have h1 := regexp.allFrom_spec re s _ _ _ a b h
  have h2 := regexp.ends_bounds s re a b h1.1 h1.2
  exact ⟨h2.1, h2.2, h1.2⟩

/-- A match of a literal ASCII rune is that byte. -/
theorem regexp.cls_eq_ends (s : GoString) (c pos e : Nat) (hc : c < 0x80)
    (he : e ∈ (regexp.Re.cls (fun r => r == c)).ends s pos) :
    pos < s.length ∧ s.getD pos 0 = c ∧ e = pos + 1 := by
  simp only [regexp.Re.ends] at he
  split at he
  · rename_i hlt
    split at he
    · rename_i hp
      simp only [beq_iff_eq] at hp
      simp only [List.mem_singleton] at he
      have := utf8.decode_lt_128 (s.drop pos) (by omega)
      rw [hp] at this
      refine ⟨hlt, ?_, by omega⟩
      have h2 := this.2
      simp only [List.getD_eq_getElem?_getD, List.getElem?_drop, Nat.add_zero] at h2 ⊢
      exact h2
    · simp at he
  · simp at he

/-- A match of a negated class `[^c]`, with `c` an ASCII byte, consumes at
least one byte and no byte `c`. -/
theorem regexp.noneOf_ends (s : GoString) (c pos e : Nat) (hc : c < 0x80)
    (he : e ∈ (regexp.noneOf [c]).ends s pos) :
    ∀ j, pos ≤ j → j < e → s.getD j 0 ≠ c := by
  simp only [regexp.noneOf, regexp.Re.ends] at he
  split at he
  · rename_i hlt
    split at he
    · rename_i hp
      simp only [List.mem_singleton] at he
      subst he
      intro j hj1 hj2
      have hb := utf8.decode_bytes (s.drop pos) (j - pos) (by omega)
      have hg : (s.drop pos).getD (j - pos) 0 = s.getD j 0 := by
        simp only [List.getD_eq_getElem?_getD, List.getElem?_drop]
        congr 2
        omega
      rw [hg] at hb
      rcases hb with hb | ⟨hw, h0, hr⟩
      · omega
      · have hj : j = pos := by omega
        subst hj
        simp only [Nat.sub_self] at hg
        rw [← hg, h0]
        intro hc2
        rw [hc2] at hp
        simp at hp
    · simp at he
  · simp at he

theorem regexp.iterate_forall (step : Nat → List Nat) (P : Nat → Prop)
    (hstep : ∀ p e, e ∈ step p → ∀ j, p ≤ j → j < e → P j) (n pos e : Nat)
    (he : e ∈ regexp.iterate step n pos) : ∀ j, pos ≤ j → j < e → P j := by
  induction n generalizing pos with
  | zero =>
    simp only [regexp.iterate, List.mem_singleton] at he
    intro j h1 h2
    omega
  | succ n ih =>
    simp only [regexp.iterate, List.mem_append, List.mem_flatMap, List.mem_filter,
      List.mem_singleton, decide_eq_true_eq] at he
    rcases he with ⟨m, ⟨hm, hlt⟩, hem⟩ | rfl
    · intro j h1 h2
      by_cases hjm : j < m
      · exact hstep pos m hm j h1 hjm
      · exact ih m hem j (by omega) h2
    · intro j h1 h2
      omega

theorem regexp.iterate_ge (step : Nat → List Nat) (n pos e : Nat)
    (he : e ∈ regexp.iterate step n pos) : pos ≤ e := by
  induction n generalizing pos with
  | zero =>
    simp only [regexp.iterate, List.mem_singleton] at he
    omega
  | succ n ih =>
    simp only [regexp.iterate, List.mem_append, List.mem_flatMap, List.mem_filter,
      List.mem_singleton, decide_eq_true_eq] at he
    rcases he with ⟨m, ⟨hm, hlt⟩, hem⟩ | rfl
    · have := ih m hem
      omega
    · omega

/-! ## Positions and tokens -/

theorem rules.slice_length (s : GoString) (a b : Nat) (hb : b ≤ s.length) :
    (slice s a b).length = b - a := by
  simp only [rules.slice, List.length_take, List.length_drop]
  omega

theorem rules.slice_atPosition (s : GoString) (a b : Nat) (hab : a ≤ b) (hb : b ≤ s.length) :
    a + (slice s a b).length ≤ s.length
      ∧ slice s a (a + (slice s a b).length) = slice s a b := by
  rw [slice_length s a b hb]
  constructor
  · omega
  · simp only [rules.slice]
    congr 1
    omega

/-- The pairs of `range` are inside the string, each with the rune decoded
at its offset. -/
theorem rangeFrom_mem (s : GoString) (n j : Nat) (p : Nat × Nat) (h : p ∈ rangeFrom s n j) :
    j ≤ p.1 ∧ p.1 < s.length ∧ p.2 = (utf8.DecodeRuneInString (s.drop p.1)).1 := by
  induction n generalizing j with
  | zero => simp [rangeFrom] at h
  | succ n ih =>
    unfold rangeFrom at h
    split at h
    · rename_i hj
      rcases List.mem_cons.1 h with rfl | h1
      · exact ⟨le_refl _, hj, rfl⟩
      · have := ih _ h1
        exact ⟨by omega, this.2⟩
    · simp at h

/-- A rune other than U+FFFD that `range` finds at offset `i` is encoded by
the bytes of the string at `i`. -/
theorem rangeString_atPosition (s : GoString) (p : Nat × Nat) (h : p ∈ rangeString s)
    (hr : p.2 ≠ utf8.RuneError) :
    p.1 + (utf8.EncodeRune p.2).length ≤ s.length
      ∧ slice s p.1 (p.1 + (utf8.EncodeRune p.2).length) = utf8.EncodeRune p.2 := by
  obtain ⟨-, hlt, hd⟩ := rangeFrom_mem s _ _ p h
  have hw := utf8.decode_width_le (s.drop p.1)
  have he := utf8.encode_decode (s.drop p.1) (by rw [← hd]; exact hr)
  simp only [List.length_drop] at hw
  rw [hd, he]
  have hlen : ((s.drop p.1).take (utf8.DecodeRuneInString (s.drop p.1)).2).length
      = (utf8.DecodeRuneInString (s.drop p.1)).2 := by
    rw [List.length_take, List.length_drop]
    omega
  rw [hlen]
  constructor
  · omega
  · simp only [rules.slice]
    congr 1
    omega

theorem zeroWidthCheck_atPosition {cmd : GoString} {cfg : RuleConfig} {f : Finding}
    (h : f ∈ ZeroWidthRule.Check cmd cfg) : AtPosition cmd f := by
  unfold ZeroWidthRule.Check at h
  split at h
  · simp at h
  · obtain ⟨p, hp, hf⟩ := List.mem_filterMap.1 h
    split at hf
    · rename_i hbad
      cases hf
      refine rangeString_atPosition cmd p hp ?_
      intro he
      rw [he] at hbad
      exact absurd hbad (by decide)
    · cases hf

theorem bidiCheck_atPosition {cmd : GoString} {cfg : RuleConfig} {f : Finding}
    (h : f ∈ BidiControlsRule.Check cmd cfg) : AtPosition cmd f := by
  unfold BidiControlsRule.Check at h
  split at h
  · simp at h
  · obtain ⟨p, hp, hf⟩ := List.mem_filterMap.1 h
    split at hf
    · rename_i hbad
      cases hf
      refine rangeString_atPosition cmd p hp ?_
      intro he
      rw [he] at hbad
      exact absurd hbad (by decide)
    · cases hf

theorem ANSIEscapeRule.spanEnd_ge (cmd : GoString) (i n e : Nat) :
    e ≤ ANSIEscapeRule.spanEnd cmd i n e := by
  induction n generalizing e with
  | zero => exact le_refl _
  | succ n ih =>
    unfold ANSIEscapeRule.spanEnd
    dsimp only
    split_ifs
    · omega
    · omega
    · omega
    · exact le_trans (by omega) (ih (e + 1))
    · exact le_refl _

theorem ANSIEscapeRule.spanEnd_le (cmd : GoString) (i n e : Nat) (he : e ≤ cmd.length) :
    ANSIEscapeRule.spanEnd cmd i n e ≤ cmd.length := by
  induction n generalizing e with
  | zero => exact he
  | succ n ih =>
    unfold ANSIEscapeRule.spanEnd
    dsimp only
    split_ifs
    · omega
    · omega
    · omega
    · exact ih (e + 1) (by omega)
    · exact he

theorem ansiLoop_atPosition (cmd : GoString) (n i : Nat) (out : List Finding) (f : Finding)
    (h : f ∈ ANSIEscapeRule.loop cmd n i out) : f ∈ out ∨ AtPosition cmd f := by
  induction n generalizing i out with
  | zero => exact Or.inl h
  | succ n ih =>
    unfold ANSIEscapeRule.loop at h
    split at h
    · rename_i hi
      split at h
      · rcases ih _ _ h with h1 | h1
        · rcases List.mem_append.1 h1 with h2 | h2
          · exact Or.inl h2
          · simp only [List.mem_singleton] at h2
            subst h2
            right
            exact slice_atPosition cmd i _
              (le_trans (by omega) (ANSIEscapeRule.spanEnd_ge cmd i cmd.length (i + 1)))
              (ANSIEscapeRule.spanEnd_le cmd i cmd.length (i + 1) (by omega))
        · exact Or.inr h1
      · exact ih _ _ h
    · exact Or.inl h

theorem ansiCheck_atPosition {cmd : GoString} {cfg : RuleConfig} {f : Finding}
    (h : f ∈ ANSIEscapeRule.Check cmd cfg) : AtPosition cmd f := by
  unfold ANSIEscapeRule.Check at h
  split at h
  · simp at h
  · rcases ansiLoop_atPosition _ _ _ _ _ h with h1 | h1
    · simp at h1
    · exact h1

theorem match_atPosition (re : regexp.Re) (cmd : GoString) (loc : Nat × Nat)
    (h : loc ∈ regexp.FindAllStringIndex re cmd) :
    loc.1 + (slice cmd loc.1 loc.2).length ≤ cmd.length
      ∧ slice cmd loc.1 (loc.1 + (slice cmd loc.1 loc.2).length) = slice cmd loc.1 loc.2 := by
  have hs := regexp.FindAllStringIndex_spec re cmd loc.1 loc.2 h
  exact slice_atPosition cmd loc.1 loc.2 hs.1 hs.2.1

theorem pipeToShellCheck_atPosition {cmd : GoString} {cfg : RuleConfig} {f : Finding}
    (h : f ∈ PipeToShellRule.Check cmd cfg) : AtPosition cmd f := by
  unfold PipeToShellRule.Check at h
  split at h
  · simp at h
  · obtain ⟨loc, hloc, rfl⟩ := List.mem_map.1 h
    exact match_atPosition _ cmd loc hloc

theorem persistenceCheck_atPosition {cmd : GoString} {cfg : RuleConfig} {f : Finding}
    (h : f ∈ PersistenceRule.Check cmd cfg) : AtPosition cmd f := by
  unfold PersistenceRule.Check at h
  split at h
  · simp at h
  · obtain ⟨re, -, h1⟩ := List.mem_flatMap.1 h
    obtain ⟨loc, hloc, rfl⟩ := List.mem_map.1 h1
    exact match_atPosition _ cmd loc hloc

theorem shortenerCheck_atPosition {U : UnicodeTables} {cmd : GoString} {cfg : RuleConfig}
    {f : Finding} (h : f ∈ ShortenerRule.Check U cmd cfg) : AtPosition cmd f := by
  unfold ShortenerRule.Check at h
  split at h
  · simp at h
  · obtain ⟨loc, hloc, h1⟩ := List.mem_flatMap.1 h
    dsimp only at h1
    split at h1
    · simp only [List.mem_singleton] at h1
      subst h1
      exact match_atPosition _ cmd loc hloc
    · simp at h1

theorem subshellCheck_atPosition {cmd : GoString} {cfg : RuleConfig} {f : Finding}
    (h : f ∈ SubshellRule.Check cmd cfg) : AtPosition cmd f := by
  unfold SubshellRule.Check at h
  split at h
  · simp at h
  · obtain ⟨re, -, h1⟩ := List.mem_flatMap.1 h
    obtain ⟨loc, hloc, rfl⟩ := List.mem_map.1 h1
    exact match_atPosition _ cmd loc hloc

/-- C13. The position of a finding is a byte offset into the command at
which its token occurs: for every command, every policy and every finding of
the zero-width, bidi-controls, ansi-escape, pipe-to-shell,
persistence-patterns, shortener-domains or subshell-command rule, the
position is not negative, position plus token length is within the command,
and the bytes of the command from the position on are the token. -/
theorem findings_at_position (U : UnicodeTables) (cmd : GoString) (cfg : RuleConfig)
    (f : Finding)
    (hf : f ∈ ZeroWidthRule.Check cmd cfg ++ BidiControlsRule.Check cmd cfg
      ++ ANSIEscapeRule.Check cmd cfg ++ PipeToShellRule.Check cmd cfg
      ++ PersistenceRule.Check cmd cfg ++ ShortenerRule.Check U cmd cfg
      ++ SubshellRule.Check cmd cfg) :
    0 ≤ f.Position ∧ f.Position + f.Token.length ≤ cmd.length
      ∧ slice cmd f.Position (f.Position + f.Token.length) = f.Token := by
  refine ⟨Nat.zero_le _, ?_⟩
  simp only [List.mem_append] at hf
  rcases hf with (((((h | h) | h) | h) | h) | h) | h
  · exact zeroWidthCheck_atPosition h
  · exact bidiCheck_atPosition h
  · exact ansiCheck_atPosition h
  · exact pipeToShellCheck_atPosition h
  · exact persistenceCheck_atPosition h
  · exact shortenerCheck_atPosition h
  · exact subshellCheck_atPosition h

set_option maxRecDepth 100000 in
theorem findings_at_position_witness :
    ZeroWidthRule.Check (str "\u00E9\u200B") none
        = [{ RuleID := str "zero-width"
             Severity := Block
             Token := str "\u200B"
             Issue := str "zero-width or invisible character (U+200B) detected"
             Position := 2
             Suggestion := str "paste as plain text; remove hidden characters" }]
      ∧ (0 ≤ 2 ∧ 2 + (str "\u200B").length ≤ (str "\u00E9\u200B").length
        ∧ slice (str "\u00E9\u200B") 2 (2 + (str "\u200B").length) = str "\u200B") :=
  ⟨by decide,
    findings_at_position sampleTables (str "\u00E9\u200B") none
      { RuleID := str "zero-width"
        Severity := Block
        Token := str "\u200B"
        Issue := str "zero-width or invisible character (U+200B) detected"
        Position := 2
        Suggestion := str "paste as plain text; remove hidden characters" }
      (by
        simp only [List.mem_append]
        exact Or.inl (Or.inl (Or.inl (Or.inl (Or.inl (Or.inl (by decide)))))))⟩

/-! ## The shape of the substitution matches -/

/-- A match of `\$\([^)]*\)`: a `$`, a `(`, bytes other than `)`, and a `)`
as its last byte. -/
theorem subshellDollar_match (s : GoString) (a b : Nat) (h : b ∈ subshellDollarRe.ends s a) :
    a + 3 ≤ b ∧ b ≤ s.length ∧ s.getD a 0 = 0x24 ∧ s.getD (b - 1) 0 = 0x29
      ∧ ∀ j, a ≤ j → j < b - 1 → s.getD j 0 ≠ 0x29 := by
  simp only [subshellDollarRe, regexp.seq, regexp.chr, regexp.Re.ends.eq_3,
    List.mem_flatMap] at h
  obtain ⟨p1, h1, p2, h2, p3, h3, h4⟩ := h
  have e1 := regexp.cls_eq_ends s _ a p1 (by decide) h1
  have e2 := regexp.cls_eq_ends s _ p1 p2 (by decide) h2
  have e4 := regexp.cls_eq_ends s _ p3 b (by decide) h4
  simp only [regexp.Re.ends] at h3
  have e3 := regexp.iterate_forall _ (fun j => s.getD j 0 ≠ 0x29)
    (fun p e he => regexp.noneOf_ends s 0x29 p e (by decide) he) _ p2 p3 h3
  have g3 := regexp.iterate_ge _ _ p2 p3 h3
  obtain ⟨l1, v1, rfl⟩ := e1
  obtain ⟨l2, v2, rfl⟩ := e2
  obtain ⟨l4, v4, rfl⟩ := e4
  refine ⟨by omega, by omega, v1, by simpa using v4, ?_⟩
  intro j hj1 hj2
  simp only [Nat.add_sub_cancel] at hj2
  by_cases c1 : j = a
  · subst c1; rw [v1]; decide
  by_cases c2 : j = a + 1
  · subst c2; rw [v2]; decide
  exact e3 j (by omega) hj2

theorem rules.mem_slice (s : GoString) (a b x : Nat) (h : x ∈ slice s a b) :
    ∃ j, a ≤ j ∧ j < b ∧ s.getD j 0 = x := by
  simp only [rules.slice] at h
  obtain ⟨i, hi⟩ := List.mem_iff_getElem?.1 h
  rw [List.getElem?_take] at hi
  split at hi
  · rename_i hlt
    rw [List.getElem?_drop] at hi
    refine ⟨a + i, by omega, by omega, ?_⟩
    simp [List.getD_eq_getElem?_getD, hi]
  · cases hi

theorem rules.slice_snoc (s : GoString) (a p : Nat) (hap : a ≤ p) (hp : p < s.length) :
    slice s a (p + 1) = slice s a p ++ [s.getD p 0] := by
  simp only [rules.slice]
  have h1 : p + 1 - a = (p - a) + 1 := by omega
  rw [h1, List.take_succ, List.getElem?_drop]
  have h2 : a + (p - a) = p := by omega
  rw [h2, List.getElem?_eq_getElem hp]
  simp [List.getD_eq_getElem?_getD, List.getElem?_eq_getElem hp]

theorem rules.slice_head (s : GoString) (a b : Nat) (hab : a < b) (hb : b ≤ s.length) :
    (slice s a b).head? = some (s.getD a 0) := by
  simp only [rules.slice]
  rw [List.head?_take, if_neg (by omega), List.head?_drop]
  simp [List.getD_eq_getElem?_getD, List.getElem?_eq_getElem (show a < s.length by omega)]

/-- A token of the `$(` pattern has one `)`, its last byte, and starts with
`$`. -/
theorem subshellDollar_token (s : GoString) (loc : Nat × Nat)
    (h : loc ∈ regexp.FindAllStringIndex subshellDollarRe s) :
    (slice s loc.1 loc.2).count 0x29 = 1 ∧ (slice s loc.1 loc.2).getLast? = some 0x29
      ∧ (slice s loc.1 loc.2).head? = some 0x24 := by
  have hs := regexp.FindAllStringIndex_spec _ s loc.1 loc.2 h
  obtain ⟨m1, m2, m3, m4, m5⟩ := subshellDollar_match s loc.1 loc.2 hs.2.2
  have hb : loc.2 = (loc.2 - 1) + 1 := by omega
  have hsn := slice_snoc s loc.1 (loc.2 - 1) (by omega) (by omega)
  rw [← hb, m4] at hsn
  have hnot : 0x29 ∉ slice s loc.1 (loc.2 - 1) := by
    intro hmem
    obtain ⟨j, j1, j2, j3⟩ := mem_slice s _ _ _ hmem
    exact m5 j j1 j2 j3
  refine ⟨?_, ?_, ?_⟩
  · rw [hsn, List.count_append, List.count_eq_zero.2 hnot]
    simp
  · rw [hsn]
    simp
  · rw [slice_head s loc.1 loc.2 (by omega) m2, m3]

/-- A token of the backtick pattern starts with a backtick. -/
theorem subshellBacktick_token (s : GoString) (loc : Nat × Nat)
    (h : loc ∈ regexp.FindAllStringIndex subshellBacktickRe s) :
    (slice s loc.1 loc.2).head? = some 0x60 := by
  have hs := regexp.FindAllStringIndex_spec _ s loc.1 loc.2 h
  have hm := hs.2.2
  simp only [subshellBacktickRe, regexp.seq, regexp.Re.ends.eq_3, List.mem_flatMap] at hm
  obtain ⟨p1, h1, p2, h2, h3⟩ := hm
  obtain ⟨l1, v1, rfl⟩ := regexp.cls_eq_ends s _ loc.1 p1 (by decide) h1
  have hb := regexp.ends_bounds s _ _ _ (by omega) h2
  have hc := regexp.ends_bounds s _ _ _ hb.2 h3
  rw [slice_head s loc.1 loc.2 (by omega) hs.2.1, v1]

/-- A token of the process substitution pattern starts with `<`. -/
theorem processSubst_token (s : GoString) (loc : Nat × Nat)
    (h : loc ∈ regexp.FindAllStringIndex processSubstRe s) :
    (slice s loc.1 loc.2).head? = some 0x3C := by
  have hs := regexp.FindAllStringIndex_spec _ s loc.1 loc.2 h
  have hm := hs.2.2
  simp only [processSubstRe, regexp.seq, regexp.chr, regexp.Re.ends.eq_3, List.mem_flatMap] at hm
  obtain ⟨p1, h1, p2, h2, h3⟩ := hm
  obtain ⟨l1, v1, rfl⟩ := regexp.cls_eq_ends s _ loc.1 p1 (by decide) h1
  have hb := regexp.ends_bounds s _ _ _ (by omega) h2
  obtain ⟨p3, h4, h5⟩ := h3
  have hc := regexp.ends_bounds s _ _ _ hb.2 h4
  have hd := regexp.ends_bounds s _ _ _ hc.2 h5
  rw [slice_head s loc.1 loc.2 (by omega) hs.2.1, v1]
  rfl

/-- Every `$(` match is reported by the rule, with the matched text as the
token and the start of the match as the position. -/
theorem subshellCheck_dollar (cmd : GoString) (cfg : RuleConfig)
    (h : disabled cfg (str "subshell_command") = false) (loc : Nat × Nat)
    (hloc : loc ∈ regexp.FindAllStringIndex subshellDollarRe cmd) :
    ∃ f ∈ SubshellRule.Check cmd cfg, f.Token = slice cmd loc.1 loc.2 ∧ f.Position = loc.1 := by
  unfold SubshellRule.Check
  rw [h]
  simp only [Bool.false_eq_true, if_false, List.mem_flatMap, List.mem_map]
  exact ⟨_, ⟨(subshellDollarRe, false), by simp, loc, hloc, rfl⟩, rfl, rfl⟩

/-- A token of the rule that starts with `$` is a `$(` match. -/
theorem subshellCheck_dollar_token (cmd : GoString) (cfg : RuleConfig) (f : Finding)
    (hf : f ∈ SubshellRule.Check cmd cfg) (hd : f.Token.head? = some 0x24) :
    ∃ loc ∈ regexp.FindAllStringIndex subshellDollarRe cmd, f.Token = slice cmd loc.1 loc.2 := by
  unfold SubshellRule.Check at hf
  split at hf
  · simp at hf
  · obtain ⟨re, hre, h1⟩ := List.mem_flatMap.1 hf
    obtain ⟨loc, hloc, rfl⟩ := List.mem_map.1 h1
    simp only [List.mem_cons, List.mem_singleton, List.not_mem_nil, or_false] at hre
    rcases hre with rfl | rfl | rfl
    · exact ⟨loc, hloc, rfl⟩
    · have := subshellBacktick_token cmd loc hloc
      simp only at hd
      rw [this] at hd
      cases hd
    · have := processSubst_token cmd loc hloc
      simp only at hd
      rw [this] at hd
      cases hd

set_option maxRecDepth 100000 in
/-- C18. With the subshell_command rule enabled, `SubshellRule.Check` on
`$(whoami)` returns one finding, with token `$(whoami)` at position 0; on
`$(echo $(whoami))` it returns one finding, with token `$(echo $(whoami)` at
position 0; and for every command the text of every `$(` match, which is
every token of the rule that starts with `$`, has exactly one `)`, its
last byte. -/
theorem SubshellRule_dollar_tokens (cmd : GoString) (cfg : RuleConfig)
    (h : disabled cfg (str "subshell_command") = false) :
    SubshellRule.Check (str "$(whoami)") cfg
        = [{ RuleID := str "subshell-command"
             Severity := Warn
             Token := str "$(whoami)"
             Issue := str "command substitution or subshell: $(whoami)"
             Position := 0
             Suggestion := str "ensure substituted command is trusted" }]
      ∧ SubshellRule.Check (str "$(echo $(whoami))") cfg
        = [{ RuleID := str "subshell-command"
             Severity := Warn
             Token := str "$(echo $(whoami)"
             Issue := str "command substitution or subshell: $(echo $(whoami)"
             Position := 0
             Suggestion := str "ensure substituted command is trusted" }]
      ∧ (∀ loc ∈ regexp.FindAllStringIndex subshellDollarRe cmd,
          (∃ f ∈ SubshellRule.Check cmd cfg,
            f.Token = slice cmd loc.1 loc.2 ∧ f.Position = loc.1)
          ∧ (slice cmd loc.1 loc.2).count 0x29 = 1
          ∧ (slice cmd loc.1 loc.2).getLast? = some 0x29)
      ∧ (∀ f ∈ SubshellRule.Check cmd cfg, f.Token.head? = some 0x24 →
          f.Token.count 0x29 = 1 ∧ f.Token.getLast? = some 0x29) := by
  refine ⟨?_, ?_, ?_, ?_⟩
  · rw [subshellCheck_cfg, h]
    decide
  · rw [subshellCheck_cfg, h]
    decide
  · intro loc hloc
    have := subshellDollar_token cmd loc hloc
    exact ⟨subshellCheck_dollar cmd cfg h loc hloc, this.1, this.2.1⟩
  · intro f hf hd
    obtain ⟨loc, hloc, he⟩ := subshellCheck_dollar_token cmd cfg f hf hd
    have := subshellDollar_token cmd loc hloc
    rw [he]
    exact ⟨this.1, this.2.1⟩

set_option maxRecDepth 100000 in
theorem SubshellRule_dollar_tokens_witness :
    disabled (some (fun _ => true)) (str "subshell_command") = false
      ∧ (SubshellRule.Check (str "a $(b) $(c $(d))") (some (fun _ => true))).map
          (fun f => (f.Position, f.Token)) = [(2, str "$(b)"), (7, str "$(c $(d)")]
      ∧ ∀ f ∈ SubshellRule.Check (str "a $(b) $(c $(d))") (some (fun _ => true)),
          f.Token.head? = some 0x24 → f.Token.count 0x29 = 1 ∧ f.Token.getLast? = some 0x29 :=
  ⟨by decide, by decide,
    (SubshellRule_dollar_tokens (str "a $(b) $(c $(d))") (some (fun _ => true))
      (by decide)).2.2.2⟩

/-! ## Examples of the specification -/

/-- A policy under which none of the nine rules is disabled gives the run of
the nil policy. -/
theorem Run_of_all_enabled (U : UnicodeTables) (cmd : GoString) (cfg : RuleConfig)
    (h : ∀ key ∈ [str "unicode_homoglyph", str "zero_width", str "bidi_controls",
      str "ansi_escape", str "pipe_to_shell", str "dotfile_write", str "persistence_patterns",
      str "shortener_domains", str "subshell_command"], disabled cfg key = false) :
    Run U cmd cfg = Run U cmd none := by
  rw [Run_eq U cmd cfg, Run_eq U cmd none]
  rw [homoglyphCheck_cfg U cmd cfg, zeroWidthCheck_cfg cmd cfg, bidiCheck_cfg cmd cfg,
    ansiCheck_cfg cmd cfg, pipeToShellCheck_cfg cmd cfg, dotfileCheck_cfg U cmd cfg,
    persistenceCheck_cfg cmd cfg, shortenerCheck_cfg U cmd cfg, subshellCheck_cfg cmd cfg]
  simp only [List.mem_cons, List.mem_singleton, List.not_mem_nil, or_false, forall_eq_or_imp,
    forall_eq] at h
  obtain ⟨h1, h2, h3, h4, h5, h6, h7, h8, h9⟩ := h
  simp only [h1, h2, h3, h4, h5, h6, h7, h8, h9, Bool.false_eq_true, if_false]

/-- A command without findings under the nil policy has none under any
policy. -/
theorem Run_empty_of_nil (U : UnicodeTables) (cmd : GoString) (cfg : RuleConfig)
    (h : Run U cmd none = some ⟨Pass, []⟩) : Run U cmd cfg = some ⟨Pass, []⟩ := by
  rw [Run_eq] at h
  cases hd : DotfileWriteRule.Check U cmd none with
  | none => simp [hd] at h
  | some d =>
    simp only [hd, Option.map_some', Option.some.injEq, Result.mk.injEq, List.append_eq_nil] at h
    obtain ⟨-, ⟨⟨⟨⟨⟨⟨⟨h1, h2⟩, h3⟩, h4⟩, h5⟩, h6⟩, h7⟩, h8⟩, h9⟩ := h
    subst h6
    rw [Run_eq, homoglyphCheck_cfg U cmd cfg, zeroWidthCheck_cfg cmd cfg, bidiCheck_cfg cmd cfg,
      ansiCheck_cfg cmd cfg, pipeToShellCheck_cfg cmd cfg, dotfileCheck_cfg U cmd cfg,
      persistenceCheck_cfg cmd cfg, shortenerCheck_cfg U cmd cfg, subshellCheck_cfg cmd cfg]
    simp only [h1, h2, h3, h4, h5, h7, h8, h9, hd, ite_self, Option.map_some', List.append_nil]
    rfl

set_option maxRecDepth 100000 in
/-- C15. With all rules enabled, `Run` on
`curl -sSL https://example.com/install.sh | bash` returns a result that has a
`pipe-to-shell` finding of severity `Warn`, severity `Warn` and exit code 10. -/
theorem Run_curl_pipe_bash (U : UnicodeTables) (cfg : RuleConfig)
    (h : ∀ key ∈ [str "unicode_homoglyph", str "zero_width", str "bidi_controls",
      str "ansi_escape", str "pipe_to_shell", str "dotfile_write", str "persistence_patterns",
      str "shortener_domains", str "subshell_command"], disabled cfg key = false) :
    ∃ r, Run U (str "curl -sSL https://example.com/install.sh | bash") cfg = some r
      ∧ (∃ f ∈ r.Findings, f.RuleID = str "pipe-to-shell" ∧ f.Severity = Warn)
      ∧ r.Severity = Warn ∧ r.ExitCode = 10 := by
  rw [Run_of_all_enabled U _ cfg h]
  have hr : Run U (str "curl -sSL https://example.com/install.sh | bash") none
      = some ⟨Warn, PipeToShellRule.Check
          (str "curl -sSL https://example.com/install.sh | bash") none⟩ := by
    rfl
  exact ⟨_, hr, by decide, rfl, by decide⟩

theorem Run_curl_pipe_bash_witness :
    (∀ key ∈ [str "unicode_homoglyph", str "zero_width", str "bidi_controls",
      str "ansi_escape", str "pipe_to_shell", str "dotfile_write", str "persistence_patterns",
      str "shortener_domains", str "subshell_command"],
        disabled (some (fun _ => true)) key = false)
      ∧ ∃ r, Run sampleTables (str "curl -sSL https://example.com/install.sh | bash")
            (some (fun _ => true)) = some r
          ∧ (∃ f ∈ r.Findings, f.RuleID = str "pipe-to-shell" ∧ f.Severity = Warn)
          ∧ r.Severity = Warn ∧ r.ExitCode = 10 :=
  ⟨fun _ _ => rfl, Run_curl_pipe_bash sampleTables (some (fun _ => true)) (fun _ _ => rfl)⟩

set_option maxRecDepth 100000 in
/-- C16. With all rules enabled, `Run` on `curl https://bit.ly/xyz | sh`
returns two findings: first the `pipe-to-shell` one, then the
`shortener-domains` one, with token `https://bit.ly/xyz` and an issue that
names `bit.ly`. -/
theorem Run_curl_shortener (U : UnicodeTables) (cfg : RuleConfig)
    (h : ∀ key ∈ [str "unicode_homoglyph", str "zero_width", str "bidi_controls",
      str "ansi_escape", str "pipe_to_shell", str "dotfile_write", str "persistence_patterns",
      str "shortener_domains", str "subshell_command"], disabled cfg key = false) :
    ∃ r, Run U (str "curl https://bit.ly/xyz | sh") cfg = some r
      ∧ r.Findings.map (fun f => (f.RuleID, f.Token, f.Issue))
        = [(str "pipe-to-shell", str "curl https://bit.ly/xyz | sh",
              str "pattern: curl https://bit.ly/xyz | sh"),
           (str "shortener-domains", str "https://bit.ly/xyz",
              str "URL shortener or redirect domain: bit.ly")] := by
  rw [Run_of_all_enabled U _ cfg h]
  have hr : Run U (str "curl https://bit.ly/xyz | sh") none
      = some ⟨Warn, PipeToShellRule.Check (str "curl https://bit.ly/xyz | sh") none
          ++ ShortenerRule.Check U (str "curl https://bit.ly/xyz | sh") none⟩ := by
    rfl
  refine ⟨_, hr, ?_⟩
  rfl

theorem Run_curl_shortener_witness :
    (∀ key ∈ [str "unicode_homoglyph", str "zero_width", str "bidi_controls",
      str "ansi_escape", str "pipe_to_shell", str "dotfile_write", str "persistence_patterns",
      str "shortener_domains", str "subshell_command"], disabled none key = false)
      ∧ ∃ r, Run sampleTables (str "curl https://bit.ly/xyz | sh") none = some r
          ∧ r.Findings.map (fun f => (f.RuleID, f.Token, f.Issue))
            = [(str "pipe-to-shell", str "curl https://bit.ly/xyz | sh",
                  str "pattern: curl https://bit.ly/xyz | sh"),
               (str "shortener-domains", str "https://bit.ly/xyz",
                  str "URL shortener or redirect domain: bit.ly")] :=
  ⟨fun _ _ => rfl, Run_curl_shortener sampleTables none (fun _ _ => rfl)⟩

set_option maxRecDepth 100000 in
/-- C17. For `ls -la /tmp` and for the empty command, under every policy,
`Run` returns a result without findings, of severity `Pass` and exit code 0. -/
theorem Run_benign (U : UnicodeTables) (cfg : RuleConfig) :
    Run U (str "ls -la /tmp") cfg = some ⟨Pass, []⟩
      ∧ Run U [] cfg = some ⟨Pass, []⟩
      ∧ Result.ExitCode ⟨Pass, []⟩ = 0 :=
  ⟨Run_empty_of_nil U _ cfg (by rfl), Run_empty_of_nil U _ cfg (by rfl), by rfl⟩

/-! ## Divergences and defaults -/

/-- Without folding, `SafeRewrite` returns unchanged a valid UTF-8 string
whose code points are neither ESC, nor zero-width or bidi controls, nor
U+FFFD. -/
theorem SafeRewrite_unchanged (rs : List Nat) (h : ∀ r ∈ rs, Kept r) :
    SafeRewrite (rs.flatMap utf8.EncodeRune) false = rs.flatMap utf8.EncodeRune := by
  have := rewriteLoop_encoded rs h [] (rs.flatMap utf8.EncodeRune).length (le_refl _) []
  simpa [SafeRewrite] using this

/-- C11, at an input where it fails.  The string `a` U+FFFD `b` is valid
UTF-8 and its code points are `a`, U+FFFD and `b`: no ESC and no zero-width or
bidi control.  `SafeRewrite` without folding returns `ab`: the well-formed
U+FFFD is dropped with the malformed bytes. -/
theorem SafeRewrite_drops_replacement_character :
    utf8.ValidString (str "a\uFFFDb")
      ∧ (rangeString (str "a\uFFFDb")).map Prod.snd = [0x61, 0xFFFD, 0x62]
      ∧ SafeRewrite (str "a\uFFFDb") false = str "ab"
      ∧ SafeRewrite (str "a\uFFFDb") false ≠ str "a\uFFFDb" := by
  refine ⟨⟨[0x61, 0xFFFD, 0x62], ?_, by decide⟩, by decide, by decide, by decide⟩
  intro r hr
  simp only [List.mem_cons, List.mem_singleton, List.not_mem_nil, or_false] at hr
  unfold utf8.ValidRune
  omega

/-- C12, at inputs where it fails.  `StripANSI` of ESC `[31mred` is `31mred`
and not `red`, and of `a` ESC `[0mb` it is `a0mb` and not `ab`: the skipped span
ends with the `[`, which is itself a byte in `[0x40, 0x7E]`. -/
theorem StripANSI_stops_after_bracket :
    StripANSI (str "\x1b[31mred") = str "31mred"
      ∧ StripANSI (str "\x1b[31mred") ≠ str "red"
      ∧ StripANSI (str "a\x1b[0mb") = str "a0mb"
      ∧ escEnd (str "\x1b[31mred") 0 (str "\x1b[31mred").length 1 = 2 := by
  decide

/-- C14, at an input where it fails.  In the valid UTF-8 command U+212A
`cat>` the fragment `>` is at offset 6.  For every case table that lowers
U+212A (three bytes) to `k` (one byte), the dotfile rule reports it at
Position 4, its offset in the lower-case copy; the byte of the command at offset 4
is `a`. -/
theorem DotfileWriteRule_position_in_lowercase (U : UnicodeTables)
    (h : U.toLower 0x212A = 0x6B) :
    utf8.ValidString (str "\u212Acat>")
      ∧ DotfileWriteRule.Check U (str "\u212Acat>") none
        = some [{
            RuleID := str "dotfile-write"
            Severity := Warn
            Token := str "\u212Acat>"
            Issue := str "writes to: >"
            Position := 4
            Suggestion := str "review before writing to dotfiles or .ssh" }]
      ∧ slice (str "\u212Acat>") 4 (4 + (str ">").length) = str "a"
      ∧ strings.ToLower U (str "a") = str "a"
      ∧ strings.Index (str "\u212Acat>") (str ">") = some 6 := by
  have hU := tables_eq_of_toLower U (fun r => if r = 0x212A then 0x6B else U.toLower r)
    (by intro r; by_cases hr : r = 0x212A <;> simp [hr, h])
  have hl : strings.ToLower U (str "\u212Acat>") = str "kcat>" := by
    rw [hU]; rfl
  refine ⟨⟨[0x212A, 0x63, 0x61, 0x74, 0x3E], ?_, by decide⟩, ?_, by decide, by rfl, by decide⟩
  · intro r hr
    simp only [List.mem_cons, List.mem_singleton, List.not_mem_nil, or_false] at hr
    unfold utf8.ValidRune
    omega
  · unfold DotfileWriteRule.Check
    rw [hl]
    decide

theorem DotfileWriteRule_position_in_lowercase_witness :
    sampleTables.toLower 0x212A = 0x6B
      ∧ (utf8.ValidString (str "\u212Acat>")
        ∧ DotfileWriteRule.Check sampleTables (str "\u212Acat>") none
          = some [{
              RuleID := str "dotfile-write"
              Severity := Warn
              Token := str "\u212Acat>"
              Issue := str "writes to: >"
              Position := 4
              Suggestion := str "review before writing to dotfiles or .ssh" }]
        ∧ slice (str "\u212Acat>") 4 (4 + (str ">").length) = str "a"
        ∧ strings.ToLower sampleTables (str "a") = str "a"
        ∧ strings.Index (str "\u212Acat>") (str ">") = some 6) :=
  ⟨by decide, DotfileWriteRule_position_in_lowercase sampleTables (by decide)⟩

/-- C19. `Config.RuleEnabled` is false exactly when the map `Rules` is not
nil, has the name, and maps it to false; with a nil map or without the name
it is true. -/
theorem RuleEnabled_default (c : config.Config) (n : GoString) :
    (c.RuleEnabled n = false ↔ ∃ m, c.Rules = some m ∧ m.lookup n = some false)
      ∧ (c.Rules = none → c.RuleEnabled n = true)
      ∧ (∀ m, c.Rules = some m → m.lookup n = none → c.RuleEnabled n = true) := by
  unfold config.Config.RuleEnabled
  cases hr : c.Rules with
  | none => simp
  | some m =>
    simp only [Option.some.injEq, exists_eq_left', reduceCtorEq, false_implies, forall_eq',
      true_and]
    cases hl : m.lookup n with
    | none => simp
    | some v => cases v <;> simp

/-- C20. In a result of `Run` every finding of the zero-width or the bidi
rule has severity `Block` and every other finding is a `Warn` finding of one
of the seven other rules; the result is `Block` exactly when it has a
zero-width or bidi finding. -/
theorem Run_severity_by_rule (U : UnicodeTables) (cmd : GoString) (cfg : RuleConfig)
    (r : Result) (h : Run U cmd cfg = some r) :
    (∀ f ∈ r.Findings, f.RuleID = str "zero-width" ∨ f.RuleID = str "bidi-controls" →
        f.Severity = Block)
      ∧ (∀ f ∈ r.Findings, ¬(f.RuleID = str "zero-width" ∨ f.RuleID = str "bidi-controls") →
          f.Severity = Warn
            ∧ f.RuleID ∈ [str "unicode-homoglyph", str "ansi-escape", str "pipe-to-shell",
              str "dotfile-write", str "persistence-patterns", str "shortener-domains",
              str "subshell-command"])
      ∧ (r.Severity = Block ↔
          ∃ f ∈ r.Findings, f.RuleID = str "zero-width" ∨ f.RuleID = str "bidi-controls") := by
  have key : ∀ f ∈ r.Findings,
      ((f.RuleID = str "zero-width" ∨ f.RuleID = str "bidi-controls") ∧ f.Severity = Block)
      ∨ (¬(f.RuleID = str "zero-width" ∨ f.RuleID = str "bidi-controls") ∧ f.Severity = Warn
          ∧ f.RuleID ∈ [str "unicode-homoglyph", str "ansi-escape", str "pipe-to-shell",
              str "dotfile-write", str "persistence-patterns", str "shortener-domains",
              str "subshell-command"]) := by
    intro f hf
    rcases Run_finding_severity h hf with ⟨hid, hs⟩ | ⟨hid, hs⟩
    · exact Or.inl ⟨hid, hs⟩
    · right
      rcases hid with e | e | e | e | e | e | e <;> rw [e] <;> exact ⟨by decide, hs, by decide⟩
  refine ⟨?_, ?_, ?_⟩
  · intro f hf hid
    rcases key f hf with ⟨-, hs⟩ | ⟨hn, -⟩
    · exact hs
    · exact absurd hid hn
  · intro f hf hn
    rcases key f hf with ⟨hid, -⟩ | ⟨-, hs⟩
    · exact absurd hid hn
    · exact hs
  · constructor
    · intro hb
      rw [Run_severity_eq_worst h] at hb
      rcases worstFold_attained r.Findings Pass with h0 | ⟨f, hf, h1⟩
      · unfold Result.WorstSeverity at hb
        rw [h0] at hb
        exact absurd hb (by decide)
      · refine ⟨f, hf, ?_⟩
        rcases key f hf with ⟨hid, -⟩ | ⟨-, hs, -⟩
        · exact hid
        · unfold Result.WorstSeverity at hb
          rw [← h1, hs] at hb
          exact absurd hb (by decide)
    · rintro ⟨f, hf, hid⟩
      rcases key f hf with ⟨-, hs⟩ | ⟨hn, -⟩
      · exact Run_block_of_mem h hf hs
      · exact absurd hid hn

set_option maxRecDepth 100000 in
theorem Run_severity_by_rule_witness :
    Run sampleTables (str "$(x) \u200B") none
        = some ⟨Block, ZeroWidthRule.Check (str "$(x) \u200B") none
            ++ SubshellRule.Check (str "$(x) \u200B") none⟩
      ∧ ((∀ f ∈ ZeroWidthRule.Check (str "$(x) \u200B") none
              ++ SubshellRule.Check (str "$(x) \u200B") none,
            f.RuleID = str "zero-width" ∨ f.RuleID = str "bidi-controls" → f.Severity = Block)
        ∧ (∀ f ∈ ZeroWidthRule.Check (str "$(x) \u200B") none
              ++ SubshellRule.Check (str "$(x) \u200B") none,
            ¬(f.RuleID = str "zero-width" ∨ f.RuleID = str "bidi-controls") →
              f.Severity = Warn
                ∧ f.RuleID ∈ [str "unicode-homoglyph", str "ansi-escape", str "pipe-to-shell",
                  str "dotfile-write", str "persistence-patterns", str "shortener-domains",
                  str "subshell-command"])
        ∧ (Block = Block ↔
            ∃ f ∈ ZeroWidthRule.Check (str "$(x) \u200B") none
              ++ SubshellRule.Check (str "$(x) \u200B") none,
              f.RuleID = str "zero-width" ∨ f.RuleID = str "bidi-controls")) :=
  ⟨by decide, Run_severity_by_rule sampleTables (str "$(x) \u200B") none
    ⟨Block, ZeroWidthRule.Check (str "$(x) \u200B") none
      ++ SubshellRule.Check (str "$(x) \u200B") none⟩ (by decide)⟩

/-! ## The homoglyph rule -/

/-- The loop `range` over the encoding of valid runes visits those runes,
each at the offset where its encoding starts. -/
theorem rangeFrom_runeOffsets (rs : List Nat) (hv : ∀ r ∈ rs, utf8.ValidRune r) (pre : GoString)
    (n : Nat) (hn : (rs.flatMap utf8.EncodeRune).length ≤ n) :
    rangeFrom (pre ++ rs.flatMap utf8.EncodeRune) n pre.length = runeOffsets pre.length rs := by
  induction rs generalizing pre n with
  | nil =>
    cases n with
    | zero => simp [rangeFrom, runeOffsets]
    | succ n => simp [rangeFrom, runeOffsets]
  | cons r rs ih =>
    have hlen := utf8.encode_length_pos r
    cases n with
    | zero => simp only [List.flatMap_cons, List.length_append] at hn; omega
    | succ n =>
      unfold rangeFrom runeOffsets
      have hd : (pre ++ (r :: rs).flatMap utf8.EncodeRune).drop pre.length
          = utf8.EncodeRune r ++ rs.flatMap utf8.EncodeRune := by
        simp
      rw [if_pos (by simp; omega)]
      simp only [hd, utf8.decode_encode r _ (hv r (List.mem_cons_self _ _))]
      have := ih (fun q hq => hv q (List.mem_cons_of_mem _ hq)) (pre ++ utf8.EncodeRune r) n
        (by simp at hn ⊢; omega)
      simp only [List.length_append, List.append_assoc] at this
      simp only [List.flatMap_cons, this]

theorem rangeString_runeOffsets (rs : List Nat) (hv : ∀ r ∈ rs, utf8.ValidRune r) :
    rangeString (rs.flatMap utf8.EncodeRune) = runeOffsets 0 rs := by
  have := rangeFrom_runeOffsets rs hv [] (rs.flatMap utf8.EncodeRune).length (le_refl _)
  simpa [rangeString] using this

/-- The offsets of `runeOffsets` are the lengths of the encodings before. -/
theorem runeOffsets_mem (rs : List Nat) (i : Nat) (p : Nat × Nat) (h : p ∈ runeOffsets i rs) :
    ∃ a b, rs = a ++ p.2 :: b ∧ p.1 = i + (a.flatMap utf8.EncodeRune).length := by
  induction rs generalizing i with
  | nil => simp [runeOffsets] at h
  | cons r rs ih =>
    simp only [runeOffsets, List.mem_cons] at h
    rcases h with rfl | h
    · exact ⟨[], rs, rfl, by simp⟩
    · obtain ⟨a, b, h1, h2⟩ := ih _ h
      refine ⟨r :: a, b, by simp [h1], ?_⟩
      simp only [List.flatMap_cons, List.length_append]
      omega

theorem runeOffsets_map_snd (rs : List Nat) (i : Nat) : (runeOffsets i rs).map Prod.snd = rs := by
  induction rs generalizing i with
  | nil => rfl
  | cons r rs ih => simp [runeOffsets, ih]

theorem isHomoglyphOrMixed_iff (r : Nat) :
    (decide (0x7F < r) && isHomoglyphOrMixed r) = true
      ↔ (0x0400 ≤ r ∧ r ≤ 0x04FF) ∨ (0x0370 ≤ r ∧ r ≤ 0x03FF) ∨ (0x0530 ≤ r ∧ r ≤ 0x058F) := by
  unfold isHomoglyphOrMixed
  simp only [Bool.and_eq_true, decide_eq_true_eq]
  split_ifs <;> simp <;> omega

/-- C21. For every valid UTF-8 command (the encoding of valid code points
`rs`), with the unicode_homoglyph rule enabled, `UnicodeHomoglyphRule.Check`
returns one finding for each code point that lies in U+0400..U+04FF,
U+0370..U+03FF or U+0530..U+058F and none for any other, in order of
occurrence, each with Severity Warn and with Position the byte offset at
which the encoding of that code point starts in the command. -/
theorem homoglyphCheck_per_code_point (U : UnicodeTables) (rs : List Nat) (cfg : RuleConfig)
    (hv : ∀ r ∈ rs, utf8.ValidRune r)
    (he : disabled cfg (str "unicode_homoglyph") = false) :
    UnicodeHomoglyphRule.Check U (rs.flatMap utf8.EncodeRune) cfg
        = ((runeOffsets 0 rs).filter (fun p =>
            (decide (0x0400 ≤ p.2) && decide (p.2 ≤ 0x04FF))
              || (decide (0x0370 ≤ p.2) && decide (p.2 ≤ 0x03FF))
              || (decide (0x0530 ≤ p.2) && decide (p.2 ≤ 0x058F)))).map (fun p =>
            { RuleID := str "unicode-homoglyph"
              Severity := Warn
              Token := tokenAt (rs.flatMap utf8.EncodeRune) p.1
              Issue := describeRune U p.2
              Position := p.1
              Suggestion := str "use ASCII-only domain" })
      ∧ (∀ f ∈ UnicodeHomoglyphRule.Check U (rs.flatMap utf8.EncodeRune) cfg,
          f.Severity = Warn
            ∧ ∃ a r b, rs = a ++ r :: b
              ∧ ((0x0400 ≤ r ∧ r ≤ 0x04FF) ∨ (0x0370 ≤ r ∧ r ≤ 0x03FF) ∨ (0x0530 ≤ r ∧ r ≤ 0x058F))
              ∧ f.Position = (a.flatMap utf8.EncodeRune).length
              ∧ slice (rs.flatMap utf8.EncodeRune) f.Position
                  (f.Position + (utf8.EncodeRune r).length) = utf8.EncodeRune r) := by
  have hc : UnicodeHomoglyphRule.Check U (rs.flatMap utf8.EncodeRune) cfg
        = ((runeOffsets 0 rs).filter (fun p =>
            (decide (0x0400 ≤ p.2) && decide (p.2 ≤ 0x04FF))
              || (decide (0x0370 ≤ p.2) && decide (p.2 ≤ 0x03FF))
              || (decide (0x0530 ≤ p.2) && decide (p.2 ≤ 0x058F)))).map (fun p =>
            { RuleID := str "unicode-homoglyph"
              Severity := Warn
              Token := tokenAt (rs.flatMap utf8.EncodeRune) p.1
              Issue := describeRune U p.2
              Position := p.1
              Suggestion := str "use ASCII-only domain" }) := by
    unfold UnicodeHomoglyphRule.Check
    rw [he, rangeString_runeOffsets rs hv]
    simp only [Bool.false_eq_true, if_false]
    generalize runeOffsets 0 rs = l
    induction l with
    | nil => rfl
    | cons p l ih =>
      have hp := isHomoglyphOrMixed_iff p.2
      by_cases hr : (0x0400 ≤ p.2 ∧ p.2 ≤ 0x04FF) ∨ (0x0370 ≤ p.2 ∧ p.2 ≤ 0x03FF)
          ∨ (0x0530 ≤ p.2 ∧ p.2 ≤ 0x058F)
      · have h1 : 0x7F < p.2 ∧ isHomoglyphOrMixed p.2 = true := by
          have := hp.2 hr
          simpa using this
        have h2 : ((decide (0x0400 ≤ p.2) && decide (p.2 ≤ 0x04FF))
              || (decide (0x0370 ≤ p.2) && decide (p.2 ≤ 0x03FF))
              || (decide (0x0530 ≤ p.2) && decide (p.2 ≤ 0x058F))) = true := by
          simp only [Bool.or_eq_true, Bool.and_eq_true, decide_eq_true_eq]
          omega
        rw [List.filterMap_cons, if_pos h1, List.filter_cons, if_pos h2, List.map_cons, ih]
        rfl
      · have h1 : ¬ (0x7F < p.2 ∧ isHomoglyphOrMixed p.2 = true) := by
          intro h
          exact hr (hp.1 (by simpa using h))
        have h2 : ¬ (((decide (0x0400 ≤ p.2) && decide (p.2 ≤ 0x04FF))
              || (decide (0x0370 ≤ p.2) && decide (p.2 ≤ 0x03FF))
              || (decide (0x0530 ≤ p.2) && decide (p.2 ≤ 0x058F))) = true) := by
          simp only [Bool.or_eq_true, Bool.and_eq_true, decide_eq_true_eq]
          omega
        rw [List.filterMap_cons, if_neg h1, List.filter_cons, if_neg h2, ih]
  refine ⟨hc, ?_⟩
  intro f hf
  rw [hc] at hf
  obtain ⟨p, hp, rfl⟩ := List.mem_map.1 hf
  obtain ⟨hp1, hp2⟩ := List.mem_filter.1 hp
  obtain ⟨a, b, hab, hpos⟩ := runeOffsets_mem rs 0 p hp1
  have hr : (0x0400 ≤ p.2 ∧ p.2 ≤ 0x04FF) ∨ (0x0370 ≤ p.2 ∧ p.2 ≤ 0x03FF)
      ∨ (0x0530 ≤ p.2 ∧ p.2 ≤ 0x058F) := by
    simp only [Bool.or_eq_true, Bool.and_eq_true, decide_eq_true_eq] at hp2
    omega
  refine ⟨rfl, a, p.2, b, hab, hr, by simpa using hpos, ?_⟩
  have hrs := rangeString_runeOffsets rs hv
  have := rangeString_atPosition (rs.flatMap utf8.EncodeRune) p (by rw [hrs]; exact hp1)
    (by unfold utf8.RuneError; omega)
  exact this.2

theorem homoglyphCheck_per_code_point_witness :
    (∀ r ∈ [0x61, 0x0430, 0x20, 0x03B1], utf8.ValidRune r)
      ∧ disabled none (str "unicode_homoglyph") = false
      ∧ [0x61, 0x0430, 0x20, 0x03B1].flatMap utf8.EncodeRune = str "a\u0430 \u03B1"
      ∧ UnicodeHomoglyphRule.Check sampleTables
          ([0x61, 0x0430, 0x20, 0x03B1].flatMap utf8.EncodeRune) none
        = ((runeOffsets 0 [0x61, 0x0430, 0x20, 0x03B1]).filter (fun p =>
            (decide (0x0400 ≤ p.2) && decide (p.2 ≤ 0x04FF))
              || (decide (0x0370 ≤ p.2) && decide (p.2 ≤ 0x03FF))
              || (decide (0x0530 ≤ p.2) && decide (p.2 ≤ 0x058F)))).map (fun p =>
            { RuleID := str "unicode-homoglyph"
              Severity := Warn
              Token := tokenAt ([0x61, 0x0430, 0x20, 0x03B1].flatMap utf8.EncodeRune) p.1
              Issue := describeRune sampleTables p.2
              Position := p.1
              Suggestion := str "use ASCII-only domain" })
      ∧ (UnicodeHomoglyphRule.Check sampleTables (str "a\u0430 \u03B1") none).map
          (fun f => (f.Position, f.Severity, f.Issue))
        = [(1, Warn, str "Cyrillic '\u0430' (U+0430) used instead of Latin 'a' (U+0061)"),
           (4, Warn, str "Greek character (U+03B1) may look like Latin")] :=
  ⟨by simp [utf8.ValidRune], by decide, by decide,
    (homoglyphCheck_per_code_point sampleTables [0x61, 0x0430, 0x20, 0x03B1] none
      (by simp [utf8.ValidRune]) (by decide)).1,
    by decide⟩

/-- The rule reports every code point of the look-alike table that it
flags, which are the seven entries in U+0400..U+04FF, with the text of the
table, and the text names the code point in hexadecimal. -/
theorem homoglyphCheck_table_issue (U : UnicodeTables) (cmd : GoString) (cfg : RuleConfig)
    (he : disabled cfg (str "unicode_homoglyph") = false) (p : Nat × Nat)
    (hp : p ∈ rangeString cmd)
    (hr : p.2 ∈ [0x0430, 0x0435, 0x043E, 0x043F, 0x0441, 0x0443, 0x0445]) :
    ∃ f ∈ UnicodeHomoglyphRule.Check U cmd cfg,
      f.Position = p.1 ∧ describeTable.lookup p.2 = some f.Issue
        ∧ (str "' (U+" ++ formatHex p.2 ++ str ") used instead of Latin '") <:+: f.Issue
        ∧ str "Cyrillic '" <+: f.Issue := by
  have key : describeRune U p.2 = (describeTable.lookup p.2).getD [] := by
    simp only [List.mem_cons, List.mem_singleton, List.not_mem_nil, or_false] at hr
    rcases hr with h | h | h | h | h | h | h <;> rw [h] <;> rfl
  have tab : ∀ r ∈ [0x0430, 0x0435, 0x043E, 0x043F, 0x0441, 0x0443, 0x0445],
      (0x7F < r ∧ isHomoglyphOrMixed r = true)
        ∧ describeTable.lookup r = some ((describeTable.lookup r).getD [])
        ∧ (str "' (U+" ++ formatHex r ++ str ") used instead of Latin '")
            <:+: (describeTable.lookup r).getD []
        ∧ str "Cyrillic '" <+: (describeTable.lookup r).getD [] := by
    decide
  obtain ⟨hflag, h1, h2, h3⟩ := tab p.2 hr
  unfold UnicodeHomoglyphRule.Check
  rw [he]
  simp only [Bool.false_eq_true, if_false, List.mem_filterMap]
  refine ⟨_, ⟨p, hp, by rw [if_pos hflag]⟩, rfl, ?_⟩
  simp only [key]
  exact ⟨h1, h2, h3⟩

/-- C22, at an input where it fails.  The command U+0501 is valid UTF-8 and
its one code point has an entry in the look-alike table, yet under every
policy the rule returns no finding: U+0501 is outside the three flagged
ranges, so its entry is never reached. -/
theorem homoglyphCheck_misses_U0501 (U : UnicodeTables) (cfg : RuleConfig) :
    utf8.ValidString (str "\u0501")
      ∧ rangeString (str "\u0501") = [(0, 0x0501)]
      ∧ describeTable.lookup 0x0501
          = some (str "Cyrillic '\u0501' (U+0501) used instead of Latin 'd' (U+0064)")
      ∧ isHomoglyphOrMixed 0x0501 = false
      ∧ UnicodeHomoglyphRule.Check U (str "\u0501") cfg = [] := by
  refine ⟨⟨[0x0501], by simp [utf8.ValidRune], by decide⟩, by decide, by decide, by decide, ?_⟩
  rw [homoglyphCheck_cfg]
  split
  · rfl
  · rfl

set_option maxRecDepth 100000 in
/-- C23, at an input where it fails.  For
`curl https://inst` U+0430 `ll.example | bash` under the nil policy the
rule returns one finding, at offset 17 (the Cyrillic letter), and its token
is ` https://inst` U+0430 `ll.example` with the space before the URL: the
backward walk stops on the boundary character and the token starts there. -/
theorem homoglyphCheck_token_has_delimiter (U : UnicodeTables) :
    UnicodeHomoglyphRule.Check U (str "curl https://inst\u0430ll.example | bash") none
        = [{ RuleID := str "unicode-homoglyph"
             Severity := Warn
             Token := str " https://inst\u0430ll.example"
             Issue := str "Cyrillic '\u0430' (U+0430) used instead of Latin 'a' (U+0061)"
             Position := 17
             Suggestion := str "use ASCII-only domain" }]
      ∧ 0x20 ∈ str " https://inst\u0430ll.example"
      ∧ str " https://inst\u0430ll.example" ≠ str "https://inst\u0430ll.example"
      ∧ tokenAtStart (str "curl https://inst\u0430ll.example | bash")
          (str "curl https://inst\u0430ll.example | bash").length 17 = 4
      ∧ (str "curl https://inst\u0430ll.example | bash").getD 4 0 = 0x20 := by
  refine ⟨by rfl, by decide, by decide, by decide, by decide⟩

set_option maxRecDepth 100000 in
/-- C27, at an input where it fails.  For `$(curl https://bit.ly/x)` under
the nil policy the token of the shortener rule is `https://bit.ly/x)`, with
the closing parenthesis, while `ExtractURLs` returns `https://bit.ly/x`: the
pattern of the rule does not stop at `)` or `]`, the pattern of the helper
does. -/
theorem shortenerCheck_token_has_paren (U : UnicodeTables) :
    ShortenerRule.Check U (str "$(curl https://bit.ly/x)") none
        = [{ RuleID := str "shortener-domains"
             Severity := Warn
             Token := str "https://bit.ly/x)"
             Issue := str "URL shortener or redirect domain: bit.ly"
             Position := 7
             Suggestion := str "use full URL or trusted source" }]
      ∧ urls.ExtractURLs (str "$(curl https://bit.ly/x)") = [str "https://bit.ly/x"]
      ∧ 0x29 ∈ str "https://bit.ly/x)"
      ∧ ShortenerRule.Check U (str "see https://bit.ly/x].") none
        = [{ RuleID := str "shortener-domains"
             Severity := Warn
             Token := str "https://bit.ly/x]."
             Issue := str "URL shortener or redirect domain: bit.ly"
             Position := 4
             Suggestion := str "use full URL or trusted source" }]
      ∧ urls.ExtractURLs (str "see https://bit.ly/x].") = [str "https://bit.ly/x"] := by
  refine ⟨by rfl, by decide, by decide, by rfl, by decide⟩

/-! ## Escape spans -/

theorem rules.isTerminator_iff (c : Nat) :
    isTerminator c = true ↔ (0x40 ≤ c ∧ c ≤ 0x7E) ∨ c = 0x07 ∨ c = 0x0A := by
  unfold isTerminator
  simp only [Bool.or_eq_true, Bool.and_eq_true, decide_eq_true_eq, beq_iff_eq]
  omega

theorem rules.isTerminator_false_iff (c : Nat) :
    isTerminator c = false ↔ ¬ ((0x40 ≤ c ∧ c ≤ 0x7E) ∨ c = 0x07 ∨ c = 0x0A) := by
  rw [← rules.isTerminator_iff]
  simp

/-- The scan of an escape sequence that starts at `i` and has reached `e`
without meeting a terminator: where it ends. -/
theorem ANSIEscapeRule.spanEnd_spec (cmd : GoString) (i n e : Nat) (hie : i < e)
    (hcap : e ≤ i + 64) (hn : cmd.length ≤ e + n) (he : e ≤ cmd.length)
    (hinv : ∀ j, i < j → j < e → isTerminator (cmd.getD j 0) = false) :
    e ≤ ANSIEscapeRule.spanEnd cmd i n e
      ∧ ANSIEscapeRule.spanEnd cmd i n e ≤ cmd.length
      ∧ ANSIEscapeRule.spanEnd cmd i n e ≤ i + 65
      ∧ (∀ j, i < j → j + 1 < ANSIEscapeRule.spanEnd cmd i n e →
          isTerminator (cmd.getD j 0) = false)
      ∧ (isTerminator (cmd.getD (ANSIEscapeRule.spanEnd cmd i n e - 1) 0) = true
          ∨ ANSIEscapeRule.spanEnd cmd i n e = i + 65
          ∨ ANSIEscapeRule.spanEnd cmd i n e = cmd.length) := by
  induction n generalizing e with
  | zero =>
    have : e = cmd.length := by omega
    simp only [ANSIEscapeRule.spanEnd]
    exact ⟨le_refl _, he, by omega, fun j h1 h2 => hinv j h1 (by omega), Or.inr (Or.inr this)⟩
  | succ n ih =>
    unfold ANSIEscapeRule.spanEnd
    dsimp only
    by_cases h1 : e < cmd.length
    · rw [if_pos h1]
      by_cases h2 : 0x40 ≤ cmd.getD e 0 ∧ cmd.getD e 0 ≤ 0x7E
      · rw [if_pos h2]
        refine ⟨by omega, by omega, by omega, fun j j1 j2 => hinv j j1 (by omega), Or.inl ?_⟩
        rw [Nat.add_sub_cancel]
        exact (rules.isTerminator_iff _).2 (Or.inl h2)
      · rw [if_neg h2]
        by_cases h3 : cmd.getD e 0 = 0x07 ∨ cmd.getD e 0 = 0x0A
        · rw [if_pos h3]
          refine ⟨by omega, by omega, by omega, fun j j1 j2 => hinv j j1 (by omega), Or.inl ?_⟩
          rw [Nat.add_sub_cancel]
          exact (rules.isTerminator_iff _).2 (Or.inr h3)
        · rw [if_neg h3]
          by_cases h4 : 64 < e + 1 - i
          · rw [if_pos h4]
            exact ⟨by omega, by omega, by omega, fun j j1 j2 => hinv j j1 (by omega),
              Or.inr (Or.inl (by omega))⟩
          · rw [if_neg h4]
            have hnt : isTerminator (cmd.getD e 0) = false :=
              (rules.isTerminator_false_iff _).2 (by tauto)
            have := ih (e + 1) (by omega) (by omega) (by omega) (by omega) (fun j j1 j2 => by
              by_cases hj : j = e
              · rw [hj]; exact hnt
              · exact hinv j j1 (by omega))
            exact ⟨by omega, this.2.1, this.2.2.1, this.2.2.2.1, this.2.2.2.2⟩
    · rw [if_neg h1]
      have : e = cmd.length := by omega
      exact ⟨le_refl _, he, by omega, fun j j1 j2 => hinv j j1 (by omega), Or.inr (Or.inr this)⟩

/-- Every finding of the loop of the rule is the span of an ESC byte. -/
theorem ansiLoop_span (cmd : GoString) (n i : Nat) (out : List Finding) (f : Finding)
    (h : f ∈ ANSIEscapeRule.loop cmd n i out) :
    f ∈ out ∨ (i ≤ f.Position ∧ f.Position < cmd.length ∧ cmd.getD f.Position 0 = 0x1B
      ∧ f.Token = slice cmd f.Position
          (ANSIEscapeRule.spanEnd cmd f.Position cmd.length (f.Position + 1))) := by
  induction n generalizing i out with
  | zero => exact Or.inl h
  | succ n ih =>
    unfold ANSIEscapeRule.loop at h
    split at h
    · rename_i hi
      split at h
      · rename_i hesc
        have hge := ANSIEscapeRule.spanEnd_ge cmd i cmd.length (i + 1)
        rcases ih _ _ h with h1 | h1
        · rcases List.mem_append.1 h1 with h2 | h2
          · exact Or.inl h2
          · simp only [List.mem_singleton] at h2
            subst h2
            exact Or.inr ⟨le_refl _, hi, hesc, rfl⟩
        · exact Or.inr ⟨by omega, h1.2⟩
      · rcases ih _ _ h with h1 | h1
        · exact Or.inl h1
        · exact Or.inr ⟨by omega, h1.2⟩
    · exact Or.inl h

theorem ansiLoop_append (cmd : GoString) (n i : Nat) (out : List Finding) :
    ANSIEscapeRule.loop cmd n i out = out ++ ANSIEscapeRule.loop cmd n i [] := by
  induction n generalizing i out with
  | zero => simp [ANSIEscapeRule.loop]
  | succ n ih =>
    unfold ANSIEscapeRule.loop
    split
    · split
      · rw [ih _ (out ++ _), ih _ ([] ++ _)]
        simp
      · exact ih _ _
    · simp

/-- The loop of the rule reports nothing exactly when no byte from `i` on is
ESC. -/
theorem ansiLoop_eq_nil (cmd : GoString) (n i : Nat) (hn : cmd.length ≤ i + n) :
    ANSIEscapeRule.loop cmd n i [] = []
      ↔ ∀ j, i ≤ j → j < cmd.length → cmd.getD j 0 ≠ 0x1B := by
  induction n generalizing i with
  | zero =>
    simp only [ANSIEscapeRule.loop, true_iff]
    intro j h1 h2
    omega
  | succ n ih =>
    unfold ANSIEscapeRule.loop
    by_cases hi : i < cmd.length
    · rw [if_pos hi]
      by_cases hesc : cmd.getD i 0 = 0x1B
      · rw [if_pos hesc, ansiLoop_append]
        simp only [List.nil_append, List.append_eq_nil, List.cons_ne_nil, false_and, false_iff]
        intro h
        exact h i (le_refl _) hi hesc
      · rw [if_neg hesc, ih (i + 1) (by omega)]
        constructor
        · intro h j h1 h2
          by_cases hj : j = i
          · rw [hj]; exact hesc
          · exact h j (by omega) h2
        · intro h j h1 h2
          exact h j (by omega) h2
    · rw [if_neg hi]
      simp only [true_iff]
      intro j h1 h2
      omega

theorem rules.slice_getD (s : GoString) (a b j : Nat) (hj : a + j < b) :
    (slice s a b).getD j 0 = s.getD (a + j) 0 := by
  simp only [rules.slice, List.getD_eq_getElem?_getD]
  rw [List.getElem?_take, if_pos (by omega), List.getElem?_drop]

/-- C24. For every command, each finding of the ansi-escape rule has a
token that is the bytes of the command from a byte 0x1B on, the ESC and at
most 64 bytes after it; no byte strictly between the ESC and the last byte
of the token is a terminator (a byte in `[0x40, 0x7E]`, BEL or newline);
when a terminator occurs among the 64 bytes after the ESC, the token ends
with the first one, and otherwise it has 65 bytes or runs to the end of the
command, whichever is shorter.  With the rule enabled there is no finding
if and only if the command has no byte 0x1B. -/
theorem ansiCheck_span (cmd : GoString) (cfg : RuleConfig)
    (he : disabled cfg (str "ansi_escape") = false) :
    (∀ f ∈ ANSIEscapeRule.Check cmd cfg,
      f.Position + f.Token.length ≤ cmd.length
        ∧ slice cmd f.Position (f.Position + f.Token.length) = f.Token
        ∧ cmd.getD f.Position 0 = 0x1B ∧ f.Token.head? = some 0x1B
        ∧ 1 ≤ f.Token.length ∧ f.Token.length ≤ 65
        ∧ (∀ j, 0 < j → j + 1 < f.Token.length → isTerminator (f.Token.getD j 0) = false)
        ∧ (∀ j, 0 < j → j ≤ 64 → f.Position + j < cmd.length →
            isTerminator (cmd.getD (f.Position + j) 0) = true →
            (∀ k, 0 < k → k < j → isTerminator (cmd.getD (f.Position + k) 0) = false) →
            f.Token.length = j + 1)
        ∧ ((∀ j, 0 < j → j ≤ 64 → f.Position + j < cmd.length →
              isTerminator (cmd.getD (f.Position + j) 0) = false) →
            f.Token.length = min 65 (cmd.length - f.Position)))
      ∧ (ANSIEscapeRule.Check cmd cfg = [] ↔ 0x1B ∉ cmd) := by
  constructor
  · intro f hf
    have hat := ansiCheck_atPosition hf
    unfold ANSIEscapeRule.Check at hf
    rw [he] at hf
    simp only [Bool.false_eq_true, if_false] at hf
    rcases ansiLoop_span _ _ _ _ _ hf with h | ⟨-, hp, hesc, htok⟩
    · simp at h
    · obtain ⟨s1, s2, s3, s4, s5⟩ := ANSIEscapeRule.spanEnd_spec cmd f.Position cmd.length
        (f.Position + 1) (by omega) (by omega) (by omega) (by omega)
        (fun j j1 j2 => by omega)
      generalize ANSIEscapeRule.spanEnd cmd f.Position cmd.length (f.Position + 1) = e
        at htok s1 s2 s3 s4 s5
      have hlen : f.Token.length = e - f.Position := by
        rw [htok]
        exact slice_length cmd _ _ s2
      have hnt : isTerminator 0x1B = false := by decide
      refine ⟨hat.1, hat.2, hesc, ?_, by omega, by omega, ?_, ?_, ?_⟩
      · rw [htok, slice_head cmd _ _ (by omega) s2, hesc]
      · intro j j1 j2
        rw [htok, slice_getD cmd _ _ _ (by omega)]
        exact s4 _ (by omega) (by omega)
      · intro j j1 j2 j3 j4 j5
        have hle : e ≤ f.Position + j + 1 := by
          by_contra hc
          have := s4 (f.Position + j) (by omega) (by omega)
          rw [this] at j4
          cases j4
        rcases s5 with h | h | h
        · by_cases hk : e - 1 = f.Position
          · rw [hk, hesc, hnt] at h
            cases h
          · by_cases hj : e - 1 = f.Position + j
            · omega
            · have := j5 (e - 1 - f.Position) (by omega) (by omega)
              rw [show f.Position + (e - 1 - f.Position) = e - 1 by omega, h] at this
              cases this
        · omega
        · omega
      · intro hno
        rcases s5 with h | h | h
        · by_cases hk : e - 1 = f.Position
          · rw [hk, hesc, hnt] at h
            cases h
          · have := hno (e - 1 - f.Position) (by omega) (by omega) (by omega)
            rw [show f.Position + (e - 1 - f.Position) = e - 1 by omega, h] at this
            cases this
        · omega
        · omega
  · unfold ANSIEscapeRule.Check
    rw [he]
    simp only [Bool.false_eq_true, if_false]
    rw [ansiLoop_eq_nil cmd cmd.length 0 (by omega)]
    constructor
    · intro h hmem
      obtain ⟨j, hj⟩ := List.mem_iff_getElem?.1 hmem
      have hlt : j < cmd.length := by
        by_contra hc
        rw [List.getElem?_eq_none (by omega)] at hj
        cases hj
      exact h j (Nat.zero_le _) hlt (by simp [List.getD_eq_getElem?_getD, hj])
    · intro h j _ hj hesc
      apply h
      rw [← hesc, List.getD_eq_getElem?_getD, List.getElem?_eq_getElem hj]
      simp

set_option maxRecDepth 100000 in
theorem ansiCheck_span_witness :
    disabled none (str "ansi_escape") = false
      ∧ (ANSIEscapeRule.Check (str "a\x1b3;1m b") none).map (fun f => (f.Position, f.Token))
          = [(1, str "\x1b3;1m")]
      ∧ (ANSIEscapeRule.Check (str "a\x1b3;1m b") none = [] ↔ 0x1B ∉ str "a\x1b3;1m b") :=
  ⟨by decide, by decide, (ansiCheck_span (str "a\x1b3;1m b") none (by decide)).2⟩

/-! ## The dotfile rule -/

/-- The issues of the findings the loop of the dotfile rule adds, where it
returns: one per target that occurs in `lower` with a text before it that
looks like a write, in the order of the targets. -/
theorem dotfileLoop_issues (cmd lower : GoString) (ts : List GoString)
    (out res : List Finding) (h : DotfileWriteRule.loop cmd lower ts out = some res) :
    res.map (fun f => f.Issue)
      = out.map (fun f => f.Issue)
        ++ (ts.filter (fun t => (strings.Index lower t).any (fun idx =>
            strings.HasSuffix (strings.TrimSpace (lower.take idx)) (str ">>")
              || strings.HasSuffix (strings.TrimSpace (lower.take idx)) (str ">")
              || strings.Contains (strings.TrimSpace (lower.take idx)) (str "echo")
              || strings.Contains (strings.TrimSpace (lower.take idx)) (str "cat")))).map
            (fun t => str "writes to: " ++ t) := by
  induction ts generalizing out with
  | nil =>
    simp only [DotfileWriteRule.loop, Option.some.injEq] at h
    subst h
    simp
  | cons t ts ih =>
    unfold DotfileWriteRule.loop at h
    cases hidx : strings.Index lower t with
    | none =>
      rw [hidx] at h
      dsimp only at h
      rw [ih _ h, List.filter_cons, hidx]
      simp
    | some idx =>
      rw [hidx] at h
      dsimp only at h
      by_cases hc : (strings.HasSuffix (strings.TrimSpace (lower.take idx)) (str ">>")
              || strings.HasSuffix (strings.TrimSpace (lower.take idx)) (str ">")
              || strings.Contains (strings.TrimSpace (lower.take idx)) (str "echo")
              || strings.Contains (strings.TrimSpace (lower.take idx)) (str "cat")) = true
      · rw [if_pos hc] at h
        cases htok : tokenAround cmd idx t.length with
        | none =>
          rw [htok] at h
          cases h
        | some token =>
          rw [htok] at h
          dsimp only at h
          rw [ih _ h, List.filter_cons, hidx]
          simp only [Option.any_some, hc, if_true, List.map_append, List.map_cons, List.map_nil,
            List.append_assoc, List.singleton_append]
      · rw [if_neg hc] at h
        rw [ih _ h, List.filter_cons, hidx]
        simp only [Option.any_some, hc, Bool.false_eq_true, if_false]

theorem strings.HasSuffix_gt (b : GoString) (h : strings.HasSuffix b (str ">>") = true) :
    strings.HasSuffix b (str ">") = true := by
  unfold strings.HasSuffix at *
  rw [List.isSuffixOf_iff_suffix] at *
  exact List.IsSuffix.trans (by decide) h

/-- Where the dotfile rule returns, it reports a fragment exactly when the
fragment occurs in the lower-case copy of the command and the text before
its first occurrence, trimmed, ends with `>` or contains `echo` or `cat`;
and it reports no fragment twice. -/
theorem dotfileCheck_reports (U : UnicodeTables) (cmd : GoString) (cfg : RuleConfig)
    (fs : List Finding) (he : disabled cfg (str "dotfile_write") = false)
    (h : DotfileWriteRule.Check U cmd cfg = some fs) (t : GoString) (ht : t ∈ dotfileTargets) :
    ((∃ f ∈ fs, f.Issue = str "writes to: " ++ t)
        ↔ ∃ idx, strings.Index (strings.ToLower U cmd) t = some idx
            ∧ (strings.HasSuffix (strings.TrimSpace ((strings.ToLower U cmd).take idx)) (str ">")
                = true
              ∨ strings.Contains (strings.TrimSpace ((strings.ToLower U cmd).take idx))
                  (str "echo") = true
              ∨ strings.Contains (strings.TrimSpace ((strings.ToLower U cmd).take idx))
                  (str "cat") = true))
      ∧ (fs.filter (fun f => decide (f.Issue = str "writes to: " ++ t))).length ≤ 1 := by
  unfold DotfileWriteRule.Check at h
  rw [he] at h
  simp only [Bool.false_eq_true, if_false] at h
  have hi := dotfileLoop_issues _ _ _ _ _ h
  simp only [List.map_nil, List.nil_append] at hi
  generalize strings.ToLower U cmd = lower at h hi ⊢
  have hinj : Function.Injective (fun t : GoString => str "writes to: " ++ t) :=
    fun a b hab => List.append_cancel_left hab
  constructor
  · have h1 : (∃ f ∈ fs, f.Issue = str "writes to: " ++ t)
        ↔ str "writes to: " ++ t ∈ fs.map (fun f => f.Issue) := by
      simp only [List.mem_map]
    rw [h1, hi, List.mem_map]
    constructor
    · rintro ⟨t', ht', heq⟩
      have := hinj heq
      subst this
      have hc := (List.mem_filter.1 ht').2
      cases hidx : strings.Index lower t' with
      | none => rw [hidx] at hc; simp at hc
      | some idx =>
        rw [hidx] at hc
        simp only [Option.any_some, Bool.or_eq_true] at hc
        refine ⟨idx, rfl, ?_⟩
        rcases hc with ((hc | hc) | hc) | hc
        · exact Or.inl (strings.HasSuffix_gt _ hc)
        · exact Or.inl hc
        · exact Or.inr (Or.inl hc)
        · exact Or.inr (Or.inr hc)
    · rintro ⟨idx, hidx, hc⟩
      refine ⟨t, List.mem_filter.2 ⟨ht, ?_⟩, rfl⟩
      rw [hidx]
      simp only [Option.any_some, Bool.or_eq_true]
      rcases hc with hc | hc | hc
      · exact Or.inl (Or.inl (Or.inr hc))
      · exact Or.inl (Or.inr hc)
      · exact Or.inr hc
  · have hcnt : ∀ t ∈ dotfileTargets,
        dotfileTargets.countP (fun t' => decide (t' = t)) ≤ 1 := by decide
    rw [← List.countP_eq_length_filter]
    have h2 : fs.countP (fun f => decide (f.Issue = str "writes to: " ++ t))
        = (fs.map (fun f => f.Issue)).countP (fun i => decide (i = str "writes to: " ++ t)) := by
      rw [List.countP_map]
      rfl
    rw [h2, hi, List.countP_map]
    refine le_trans (List.Sublist.countP_le _ (List.filter_sublist _)) ?_
    refine le_trans (le_of_eq (List.countP_congr ?_)) (hcnt t ht)
    intro x _
    simp

set_option maxRecDepth 100000 in
/-- A mere mention of a fragment: `ls ~/.ssh/` gives no finding, under every
policy. -/
theorem dotfileCheck_mention (U : UnicodeTables) (cfg : RuleConfig) :
    DotfileWriteRule.Check U (str "ls ~/.ssh/") cfg = some [] := by
  rw [dotfileCheck_cfg]
  split
  · rfl
  · rfl

/-- C26, at an input where it fails.  The command `cat` U+023A `>` is valid
UTF-8 and the nil policy enables the rule.  For every case table that lowers
U+023A to U+2C65 the fragment `>` occurs in the lower-case copy, at offset
6, and the text before it contains `cat`, so a finding for `>` is due; the
rule reports none, it panics. -/
theorem dotfileCheck_panics_where_it_should_report (U : UnicodeTables)
    (h : U.toLower 0x23A = 0x2C65) :
    utf8.ValidString (str "cat\u023A>")
      ∧ disabled none (str "dotfile_write") = false
      ∧ str ">" ∈ dotfileTargets
      ∧ strings.ToLower U (str "cat\u023A>") = str "cat\u2C65>"
      ∧ strings.Index (str "cat\u2C65>") (str ">") = some 6
      ∧ strings.Contains (strings.TrimSpace ((str "cat\u2C65>").take 6)) (str "cat") = true
      ∧ DotfileWriteRule.Check U (str "cat\u023A>") none = none := by
  have hU := tables_eq_of_toLower U (fun r => if r = 0x23A then 0x2C65 else U.toLower r)
    (by intro r; by_cases hr : r = 0x23A <;> simp [hr, h])
  have hl : strings.ToLower U (str "cat\u023A>") = str "cat\u2C65>" := by
    rw [hU]; rfl
  refine ⟨⟨[0x63, 0x61, 0x74, 0x23A, 0x3E], by simp [utf8.ValidRune], by decide⟩, by decide,
    by decide, hl, by decide, by decide, ?_⟩
  unfold DotfileWriteRule.Check
  rw [hl]
  decide

theorem dotfileCheck_panics_where_it_should_report_witness :
    sampleTables.toLower 0x23A = 0x2C65
      ∧ (utf8.ValidString (str "cat\u023A>")
        ∧ disabled none (str "dotfile_write") = false
        ∧ str ">" ∈ dotfileTargets
        ∧ strings.ToLower sampleTables (str "cat\u023A>") = str "cat\u2C65>"
        ∧ strings.Index (str "cat\u2C65>") (str ">") = some 6
        ∧ strings.Contains (strings.TrimSpace ((str "cat\u2C65>").take 6)) (str "cat") = true
        ∧ DotfileWriteRule.Check sampleTables (str "cat\u023A>") none = none) :=
  ⟨by decide, dotfileCheck_panics_where_it_should_report sampleTables (by decide)⟩

/-! ## The URL helper -/

/-- The search for a one-byte string finds the first occurrence of the
byte. -/
theorem strings.indexFrom_byte (c : Nat) (s : GoString) (i : Nat) :
    strings.indexFrom [c] s i
      = if c ∈ s then some (i + (s.takeWhile (fun b => b != c)).length) else none := by
  induction s generalizing i with
  | nil => simp [strings.indexFrom]
  | cons x t ih =>
    unfold strings.indexFrom
    by_cases hx : x = c
    · subst hx
      simp [List.isPrefixOf]
    · have h1 : ([c].isPrefixOf (x :: t)) = false := by
        simp [List.isPrefixOf]
        exact fun h => hx h.symm
      rw [h1, ih]
      have h2 : (x != c) = true := by simpa using hx
      simp only [Bool.false_eq_true, if_false, List.mem_cons, List.takeWhile_cons, h2, if_true,
        List.length_cons]
      have h3 : (c = x ∨ c ∈ t) ↔ c ∈ t := by
        constructor
        · rintro (h | h)
          · exact absurd h.symm hx
          · exact h
        · exact Or.inr
      simp only [h3]
      split
      · congr 1
        omega
      · rfl

/-- Cutting a string at the first occurrence of a byte keeps the bytes
before it. -/
theorem strings.cut_at_byte (c : Nat) (s : GoString) :
    (∀ i, strings.Index s [c] = some i → s.take i = s.takeWhile (fun b => b != c))
      ∧ (strings.Index s [c] = none → s = s.takeWhile (fun b => b != c)) := by
  unfold strings.Index
  rw [strings.indexFrom_byte]
  by_cases hc : c ∈ s
  · rw [if_pos hc]
    refine ⟨?_, fun h => by cases h⟩
    intro i hi
    simp only [Nat.zero_add, Option.some.injEq] at hi
    rw [← hi]
    exact (List.prefix_iff_eq_take.1 (List.takeWhile_prefix _)).symm
  · rw [if_neg hc]
    refine ⟨fun i h => (by cases h), fun _ => ?_⟩
    symm
    rw [List.takeWhile_eq_self_iff]
    intro x hx
    have : x ≠ c := fun h => hc (h ▸ hx)
    simpa using this

theorem urls.hostFromURL_eq (u : GoString) :
    urls.hostFromURL u
      = ((strings.TrimPrefix (strings.TrimPrefix u (str "https://")) (str "http://")).takeWhile
          (fun b => b != 0x2F)).takeWhile (fun b => b != 0x3A) := by
  unfold urls.hostFromURL
  have h1 : str "/" = [0x2F] := by decide
  have h2 : str ":" = [0x3A] := by decide
  simp only [h1, h2]
  generalize strings.TrimPrefix (strings.TrimPrefix u (str "https://")) (str "http://") = s
  have c1 := strings.cut_at_byte 0x2F s
  rcases h47 : strings.Index s [0x2F] with _ | i
  · dsimp only
    rw [← c1.2 h47]
    have c2 := strings.cut_at_byte 0x3A s
    rcases h58 : strings.Index s [0x3A] with _ | j
    · exact c2.2 h58
    · exact c2.1 j h58
  · dsimp only
    rw [← c1.1 i h47]
    have c2 := strings.cut_at_byte 0x3A (s.take i)
    rcases h58 : strings.Index (s.take i) [0x3A] with _ | j
    · exact c2.2 h58
    · exact c2.1 j h58

/-- Where every rune that `range` visits is ASCII, every byte is. -/
theorem rangeFrom_ascii (s : GoString) (n i : Nat) (hn : s.length ≤ i + n)
    (h : ∀ p ∈ rangeFrom s n i, p.2 ≤ 0x7F) (k : Nat) (hik : i ≤ k) (hk : k < s.length) :
    s.getD k 0 < 0x80 := by
  induction n generalizing i with
  | zero => omega
  | succ n ih =>
    unfold rangeFrom at h
    rw [if_pos (by omega)] at h
    simp only [List.mem_cons, forall_eq_or_imp] at h
    obtain ⟨h0, h1⟩ := h
    have hd := utf8.decode_lt_128 (s.drop i) (by omega)
    have hb : s.getD i 0 < 0x80 := by
      have : (s.drop i).getD 0 0 = s.getD i 0 := by
        simp [List.getD_eq_getElem?_getD, List.getElem?_drop]
      rw [← this, hd.2]
      omega
    by_cases hki : k = i
    · rw [hki]; exact hb
    · rw [hd.1] at h1
      exact ih (i + 1) (by omega) h1 (by omega)

theorem rangeString_nonascii_iff (s : GoString) :
    (∃ p ∈ rangeString s, 0x7F < p.2) ↔ ∃ b ∈ s, 0x80 ≤ b := by
  constructor
  · rintro ⟨p, hp, hr⟩
    obtain ⟨-, h2, h3⟩ := rangeFrom_mem s _ _ p hp
    refine ⟨s.getD p.1 0, ?_, ?_⟩
    · rw [List.getD_eq_getElem?_getD, List.getElem?_eq_getElem h2]
      simp
    · by_contra hc
      have hs : s.drop p.1 = s.getD p.1 0 :: s.drop (p.1 + 1) := by
        rw [List.getD_eq_getElem?_getD, List.getElem?_eq_getElem h2]
        simp
      rw [hs, utf8.decode_ascii _ _ (by omega)] at h3
      simp only at h3
      omega
  · rintro ⟨b, hb, h80⟩
    by_contra hc
    simp only [not_exists, not_and, not_lt] at hc
    obtain ⟨k, hk⟩ := List.mem_iff_getElem?.1 hb
    have hlt : k < s.length := by
      by_contra hcon
      rw [List.getElem?_eq_none (by omega)] at hk
      cases hk
    have := rangeFrom_ascii s s.length 0 (by omega) (fun p hp => hc p hp) k (Nat.zero_le _) hlt
    rw [List.getD_eq_getElem?_getD, hk] at this
    simp only [Option.getD_some] at this
    omega

/-- C28. For every string `u`, `HostForDisplay u` is `u` without a leading
`https://`, then without a leading `http://`, cut before the first `/` and
then before the first `:`; it contains neither `/` nor `:`.  `HasIDN u` is
true exactly when `HostForDisplay u` has a code point above U+007F, which is
when it has a byte above 0x7F.  A URL with Cyrillic in the path only is not
flagged, one with a Cyrillic letter in the host is. -/
theorem HasIDN_iff_host_not_ascii (u : GoString) :
    urls.HostForDisplay u
        = ((strings.TrimPrefix (strings.TrimPrefix u (str "https://")) (str "http://")).takeWhile
            (fun b => b != 0x2F)).takeWhile (fun b => b != 0x3A)
      ∧ 0x2F ∉ urls.HostForDisplay u ∧ 0x3A ∉ urls.HostForDisplay u
      ∧ (urls.HasIDN u = true ↔ ∃ p ∈ rangeString (urls.HostForDisplay u), 0x7F < p.2)
      ∧ (urls.HasIDN u = true ↔ ∃ b ∈ urls.HostForDisplay u, 0x80 ≤ b)
      ∧ urls.HasIDN (str "https://example.com/\u043F\u0443\u0442\u044C") = false
      ∧ urls.HasIDN (str "https://ex\u0430mple.com/x") = true := by
  have hh := urls.hostFromURL_eq u
  have hidn : urls.HasIDN u = true ↔ ∃ p ∈ rangeString (urls.HostForDisplay u), 0x7F < p.2 := by
    unfold urls.HasIDN urls.HostForDisplay
    dsimp only
    split
    · rename_i he
      rw [he]
      simp [rangeString, rangeFrom]
    · simp only [List.any_eq_true, decide_eq_true_eq]
  refine ⟨hh, ?_, ?_, hidn, ?_, by decide, by decide⟩
  · unfold urls.HostForDisplay
    rw [hh]
    intro hmem
    have h1 := (List.takeWhile_prefix (fun b => b != 0x3A)).subset hmem
    have := List.mem_takeWhile_imp h1
    simp at this
  · unfold urls.HostForDisplay
    rw [hh]
    intro hmem
    have := List.mem_takeWhile_imp hmem
    simp at this
  · rw [hidn]
    exact rangeString_nonascii_iff _

/-! ## The engine on a rewritten command -/

/-- The encoding of kept runes has no ESC byte. -/
theorem rewrite.kept_no_esc (rs : List Nat) (hk : ∀ r ∈ rs, Kept r) :
    0x1B ∉ rs.flatMap utf8.EncodeRune := by
  intro hmem
  obtain ⟨r, hr, hb⟩ := List.mem_flatMap.1 hmem
  rcases utf8.encode_byte r 0x1B hb with ⟨-, h⟩ | h
  · exact (hk r hr).2.2.1 h.symm
  · omega

theorem zeroWidthCheck_kept (rs : List Nat) (hk : ∀ r ∈ rs, Kept r) (cfg : RuleConfig) :
    ZeroWidthRule.Check (rs.flatMap utf8.EncodeRune) cfg = [] := by
  unfold ZeroWidthRule.Check
  split
  · rfl
  · rw [List.filterMap_eq_nil_iff]
    intro p hp
    have hv : ∀ r ∈ rs, utf8.ValidRune r := fun r hr => (hk r hr).1
    rw [rangeString_runeOffsets rs hv] at hp
    have hmem : p.2 ∈ rs := by
      have := List.mem_map_of_mem Prod.snd hp
      rwa [runeOffsets_map_snd] at this
    have hz := (hk p.2 hmem).2.2.2
    have : ZeroWidthRule.bad.contains p.2 = false := by
      unfold isZeroWidthOrBidi at hz
      unfold ZeroWidthRule.bad
      split at hz
      · cases hz
      · rename_i h1
        simp only [List.contains_eq_any_beq, List.any_cons, List.any_nil, Bool.or_false,
          Bool.or_eq_false_iff, beq_eq_false_iff_ne, ne_eq]
        omega
    rw [this]
    rfl

theorem bidiCheck_kept (rs : List Nat) (hk : ∀ r ∈ rs, Kept r) (cfg : RuleConfig) :
    BidiControlsRule.Check (rs.flatMap utf8.EncodeRune) cfg = [] := by
  unfold BidiControlsRule.Check
  split
  · rfl
  · rw [List.filterMap_eq_nil_iff]
    intro p hp
    have hv : ∀ r ∈ rs, utf8.ValidRune r := fun r hr => (hk r hr).1
    rw [rangeString_runeOffsets rs hv] at hp
    have hmem : p.2 ∈ rs := by
      have := List.mem_map_of_mem Prod.snd hp
      rwa [runeOffsets_map_snd] at this
    have hz := (hk p.2 hmem).2.2.2
    have : BidiControlsRule.bad.contains p.2 = false := by
      unfold isZeroWidthOrBidi at hz
      unfold BidiControlsRule.bad
      split at hz
      · cases hz
      · split at hz
        · cases hz
        · rename_i h1 h2
          simp only [List.contains_eq_any_beq, List.any_cons, List.any_nil, Bool.or_false,
            Bool.or_eq_false_iff, beq_eq_false_iff_ne, ne_eq]
          omega
    rw [this]
    rfl

theorem ansiCheck_kept (rs : List Nat) (hk : ∀ r ∈ rs, Kept r) (cfg : RuleConfig) :
    ANSIEscapeRule.Check (rs.flatMap utf8.EncodeRune) cfg = [] := by
  have hno := rewrite.kept_no_esc rs hk
  unfold ANSIEscapeRule.Check
  split
  · rfl
  · rw [ansiLoop_eq_nil _ _ 0 (by omega)]
    intro j _ hj hesc
    apply hno
    rw [← hesc, List.getD_eq_getElem?_getD, List.getElem?_eq_getElem hj]
    simp

/-- C30. For every input string, both values of the flag and every policy,
a result that `Run` returns for the rewritten command has no finding of the
zero-width, the bidi-controls or the ansi-escape rule, and its severity is
not Block. -/
theorem Run_rewritten_not_blocked (U : UnicodeTables) (cmd : GoString) (normalize : Bool)
    (cfg : RuleConfig) (r : Result) (h : Run U (SafeRewrite cmd normalize) cfg = some r) :
    (∀ f ∈ r.Findings, f.RuleID ≠ str "zero-width" ∧ f.RuleID ≠ str "bidi-controls"
        ∧ f.RuleID ≠ str "ansi-escape")
      ∧ r.Severity ≠ Block := by
  obtain ⟨rs, hk, hrs⟩ := rewrite.SafeRewrite_kept cmd normalize
  rw [hrs] at h
  have hfind : ∀ f ∈ r.Findings, f.RuleID ≠ str "zero-width" ∧ f.RuleID ≠ str "bidi-controls"
      ∧ f.RuleID ≠ str "ansi-escape" := by
    intro f hf
    rcases Run_findings_mem h hf with h1 | h1 | h1 | h1 | h1 | ⟨d, hd, h1⟩ | h1 | h1 | h1
    · rw [(homoglyphCheck_mem h1).1]; decide
    · rw [zeroWidthCheck_kept rs hk] at h1; cases h1
    · rw [bidiCheck_kept rs hk] at h1; cases h1
    · rw [ansiCheck_kept rs hk] at h1; cases h1
    · rw [(pipeToShellCheck_mem h1).1]; decide
    · rw [(dotfileCheck_mem hd h1).1]; decide
    · rw [(persistenceCheck_mem h1).1]; decide
    · rw [(shortenerCheck_mem h1).1]; decide
    · rw [(subshellCheck_mem h1).1]; decide
  refine ⟨hfind, ?_⟩
  intro hb
  have hw := Run_severity_eq_worst h
  rw [hb] at hw
  rcases worstFold_attained r.Findings Pass with h0 | ⟨f, hf, h1⟩
  · unfold Result.WorstSeverity at hw
    rw [h0] at hw
    exact absurd hw (by decide)
  · unfold Result.WorstSeverity at hw
    rw [← hw] at h1
    rcases Run_finding_severity h hf with ⟨hid, -⟩ | ⟨-, hs⟩
    · rcases hid with hid | hid
      · exact (hfind f hf).1 hid
      · exact (hfind f hf).2.1 hid
    · rw [hs] at h1
      exact absurd h1 (by decide)

set_option maxRecDepth 100000 in
theorem Run_rewritten_not_blocked_witness :
    SafeRewrite (str "a\u200Bb\x1b[0m $(x)") false = str "ab0m $(x)"
      ∧ Run sampleTables (SafeRewrite (str "a\u200Bb\x1b[0m $(x)") false) none
          = some ⟨Warn, SubshellRule.Check (str "ab0m $(x)") none⟩
      ∧ ((∀ f ∈ SubshellRule.Check (str "ab0m $(x)") none,
            f.RuleID ≠ str "zero-width" ∧ f.RuleID ≠ str "bidi-controls"
              ∧ f.RuleID ≠ str "ansi-escape")
          ∧ Warn ≠ Block) :=
  ⟨by decide, by decide,
    Run_rewritten_not_blocked sampleTables (str "a\u200Bb\x1b[0m $(x)") false none
      ⟨Warn, SubshellRule.Check (str "ab0m $(x)") none⟩ (by decide)⟩

/-! ## Visible runes -/

theorem rewrite.visibleLoop_acc (s : GoString) (k i n : Nat) :
    visibleLoop s k i n = n + visibleLoop s k i 0 := by
  induction k generalizing i n with
  | zero => simp [visibleLoop]
  | succ k ih =>
    unfold visibleLoop
    dsimp only
    split_ifs
    · exact ih _ _
    · exact ih _ _
    · rw [ih _ (n + 1), ih _ (0 + 1)]
      omega
    · exact ih _ _
    · simp

theorem rewrite.rewriteLoop_acc (s : GoString) (normalize : Bool) (k i : Nat) (b : GoString) :
    rewriteLoop s normalize k i b = b ++ rewriteLoop s normalize k i [] := by
  induction k generalizing i b with
  | zero => simp [rewriteLoop]
  | succ k ih =>
    unfold rewriteLoop
    dsimp only
    split_ifs
    · exact ih _ _
    · exact ih _ _
    · exact ih _ _
    · rw [ih _ (b ++ _), ih _ ([] ++ _)]
      simp
    · rw [ih _ (b ++ _), ih _ ([] ++ _)]
      simp
    · rw [ih _ (b ++ _), ih _ ([] ++ _)]
      simp
    · simp

/-- The three loops over a string keep the same runes: the rewriter writes
them, folded when the flag is set, and `VisibleRunes` counts those that are
not control characters. -/
theorem rewrite.loops_agree (s : GoString) (k i : Nat) :
    ∃ rs : List Nat, (∀ r ∈ rs, Kept r)
      ∧ rewriteLoop s false k i [] = rs.flatMap utf8.EncodeRune
      ∧ rewriteLoop s true k i []
          = (rs.map (fun r => if homoglyphToLatin r ≠ 0 then homoglyphToLatin r else r)).flatMap
              utf8.EncodeRune
      ∧ visibleLoop s k i 0 = (rs.filter (fun r => !unicode.Is unicode.Cc r)).length := by
  induction k generalizing i with
  | zero => exact ⟨[], by simp, rfl, rfl, rfl⟩
  | succ k ih =>
    unfold rewriteLoop visibleLoop
    dsimp only
    by_cases h1 : i < s.length
    · simp only [if_pos h1]
      by_cases h2 : (utf8.DecodeRuneInString (s.drop i)).1 = utf8.RuneError
      · simp only [if_pos h2]
        exact ih _
      · simp only [if_neg h2]
        by_cases h3 : (utf8.DecodeRuneInString (s.drop i)).1 = 0x1B
        · simp only [if_pos h3]
          exact ih _
        · simp only [if_neg h3]
          by_cases h4 : isZeroWidthOrBidi (utf8.DecodeRuneInString (s.drop i)).1 = true
          · simp only [if_pos h4, h4, Bool.not_true, Bool.false_and, Bool.false_eq_true,
              if_false]
            exact ih _
          · simp only [if_neg h4]
            have h4' : isZeroWidthOrBidi (utf8.DecodeRuneInString (s.drop i)).1 = false := by
              simpa using h4
            obtain ⟨rs, hk, e1, e2, e3⟩ := ih (i + (utf8.DecodeRuneInString (s.drop i)).2)
            refine ⟨(utf8.DecodeRuneInString (s.drop i)).1 :: rs, ?_, ?_, ?_, ?_⟩
            · intro r hr
              rcases List.mem_cons.1 hr with hr | hr
              · rw [hr]
                exact ⟨utf8.decode_valid _, h2, h3, h4'⟩
              · exact hk r hr
            · simp only [Bool.false_eq_true, if_false]
              rw [rewriteLoop_acc, e1]
              simp
            · simp only [if_true]
              rw [rewriteLoop_acc, e2]
              simp
            · simp only [h4', Bool.not_false, Bool.true_and]
              by_cases h5 : unicode.Is unicode.Cc (utf8.DecodeRuneInString (s.drop i)).1 = true
              · simp only [h5, Bool.not_true, Bool.false_eq_true, if_false, List.filter_cons]
                exact e3
              · have h5' : unicode.Is unicode.Cc (utf8.DecodeRuneInString (s.drop i)).1 = false := by
                  simpa using h5
                simp only [h5', Bool.not_false, if_true, List.filter_cons, List.length_cons]
                rw [visibleLoop_acc, e3]
                omega
    · simp only [if_neg h1]
      exact ⟨[], by simp, rfl, rfl, rfl⟩

/-- Valid runes are determined by their encoding. -/
theorem utf8.encode_injective (rs1 rs2 : List Nat) (h1 : ∀ r ∈ rs1, utf8.ValidRune r)
    (h2 : ∀ r ∈ rs2, utf8.ValidRune r)
    (h : rs1.flatMap utf8.EncodeRune = rs2.flatMap utf8.EncodeRune) : rs1 = rs2 := by
  have e1 := rangeString_runeOffsets rs1 h1
  have e2 := rangeString_runeOffsets rs2 h2
  rw [h, e2] at e1
  have := congrArg (List.map Prod.snd) e1
  rw [runeOffsets_map_snd, runeOffsets_map_snd] at this
  exact this.symm

theorem unicode.Is_Cc (r : Nat) :
    unicode.Is unicode.Cc r = true ↔ r ≤ 0x1F ∨ (0x7F ≤ r ∧ r ≤ 0x9F) := by
  unfold unicode.Is unicode.Cc
  simp only [List.any_cons, List.any_nil, Bool.or_false, Bool.or_eq_true, Bool.and_eq_true,
    decide_eq_true_eq]
  omega

theorem rewrite.lookup_mem (l : List (Nat × Nat)) (r v : Nat) (h : l.lookup r = some v) :
    (r, v) ∈ l := by
  induction l with
  | nil => simp at h
  | cons p l ih =>
    obtain ⟨a, b⟩ := p
    simp only [List.lookup_cons] at h
    split at h
    · rename_i heq
      cases h
      have : r = a := by simpa using heq
      rw [this]
      exact List.mem_cons_self _ _
    · exact List.mem_cons_of_mem _ (ih h)

/-- Folding a homoglyph to Latin does not change whether a rune is a
control character: neither the Cyrillic letter nor the Latin one is. -/
theorem rewrite.fold_Cc (r : Nat) :
    unicode.Is unicode.Cc (if homoglyphToLatin r ≠ 0 then homoglyphToLatin r else r)
      = unicode.Is unicode.Cc r := by
  by_cases h : homoglyphToLatin r ≠ 0
  · rw [if_pos h]
    have htab : ∀ p ∈ cyrToLat, 0x0430 ≤ p.1 ∧ 0x61 ≤ p.2 ∧ p.2 ≤ 0x7A := by decide
    unfold homoglyphToLatin at h ⊢
    cases hl : cyrToLat.lookup r with
    | none => simp [hl] at h
    | some lat =>
      simp only
      have := htab (r, lat) (rewrite.lookup_mem _ _ _ hl)
      have a1 : unicode.Is unicode.Cc lat = false := by
        rw [← Bool.not_eq_true, unicode.Is_Cc]
        omega
      have a2 : unicode.Is unicode.Cc r = false := by
        rw [← Bool.not_eq_true, unicode.Is_Cc]
        omega
      rw [a1, a2]
  · rw [if_neg h]

theorem rewrite.fold_kept (r : Nat) (h : Kept r) :
    Kept (if homoglyphToLatin r ≠ 0 then homoglyphToLatin r else r) := by
  split
  · rename_i h0
    exact homoglyphToLatin_kept r h0
  · exact h

/-- On the encoding of kept runes `VisibleRunes` counts those that are not
control characters. -/
theorem rewrite.VisibleRunes_encoded (rs : List Nat) (hk : ∀ r ∈ rs, Kept r) :
    VisibleRunes (rs.flatMap utf8.EncodeRune)
      = (rs.filter (fun r => !unicode.Is unicode.Cc r)).length := by
  obtain ⟨rs2, hk2, e1, -, e3⟩ :=
    rewrite.loops_agree (rs.flatMap utf8.EncodeRune) (rs.flatMap utf8.EncodeRune).length 0
  have hu := SafeRewrite_unchanged rs hk
  unfold SafeRewrite at hu
  rw [hu] at e1
  have := utf8.encode_injective rs rs2 (fun r hr => (hk r hr).1) (fun r hr => (hk2 r hr).1) e1
  unfold VisibleRunes
  rw [e3, this]

set_option maxRecDepth 100000 in
/-- C29. For every input string `s`, `VisibleRunes s` is the number of code
points of `SafeRewrite s false` that are not in category Cc
(U+0000..U+001F and U+007F..U+009F); `VisibleRunes` of the rewritten
string, with or without folding, is `VisibleRunes s`; and none of the code
points counted is ESC, zero-width or a bidi control. -/
theorem VisibleRunes_agrees (s : GoString) (normalize : Bool) :
    VisibleRunes s
        = ((rangeString (SafeRewrite s false)).filter
            (fun p => !unicode.Is unicode.Cc p.2)).length
      ∧ (∀ r, unicode.Is unicode.Cc r = true ↔ r ≤ 0x1F ∨ (0x7F ≤ r ∧ r ≤ 0x9F))
      ∧ VisibleRunes (SafeRewrite s normalize) = VisibleRunes s
      ∧ (∀ p ∈ rangeString (SafeRewrite s false), p.2 ≠ 0x1B ∧ isZeroWidthOrBidi p.2 = false)
      ∧ VisibleRunes (str "a\x1b]\u200B\u202Eb\n") = 2
      ∧ VisibleRunes (str "\x1b]\u200B\u202E") = 0 := by
  obtain ⟨rs, hk, e1, e2, e3⟩ := rewrite.loops_agree s s.length 0
  have hv : ∀ r ∈ rs, utf8.ValidRune r := fun r hr => (hk r hr).1
  have hs : SafeRewrite s false = rs.flatMap utf8.EncodeRune := e1
  have hvis : VisibleRunes s = (rs.filter (fun r => !unicode.Is unicode.Cc r)).length := e3
  refine ⟨?_, unicode.Is_Cc, ?_, ?_, by decide, by decide⟩
  · rw [hvis, hs, rangeString_runeOffsets rs hv, ← List.countP_eq_length_filter,
      ← List.countP_eq_length_filter]
    conv_lhs => rw [← runeOffsets_map_snd rs 0]
    rw [List.countP_map]
    rfl
  · cases normalize with
    | false =>
      rw [hs, rewrite.VisibleRunes_encoded rs hk, hvis]
    | true =>
      have hs' : SafeRewrite s true
          = (rs.map (fun r => if homoglyphToLatin r ≠ 0 then homoglyphToLatin r else r)).flatMap
              utf8.EncodeRune := e2
      rw [hs', rewrite.VisibleRunes_encoded _ (by
        intro r hr
        obtain ⟨q, hq, rfl⟩ := List.mem_map.1 hr
        exact rewrite.fold_kept q (hk q hq)), hvis,
        ← List.countP_eq_length_filter, ← List.countP_eq_length_filter, List.countP_map]
      apply List.countP_congr
      intro r _
      simp only [Function.comp]
      rw [rewrite.fold_Cc]
  · intro p hp
    rw [hs, rangeString_runeOffsets rs hv] at hp
    have hmem : p.2 ∈ rs := by
      have := List.mem_map_of_mem Prod.snd hp
      rwa [runeOffsets_map_snd] at this
    exact ⟨(hk p.2 hmem).2.2.1, (hk p.2 hmem).2.2.2⟩

/-! ## The rewriter and the escape rule -/

/-- The rewriter and the rule scan an escape sequence in the same way. -/
theorem rewrite.escEnd_eq_spanEnd (cmd : GoString) (i n e : Nat) :
    escEnd cmd i n e = ANSIEscapeRule.spanEnd cmd i n e := by
  induction n generalizing e with
  | zero => rfl
  | succ n ih =>
    unfold escEnd ANSIEscapeRule.spanEnd
    dsimp only
    by_cases h1 : e < cmd.length
    · simp only [if_pos h1]
      by_cases h2 : 0x40 ≤ cmd.getD e 0 ∧ cmd.getD e 0 ≤ 0x7E
      · rw [if_pos (Or.inl h2), if_pos h2]
      · by_cases h3 : cmd.getD e 0 = 0x07 ∨ cmd.getD e 0 = 0x0A
        · rw [if_pos (Or.inr h3), if_neg h2, if_pos h3]
        · rw [if_neg (by tauto), if_neg h2, if_neg h3, ih]
    · simp only [if_neg h1]

/-- More iterations than bytes left do not change the output of the loop of
the escape rule. -/
theorem ansiLoop_fuel (cmd : GoString) (n m i : Nat) (out : List Finding)
    (hn : cmd.length - i ≤ n) (hm : cmd.length - i ≤ m) :
    ANSIEscapeRule.loop cmd n i out = ANSIEscapeRule.loop cmd m i out := by
  induction n generalizing m i out with
  | zero =>
    cases m with
    | zero => rfl
    | succ m =>
      unfold ANSIEscapeRule.loop
      rw [if_neg (by omega)]
  | succ n ih =>
    cases m with
    | zero =>
      unfold ANSIEscapeRule.loop
      rw [if_neg (by omega)]
    | succ m =>
      unfold ANSIEscapeRule.loop
      by_cases h1 : i < cmd.length
      · simp only [if_pos h1]
        have hge := ANSIEscapeRule.spanEnd_ge cmd i cmd.length (i + 1)
        split
        · exact ih _ _ _ (by omega) (by omega)
        · exact ih _ _ _ (by omega) (by omega)
      · simp only [if_neg h1]

/-- The loop of the escape rule at the end of the command. -/
theorem ansiLoop_end (cmd : GoString) (i : Nat) (hi : cmd.length ≤ i) :
    ANSIEscapeRule.loop cmd cmd.length i [] = [] := by
  cases h : cmd.length with
  | zero => rfl
  | succ n =>
    unfold ANSIEscapeRule.loop
    rw [if_neg (by omega)]

/-- The loop of the escape rule at a byte that is not ESC. -/
theorem ansiLoop_plain (cmd : GoString) (i : Nat) (hi : i < cmd.length)
    (hb : cmd.getD i 0 ≠ 0x1B) :
    ANSIEscapeRule.loop cmd cmd.length i [] = ANSIEscapeRule.loop cmd cmd.length (i + 1) [] := by
  calc ANSIEscapeRule.loop cmd cmd.length i []
      = ANSIEscapeRule.loop cmd (cmd.length - 1 + 1) i [] :=
        ansiLoop_fuel cmd _ _ _ _ (by omega) (by omega)
    _ = ANSIEscapeRule.loop cmd (cmd.length - 1) (i + 1) [] := by
        rw [ANSIEscapeRule.loop, if_pos hi, if_neg hb]
    _ = ANSIEscapeRule.loop cmd cmd.length (i + 1) [] :=
        ansiLoop_fuel cmd _ _ _ _ (by omega) (by omega)

/-- The loop of the escape rule at an ESC byte: the finding of the span, and
the loop from the end of the span. -/
theorem ansiLoop_esc (cmd : GoString) (i : Nat) (hi : i < cmd.length)
    (hb : cmd.getD i 0 = 0x1B) :
    ANSIEscapeRule.loop cmd cmd.length i []
      = { RuleID := ANSIEscapeRule.ID
          Severity := Warn
          Token := slice cmd i (ANSIEscapeRule.spanEnd cmd i cmd.length (i + 1))
          Issue := str "ESC (U+001B) control sequence detected"
          Position := i
          Suggestion := str "paste as plain text" }
        :: ANSIEscapeRule.loop cmd cmd.length
            (ANSIEscapeRule.spanEnd cmd i cmd.length (i + 1)) [] := by
  have hge := ANSIEscapeRule.spanEnd_ge cmd i cmd.length (i + 1)
  have he : ANSIEscapeRule.spanEnd cmd i cmd.length (i + 1) - 1 + 1
      = ANSIEscapeRule.spanEnd cmd i cmd.length (i + 1) := by omega
  calc ANSIEscapeRule.loop cmd cmd.length i []
      = ANSIEscapeRule.loop cmd (cmd.length - 1 + 1) i [] :=
        ansiLoop_fuel cmd _ _ _ _ (by omega) (by omega)
    _ = _ :: ANSIEscapeRule.loop cmd (cmd.length - 1)
          (ANSIEscapeRule.spanEnd cmd i cmd.length (i + 1)) [] := by
        rw [ANSIEscapeRule.loop, if_pos hi, if_pos hb]
        dsimp only
        rw [ansiLoop_append, List.nil_append, List.singleton_append, he]
    _ = _ := by
        rw [ansiLoop_fuel cmd (cmd.length - 1) cmd.length _ _ (by omega) (by omega)]

theorem rules.deleteRanges_eq (cmd : GoString) (fs : List Finding) :
    deleteRanges cmd fs = keptFrom cmd fs 0 := rfl

theorem rules.keptFrom_end (cmd : GoString) (fs : List Finding) (i : Nat)
    (hi : cmd.length ≤ i) : keptFrom cmd fs i = [] := by
  unfold keptFrom
  rw [List.drop_of_length_le hi]
  rfl

theorem rules.keptFrom_step (cmd : GoString) (fs : List Finding) (i : Nat)
    (hi : i < cmd.length) :
    keptFrom cmd fs i
      = (if inRanges fs i then [] else [cmd.getD i 0]) ++ keptFrom cmd fs (i + 1) := by
  unfold keptFrom
  have hd : cmd.drop i = cmd.getD i 0 :: cmd.drop (i + 1) := by
    rw [List.getD_eq_getElem?_getD, List.getElem?_eq_getElem hi]
    simp
  rw [hd, List.enumFrom_cons, List.filter_cons]
  by_cases hc : inRanges fs i = true
  · simp [hc]
  · have hc' : inRanges fs i = false := by simpa using hc
    simp [hc']

/-- The bytes kept from offset `i` on depend only on which offsets from `i`
on the ranges cover. -/
theorem rules.keptFrom_congr (cmd : GoString) (fs fs' : List Finding) (i : Nat)
    (h : ∀ j, i ≤ j → inRanges fs j = inRanges fs' j) :
    keptFrom cmd fs i = keptFrom cmd fs' i := by
  unfold keptFrom
  congr 1
  apply List.filter_congr
  intro p hp
  have := List.le_fst_of_mem_enumFrom hp
  rw [h p.1 this]

/-- A stretch of covered offsets is dropped. -/
theorem rules.keptFrom_skip (cmd : GoString) (fs : List Finding) (i d : Nat)
    (hd : i + d ≤ cmd.length) (h : ∀ j, i ≤ j → j < i + d → inRanges fs j = true) :
    keptFrom cmd fs i = keptFrom cmd fs (i + d) := by
  induction d generalizing i with
  | zero => rfl
  | succ d ih =>
    rw [rules.keptFrom_step cmd fs i (by omega), h i (le_refl _) (by omega)]
    simp only [if_true, List.nil_append]
    rw [ih (i + 1) (by omega) (fun j j1 j2 => h j (by omega) (by omega))]
    congr 1
    omega

/-- Every byte of an encoding but the first is a continuation byte. -/
theorem utf8.encode_cont (r k : Nat) (h0 : 0 < k) (hk : k < (utf8.EncodeRune r).length) :
    utf8.RuneStart ((utf8.EncodeRune r).getD k 0) = false := by
  unfold utf8.EncodeRune at hk ⊢
  unfold utf8.RuneStart
  split_ifs at hk ⊢
  · simp at hk; omega
  · simp only [List.length_cons, List.length_nil] at hk
    have : k = 1 := by omega
    subst this
    simp only [List.getD_cons_succ, List.getD_cons_zero]
    simp only [Bool.not_eq_false', Bool.and_eq_true, decide_eq_true_eq]
    omega
  · simp only [List.length_cons, List.length_nil] at hk
    have : k = 1 ∨ k = 2 := by omega
    rcases this with rfl | rfl <;> decide
  · simp only [List.length_cons, List.length_nil] at hk
    have : k = 1 ∨ k = 2 := by omega
    rcases this with rfl | rfl
    · simp only [List.getD_cons_succ, List.getD_cons_zero]
      simp only [Bool.not_eq_false', Bool.and_eq_true, decide_eq_true_eq]
      omega
    · simp only [List.getD_cons_succ, List.getD_cons_zero]
      simp only [Bool.not_eq_false', Bool.and_eq_true, decide_eq_true_eq]
      omega
  · simp only [List.length_cons, List.length_nil] at hk
    have : k = 1 ∨ k = 2 ∨ k = 3 := by omega
    rcases this with rfl | rfl | rfl
    · simp only [List.getD_cons_succ, List.getD_cons_zero]
      simp only [Bool.not_eq_false', Bool.and_eq_true, decide_eq_true_eq]
      omega
    · simp only [List.getD_cons_succ, List.getD_cons_zero]
      simp only [Bool.not_eq_false', Bool.and_eq_true, decide_eq_true_eq]
      omega
    · simp only [List.getD_cons_succ, List.getD_cons_zero]
      simp only [Bool.not_eq_false', Bool.and_eq_true, decide_eq_true_eq]
      omega

/-- In an encoded string, an offset that is the end of the string or holds a
byte that starts a rune is the end of the encoding of some of the runes. -/
theorem utf8.encoded_boundary (rs : List Nat) (k : Nat)
    (hk : k ≤ (rs.flatMap utf8.EncodeRune).length)
    (h : k = (rs.flatMap utf8.EncodeRune).length
      ∨ utf8.RuneStart ((rs.flatMap utf8.EncodeRune).getD k 0) = true) :
    ∃ a b, rs = a ++ b ∧ (rs.flatMap utf8.EncodeRune).drop k = b.flatMap utf8.EncodeRune := by
  induction rs generalizing k with
  | nil =>
    simp only [List.flatMap_nil, List.length_nil, Nat.le_zero_eq] at hk
    subst hk
    exact ⟨[], [], rfl, rfl⟩
  | cons r rest ih =>
    have hw := utf8.encode_length_pos r
    simp only [List.flatMap_cons, List.length_append] at hk h ⊢
    by_cases h0 : k = 0
    · subst h0
      exact ⟨[], r :: rest, rfl, by simp⟩
    · by_cases h1 : k < (utf8.EncodeRune r).length
      · exfalso
        rcases h with h | h
        · omega
        · rw [List.getD_append _ _ _ _ h1, utf8.encode_cont r k (by omega) h1] at h
          cases h
      · have hk' : k - (utf8.EncodeRune r).length ≤ (rest.flatMap utf8.EncodeRune).length := by
          omega
        obtain ⟨a, b, hab, hd⟩ := ih (k - (utf8.EncodeRune r).length) hk' (by
          rcases h with h | h
          · left; omega
          · right
            rw [List.getD_append_right _ _ _ _ (by omega)] at h
            exact h)
        refine ⟨r :: a, b, by rw [hab]; rfl, ?_⟩
        rw [List.drop_append_eq_append_drop, List.drop_of_length_le (by omega), List.nil_append]
        exact hd

/-- The findings of the loop of the escape rule from `i` on are at offsets
from `i` on. -/
theorem ansiLoop_position_ge (cmd : GoString) (i : Nat) (f : Finding)
    (hf : f ∈ ANSIEscapeRule.loop cmd cmd.length i []) : i ≤ f.Position := by
  rcases ansiLoop_span cmd _ i [] f hf with h | h
  · cases h
  · exact h.1

theorem ansiLoop_not_inRanges (cmd : GoString) (i j : Nat) (hj : j < i) :
    inRanges (ANSIEscapeRule.loop cmd cmd.length i []) j = false := by
  unfold inRanges
  rw [List.any_eq_false]
  intro f hf
  have := ansiLoop_position_ge cmd i f hf
  simp only [Bool.and_eq_true, decide_eq_true_eq, not_and, not_lt]
  omega

/-- A byte that is not ESC is kept, and the rule goes on after it. -/
theorem keptFrom_plain (cmd : GoString) (i : Nat) (hi : i < cmd.length)
    (hb : cmd.getD i 0 ≠ 0x1B) :
    keptFrom cmd (ANSIEscapeRule.loop cmd cmd.length i []) i
      = cmd.getD i 0 :: keptFrom cmd (ANSIEscapeRule.loop cmd cmd.length (i + 1) []) (i + 1) := by
  rw [ansiLoop_plain cmd i hi hb, rules.keptFrom_step cmd _ i hi,
    ansiLoop_not_inRanges cmd (i + 1) i (by omega)]
  rfl

/-- A run of bytes without ESC is kept, and the rule reports the same
findings after it. -/
theorem keptFrom_run (cmd : GoString) (i w : Nat) (hw : i + w ≤ cmd.length)
    (hb : ∀ j, i ≤ j → j < i + w → cmd.getD j 0 ≠ 0x1B) :
    keptFrom cmd (ANSIEscapeRule.loop cmd cmd.length i []) i
        = (cmd.drop i).take w
          ++ keptFrom cmd (ANSIEscapeRule.loop cmd cmd.length (i + w) []) (i + w)
      ∧ ANSIEscapeRule.loop cmd cmd.length i [] = ANSIEscapeRule.loop cmd cmd.length (i + w) [] := by
  induction w generalizing i with
  | zero => exact ⟨by simp, rfl⟩
  | succ w ih =>
    have h1 := keptFrom_plain cmd i (by omega) (hb i (le_refl _) (by omega))
    have h2 := ih (i + 1) (by omega) (fun j j1 j2 => hb j (by omega) (by omega))
    have hd : cmd.drop i = cmd.getD i 0 :: cmd.drop (i + 1) := by
      rw [List.getD_eq_getElem?_getD, List.getElem?_eq_getElem (show i < cmd.length by omega)]
      simp
    have e : i + 1 + w = i + (w + 1) := by omega
    rw [e] at h2
    refine ⟨?_, ?_⟩
    · rw [h1, h2.1, hd, List.take_succ_cons]
      rfl
    · rw [ansiLoop_plain cmd i (by omega) (hb i (le_refl _) (by omega)), h2.2]

/-- The span of an ESC byte is dropped, and the rule goes on after it. -/
theorem keptFrom_esc (cmd : GoString) (i : Nat) (hi : i < cmd.length)
    (hb : cmd.getD i 0 = 0x1B) :
    keptFrom cmd (ANSIEscapeRule.loop cmd cmd.length i []) i
      = keptFrom cmd
          (ANSIEscapeRule.loop cmd cmd.length (ANSIEscapeRule.spanEnd cmd i cmd.length (i + 1)) [])
          (ANSIEscapeRule.spanEnd cmd i cmd.length (i + 1)) := by
  have hge := ANSIEscapeRule.spanEnd_ge cmd i cmd.length (i + 1)
  have hle := ANSIEscapeRule.spanEnd_le cmd i cmd.length (i + 1) (by omega)
  rw [ansiLoop_esc cmd i hi hb]
  generalize ANSIEscapeRule.spanEnd cmd i cmd.length (i + 1) = e at hge hle
  have hlen : (slice cmd i e).length = e - i := slice_length cmd i e hle
  have h1 := rules.keptFrom_skip cmd
    ({ RuleID := ANSIEscapeRule.ID
       Severity := Warn
       Token := slice cmd i e
       Issue := str "ESC (U+001B) control sequence detected"
       Position := i
       Suggestion := str "paste as plain text" }
      :: ANSIEscapeRule.loop cmd cmd.length e []) i (e - i) (by omega) (by
    intro j j1 j2
    unfold inRanges
    simp only [List.any_cons, Bool.or_eq_true, Bool.and_eq_true, decide_eq_true_eq, hlen]
    left
    omega)
  rw [h1, show i + (e - i) = e by omega]
  apply rules.keptFrom_congr
  intro j hj
  unfold inRanges
  simp only [List.any_cons, hlen]
  have : (decide (i ≤ j) && decide (j < i + (e - i))) = false := by
    simp only [Bool.and_eq_false_imp, decide_eq_true_eq, decide_eq_false_iff_not, not_lt]
    omega
  rw [this, Bool.false_or]

/-- The loop of the rewriter, on a command that from `i` on is the encoding
of valid runes other than U+FFFD and the zero-width and bidi controls,
writes the bytes that lie in no span the escape rule reports, provided no
reported span ends inside a code point. -/
theorem rewriteLoop_deletes (cmd : GoString)
    (H : ∀ f ∈ ANSIEscapeRule.loop cmd cmd.length 0 [],
      f.Position + f.Token.length = cmd.length
        ∨ utf8.RuneStart (cmd.getD (f.Position + f.Token.length) 0) = true)
    (n i : Nat) (b : GoString) (hn : cmd.length - i ≤ n) (hi : i ≤ cmd.length)
    (hs : ∃ rs : List Nat,
      (∀ r ∈ rs, utf8.ValidRune r ∧ r ≠ utf8.RuneError ∧ isZeroWidthOrBidi r = false)
        ∧ cmd.drop i = rs.flatMap utf8.EncodeRune)
    (hsub : ∀ f ∈ ANSIEscapeRule.loop cmd cmd.length i [],
      f ∈ ANSIEscapeRule.loop cmd cmd.length 0 []) :
    rewriteLoop cmd false n i b
      = b ++ keptFrom cmd (ANSIEscapeRule.loop cmd cmd.length i []) i := by
  induction n generalizing i b with
  | zero =>
    rw [rules.keptFrom_end cmd _ i (by omega)]
    simp [rewriteLoop]
  | succ n ih =>
    by_cases hlt : i < cmd.length
    · obtain ⟨rs, hg, hd⟩ := hs
      cases rs with
      | nil =>
        have := congrArg List.length hd
        simp only [List.length_drop, List.flatMap_nil, List.length_nil] at this
        omega
      | cons r rest =>
        simp only [List.flatMap_cons] at hd
        have hr := hg r (List.mem_cons_self _ _)
        have hrest : ∀ q ∈ rest, utf8.ValidRune q ∧ q ≠ utf8.RuneError
            ∧ isZeroWidthOrBidi q = false := fun q hq => hg q (List.mem_cons_of_mem _ hq)
        have hdec : utf8.DecodeRuneInString (cmd.drop i) = (r, (utf8.EncodeRune r).length) := by
          rw [hd]
          exact utf8.decode_encode r _ hr.1
        have hwpos := utf8.encode_length_pos r
        have hlen : (utf8.EncodeRune r).length + (rest.flatMap utf8.EncodeRune).length
            = cmd.length - i := by
          have := congrArg List.length hd
          simp only [List.length_drop, List.length_append] at this
          omega
        have hbyte : ∀ j, i ≤ j → j < i + (utf8.EncodeRune r).length →
            cmd.getD j 0 = (utf8.EncodeRune r).getD (j - i) 0 := by
          intro j j1 j2
          have e1 : cmd.getD j 0 = (cmd.drop i).getD (j - i) 0 := by
            simp only [List.getD_eq_getElem?_getD, List.getElem?_drop]
            congr 2
            omega
          rw [e1, hd, List.getD_append _ _ _ _ (by omega)]
        unfold rewriteLoop
        rw [if_pos hlt]
        simp only [hdec]
        rw [if_neg hr.2.1]
        by_cases hesc : r = 0x1B
        · subst hesc
          rw [if_pos rfl, rewrite.escEnd_eq_spanEnd]
          have hb : cmd.getD i 0 = 0x1B := by
            rw [hbyte i (le_refl _) (by omega), Nat.sub_self]
            rfl
          have hge := ANSIEscapeRule.spanEnd_ge cmd i cmd.length (i + 1)
          have hle := ANSIEscapeRule.spanEnd_le cmd i cmd.length (i + 1) (by omega)
          have hloop := ansiLoop_esc cmd i hlt hb
          have hke := keptFrom_esc cmd i hlt hb
          generalize ANSIEscapeRule.spanEnd cmd i cmd.length (i + 1) = e
            at hge hle hloop hke ⊢
          have hslen : (slice cmd i e).length = e - i := slice_length cmd i e hle
          have hH := H _ (hsub _ (by rw [hloop]; exact List.mem_cons_self _ _))
          simp only [hslen] at hH
          rw [show i + (e - i) = e by omega] at hH
          have hbd := utf8.encoded_boundary (0x1B :: rest) (e - i)
            (by simp only [List.flatMap_cons, List.length_append]; omega)
            (by
              simp only [List.flatMap_cons, List.length_append]
              rcases hH with h | h
              · left; omega
              · right
                rw [← hd]
                have : (cmd.drop i).getD (e - i) 0 = cmd.getD e 0 := by
                  simp only [List.getD_eq_getElem?_getD, List.getElem?_drop]
                  congr 2
                  omega
                rw [this]
                exact h)
          obtain ⟨a, b', hab, hdrop⟩ := hbd
          simp only [List.flatMap_cons] at hdrop
          rw [← hd, List.drop_drop] at hdrop
          rw [show i + (e - i) = e by omega] at hdrop
          rw [hke]
          refine ih e b (by omega) hle ⟨b', ?_, hdrop⟩ ?_
          · intro q hq
            exact hg q (by rw [hab]; exact List.mem_append_right _ hq)
          · intro f hf
            exact hsub f (by rw [hloop]; exact List.mem_cons_of_mem _ hf)
        · rw [if_neg hesc, if_neg (by simp [hr.2.2])]
          simp only [Bool.false_eq_true, if_false]
          have hnoesc : ∀ j, i ≤ j → j < i + (utf8.EncodeRune r).length →
              cmd.getD j 0 ≠ 0x1B := by
            intro j j1 j2 hc
            rw [hbyte j j1 j2] at hc
            have hmem : (0x1B : Nat) ∈ utf8.EncodeRune r := by
              rw [← hc, List.getD_eq_getElem?_getD,
                List.getElem?_eq_getElem (show j - i < (utf8.EncodeRune r).length by omega)]
              simp
            rcases utf8.encode_byte r 0x1B hmem with ⟨-, h⟩ | h
            · exact hesc h.symm
            · omega
          obtain ⟨hk1, hk2⟩ := keptFrom_run cmd i (utf8.EncodeRune r).length (by omega) hnoesc
          have htake : (cmd.drop i).take (utf8.EncodeRune r).length = utf8.EncodeRune r := by
            rw [hd, List.take_left']
            rfl
          have hdrop : cmd.drop (i + (utf8.EncodeRune r).length)
              = rest.flatMap utf8.EncodeRune := by
            rw [← List.drop_drop, hd, List.drop_left']
            rfl
          rw [hk1, htake, ← List.append_assoc]
          refine ih (i + (utf8.EncodeRune r).length) _ (by omega) (by omega)
            ⟨rest, hrest, hdrop⟩ ?_
          intro f hf
          exact hsub f (by rw [hk2]; exact hf)
    · rw [rules.keptFrom_end cmd _ i (by omega)]
      unfold rewriteLoop
      rw [if_neg hlt]
      simp

/-- C25, as amended.  For every valid UTF-8 command (the encoding of valid
code points `rs`) with no zero-width or bidi code point and no U+FFFD, in
which no span reported by the escape rule ends inside a code point (each is
followed by the end of the command or by a byte that starts a code point),
`SafeRewrite` without folding is the command with the byte ranges
`[f.Position, f.Position + len(f.Token))` of the findings of
`ANSIEscapeRule.Check` under the nil policy deleted. -/
theorem SafeRewrite_deletes_spans (rs : List Nat)
    (hv : ∀ r ∈ rs, utf8.ValidRune r ∧ r ≠ utf8.RuneError ∧ isZeroWidthOrBidi r = false)
    (H : ∀ f ∈ ANSIEscapeRule.Check (rs.flatMap utf8.EncodeRune) none,
      f.Position + f.Token.length = (rs.flatMap utf8.EncodeRune).length
        ∨ utf8.RuneStart ((rs.flatMap utf8.EncodeRune).getD (f.Position + f.Token.length) 0)
            = true) :
    SafeRewrite (rs.flatMap utf8.EncodeRune) false
      = deleteRanges (rs.flatMap utf8.EncodeRune)
          (ANSIEscapeRule.Check (rs.flatMap utf8.EncodeRune) none) := by
  have hc : ANSIEscapeRule.Check (rs.flatMap utf8.EncodeRune) none
      = ANSIEscapeRule.loop (rs.flatMap utf8.EncodeRune) (rs.flatMap utf8.EncodeRune).length 0 [] :=
    rfl
  rw [hc] at H ⊢
  rw [rules.deleteRanges_eq]
  have := rewriteLoop_deletes (rs.flatMap utf8.EncodeRune) H
    (rs.flatMap utf8.EncodeRune).length 0 [] (by omega) (Nat.zero_le _) ⟨rs, hv, rfl⟩
    (fun f hf => hf)
  simpa [SafeRewrite] using this

set_option maxRecDepth 100000 in
theorem SafeRewrite_deletes_spans_witness :
    (∀ r ∈ [0x61, 0x1B, 0x5D, 0xE9, 0x1B, 0x0A, 0x62],
        utf8.ValidRune r ∧ r ≠ utf8.RuneError ∧ isZeroWidthOrBidi r = false)
      ∧ [0x61, 0x1B, 0x5D, 0xE9, 0x1B, 0x0A, 0x62].flatMap utf8.EncodeRune
          = str "a\x1b]\u00E9\x1b\nb"
      ∧ (ANSIEscapeRule.Check (str "a\x1b]\u00E9\x1b\nb") none).map
          (fun f => (f.Position, f.Token)) = [(1, str "\x1b]"), (5, str "\x1b\n")]
      ∧ deleteRanges (str "a\x1b]\u00E9\x1b\nb") (ANSIEscapeRule.Check (str "a\x1b]\u00E9\x1b\nb") none)
          = str "a\u00E9b"
      ∧ SafeRewrite ([0x61, 0x1B, 0x5D, 0xE9, 0x1B, 0x0A, 0x62].flatMap utf8.EncodeRune) false
          = deleteRanges ([0x61, 0x1B, 0x5D, 0xE9, 0x1B, 0x0A, 0x62].flatMap utf8.EncodeRune)
              (ANSIEscapeRule.Check
                ([0x61, 0x1B, 0x5D, 0xE9, 0x1B, 0x0A, 0x62].flatMap utf8.EncodeRune) none) :=
  ⟨by decide, by decide, by decide, by decide,
    SafeRewrite_deletes_spans [0x61, 0x1B, 0x5D, 0xE9, 0x1B, 0x0A, 0x62] (by decide)
      (by decide)⟩

set_option maxRecDepth 100000 in
/-- C25, at an input where it fails.  The command ESC followed by 22 times
U+20AC (three bytes each) is valid UTF-8 without zero-width or bidi code
point and without U+FFFD.  The escape rule reports the span of the first 65
bytes, which ends after the first byte of the last U+20AC; deleting it
leaves the bytes 82 AC, while `SafeRewrite` returns the empty string: it
skips the same span and then drops the two bytes as malformed. -/
theorem SafeRewrite_drops_cut_code_point :
    (∀ r ∈ 0x1B :: List.replicate 22 0x20AC,
        utf8.ValidRune r ∧ r ≠ utf8.RuneError ∧ isZeroWidthOrBidi r = false)
      ∧ (ANSIEscapeRule.Check ((0x1B :: List.replicate 22 0x20AC).flatMap utf8.EncodeRune)
          none).map (fun f => (f.Position, f.Token.length)) = [(0, 65)]
      ∧ deleteRanges ((0x1B :: List.replicate 22 0x20AC).flatMap utf8.EncodeRune)
          (ANSIEscapeRule.Check ((0x1B :: List.replicate 22 0x20AC).flatMap utf8.EncodeRune)
            none) = [0x82, 0xAC]
      ∧ SafeRewrite ((0x1B :: List.replicate 22 0x20AC).flatMap utf8.EncodeRune) false = []
      ∧ SafeRewrite ((0x1B :: List.replicate 22 0x20AC).flatMap utf8.EncodeRune) false
          ≠ deleteRanges ((0x1B :: List.replicate 22 0x20AC).flatMap utf8.EncodeRune)
              (ANSIEscapeRule.Check
                ((0x1B :: List.replicate 22 0x20AC).flatMap utf8.EncodeRune) none) := by
  refine ⟨by decide, by decide, by decide, by decide, by decide⟩

/-! ## The default configuration -/

theorem config.rules_lookup_mem (m : List (GoString × Bool)) (name : GoString) (v : Bool)
    (h : m.lookup name = some v) : (name, v) ∈ m := by
  induction m with
  | nil => simp at h
  | cons p m ih =>
    obtain ⟨a, b⟩ := p
    simp only [List.lookup_cons] at h
    split at h
    · rename_i heq
      cases h
      have : name = a := by simpa using heq
      rw [this]
      exact List.mem_cons_self _ _
    · exact List.mem_cons_of_mem _ (ih h)

/-- A rule is reported as disabled only by a map that holds its name with
the value false. -/
theorem config.RuleEnabled_false_iff (c : config.Config) (name : GoString) :
    c.RuleEnabled name = false ↔ ∃ m, c.Rules = some m ∧ m.lookup name = some false := by
  unfold config.Config.RuleEnabled
  cases c.Rules with
  | none => simp
  | some m =>
    cases hl : m.lookup name with
    | none => simp [hl]
    | some v => simp [hl]

/-- C31. The map `Rules` of `DefaultConfig` has the nine keys
unicode_homoglyph, zero_width, bidi_controls, ansi_escape, pipe_to_shell,
dotfile_write, persistence_patterns, shortener_domains, subshell_command and
no other, each mapped to true; each is the key on which the `Check` of the
corresponding rule, and nothing else of the policy, depends; and for every
command `Run` under the default configuration is `Run` under the nil
policy: the same findings and severity, and a panic where that one
panics. -/
theorem Run_DefaultConfig (U : UnicodeTables) (cmd : GoString) (cfg : RuleConfig) :
    (∃ m, config.DefaultConfig.Rules = some m
        ∧ m.map Prod.fst = [str "unicode_homoglyph", str "zero_width", str "bidi_controls",
            str "ansi_escape", str "pipe_to_shell", str "dotfile_write",
            str "persistence_patterns", str "shortener_domains", str "subshell_command"]
        ∧ (m.map Prod.fst).Nodup
        ∧ (∀ p ∈ m, p.2 = true)
        ∧ ∀ name, name ∉ m.map Prod.fst → m.lookup name = none)
      ∧ (∀ name, config.DefaultConfig.RuleEnabled name = true)
      ∧ (UnicodeHomoglyphRule.Check U cmd cfg
            = if disabled cfg (str "unicode_homoglyph") then []
              else UnicodeHomoglyphRule.Check U cmd none)
      ∧ (ZeroWidthRule.Check cmd cfg
            = if disabled cfg (str "zero_width") then [] else ZeroWidthRule.Check cmd none)
      ∧ (BidiControlsRule.Check cmd cfg
            = if disabled cfg (str "bidi_controls") then [] else BidiControlsRule.Check cmd none)
      ∧ (ANSIEscapeRule.Check cmd cfg
            = if disabled cfg (str "ansi_escape") then [] else ANSIEscapeRule.Check cmd none)
      ∧ (PipeToShellRule.Check cmd cfg
            = if disabled cfg (str "pipe_to_shell") then [] else PipeToShellRule.Check cmd none)
      ∧ (DotfileWriteRule.Check U cmd cfg
            = if disabled cfg (str "dotfile_write") then some []
              else DotfileWriteRule.Check U cmd none)
      ∧ (PersistenceRule.Check cmd cfg
            = if disabled cfg (str "persistence_patterns") then []
              else PersistenceRule.Check cmd none)
      ∧ (ShortenerRule.Check U cmd cfg
            = if disabled cfg (str "shortener_domains") then []
              else ShortenerRule.Check U cmd none)
      ∧ (SubshellRule.Check cmd cfg
            = if disabled cfg (str "subshell_command") then [] else SubshellRule.Check cmd none)
      ∧ Run U cmd config.DefaultConfig.asRuleConfig = Run U cmd none := by
  have hall : ∀ name, config.DefaultConfig.RuleEnabled name = true := by
    intro name
    cases hl : config.DefaultConfig.RuleEnabled name with
    | true => rfl
    | false =>
      obtain ⟨m, hm, hf⟩ := (config.RuleEnabled_false_iff _ _).1 hl
      have hm' : m = [(str "unicode_homoglyph", true), (str "zero_width", true),
          (str "bidi_controls", true), (str "ansi_escape", true), (str "pipe_to_shell", true),
          (str "dotfile_write", true), (str "persistence_patterns", true),
          (str "shortener_domains", true), (str "subshell_command", true)] :=
        (Option.some.inj hm).symm
      have := config.rules_lookup_mem m name false hf
      rw [hm'] at this
      simp at this
  refine ⟨⟨_, rfl, by decide, by decide, by decide, ?_⟩, hall, homoglyphCheck_cfg U cmd cfg,
    zeroWidthCheck_cfg cmd cfg, bidiCheck_cfg cmd cfg, ansiCheck_cfg cmd cfg,
    pipeToShellCheck_cfg cmd cfg, dotfileCheck_cfg U cmd cfg, persistenceCheck_cfg cmd cfg,
    shortenerCheck_cfg U cmd cfg, subshellCheck_cfg cmd cfg, ?_⟩
  · intro name h
    simp only [List.map_cons, List.map_nil, List.mem_cons, List.mem_singleton, List.not_mem_nil,
      or_false, not_or] at h
    obtain ⟨h1, h2, h3, h4, h5, h6, h7, h8, h9⟩ := h
    simp only [List.lookup, beq_eq_false_iff_ne.2 h1, beq_eq_false_iff_ne.2 h2,
      beq_eq_false_iff_ne.2 h3, beq_eq_false_iff_ne.2 h4, beq_eq_false_iff_ne.2 h5,
      beq_eq_false_iff_ne.2 h6, beq_eq_false_iff_ne.2 h7, beq_eq_false_iff_ne.2 h8,
      beq_eq_false_iff_ne.2 h9]
  · apply Run_of_all_enabled
    intro key _
    unfold config.Config.asRuleConfig disabled
    simp only [hall key, Bool.not_true]

end Preexec
